import Mathlib

/-!
# A verification development for the `jslink` module-collection core

This file gives a shallow embedding, in Lean, of `src/collection.js` and the
parts of `src/lib.js` it uses, and proves properties of the embedded code.

Modelling conventions:
* JavaScript objects used as dictionaries (`this.modules`, `this.sources`,
  `module.requires`, `module.dependants`) are modelled as insertion-ordered
  association lists.  Keys obtained by coercing a `Module` object to a string
  (`this.requires[requirement] = requirement`) are modelled by the module's
  name, which is exactly what `Module.prototype.toString` returns.
  Prototype-chain key collisions (a module literally named `"toString"`) are
  outside the model.
* JavaScript exceptions are modelled by an error constructor that carries the
  thrown message together with the mutated heap state at the moment of the
  throw (`JsResult.err`), since in JS an exception does not roll back earlier
  field mutations.
* `lib.stringLike` trims its argument with `String.prototype.trim`; we model
  the trimmed character set by the common JS whitespace characters.
* The recursive graph traversals (`collectionAdjacencyIndex`,
  `collectionTopoSort`) are written with an explicit fuel parameter; the
  public `serialize` supplies fuel `numberOfStoredModules + 1`, which is
  proved sufficient below (the recursion depth of either traversal is bounded
  by the number of modules not yet marked).
-/

set_option maxHeartbeats 1000000

namespace Jslink

/-- The JS whitespace characters removed by `String.prototype.trim`
(the common ASCII subset). -/
def isJsWhitespace (c : Char) : Bool :=
  c = ' ' || c = '\t' || c = '\n' || c = '\r' || c = '\x0b' || c = '\x0c'

/-- `String.prototype.trim` on the model's character set. -/
def jsTrim (s : String) : String :=
  ⟨((s.data.dropWhile isJsWhitespace).reverse.dropWhile isJsWhitespace).reverse⟩

/-- `lib.stringLike` (src/lib.js:56-63) applied to an actual string argument:
a string is falsy exactly when it is empty, in which case a `TypeError` is
thrown; otherwise the trimmed string is returned. -/
def stringLike (s : String) : Except String String :=
  if s = "" then Except.error ("Not a valid string: " ++ s) else Except.ok (jsTrim s)

/-- `lib.stringLike` applied to a value that may be JS `undefined`
(modelled by `none`): `undefined` is falsy, so a `TypeError` is thrown. -/
def stringLikeOpt : Option String → Except String String
  | none => Except.error "Not a valid string: undefined"
  | some s => stringLike s

/-- String coercion of a possibly-`undefined` value, as used when a message
is built by concatenation (`lib.format` keeps `undefined` as `"undefined"`,
only `null` becomes the empty string). -/
def optToStr : Option String → String
  | none => "undefined"
  | some s => s

/-- `ModuleCollection.Module` (src/collection.js:314-364).  The transient
traversal fields `topologicalMarker`, `sorting`, `indexing` and `index` are
absent (hence falsy / `undefined`) on a fresh object; we model absence of the
three boolean markers by `false` and absence of `index` by `0`. -/
structure Module where
  name : String
  requiresKeys : List String
  numberOfRequirements : Nat
  dependants : List String
  numberOfDependants : Nat
  exports : List String
  source : Option String
  topologicalMarker : Bool
  sorting : Bool
  indexing : Bool
  index : Nat
deriving DecidableEq, Repr

/-- `Module.prototype.define` (src/collection.js:374-382): redefinition is an
error; otherwise the source is stored after `lib.stringLike` trimming. -/
def Module.define (m : Module) (source : Option String) : Except String Module :=
  if m.source ≠ none then
    Except.error ("Duplicate definition of " ++ m.name ++ " at: " ++ optToStr source ++
      "\n\nAlready defined by " ++ optToStr m.source)
  else
    match stringLikeOpt source with
    | Except.error e => Except.error e
    | Except.ok s => Except.ok { m with source := some s }

/-- The field state of a `Module` right after `new ModuleCollection.Module(n)`
with a valid non-blank name and no source: empty adjacency, empty exports,
no source, and all transient traversal fields absent (falsy). -/
def initModule (n : String) : Module :=
  { name := n, requiresKeys := [], numberOfRequirements := 0,
    dependants := [], numberOfDependants := 0, exports := [],
    source := none, topologicalMarker := false, sorting := false,
    indexing := false, index := 0 }

/-- The `Module` constructor (src/collection.js:314-364): the name is passed
through `lib.stringLike` (throwing on a falsy argument), then checked for
blankness, the remaining fields are initialised, and a truthy `source`
argument is forwarded to `define`. -/
def mkModule (name : String) (source : Option String) : Except String Module :=
  match stringLike name with
  | Except.error e => Except.error e
  | Except.ok n =>
    if n = "" then Except.error "Module name cannot be blank."
    else
      match source with
      | some s => if s = "" then Except.ok (initModule n) else (initModule n).define (some s)
      | none => Except.ok (initModule n)

/-- `Module.prototype.addExport` (src/collection.js:389-401): a falsy `meta`
argument (absent or empty) defaults to the module's own name; duplicates are
not appended.  (The original returns the Node global `module`, a quirk not
modelled; the updated module record is returned instead.) -/
def Module.addExport (m : Module) (meta : Option String) : Module :=
  let t := match meta with
    | none => m.name
    | some s => if s = "" then m.name else s
  if m.exports.contains t then m else { m with exports := m.exports ++ [t] }

/-- `Module.prototype.defined` (src/collection.js:408-410). -/
def Module.defined (m : Module) : Bool :=
  m.source ≠ none

/-- `ModuleCollection` (src/collection.js:71-103).  `sources` maps a key to
the inner object mapping keys to module names (see `add` for the exact — and
surprising — keys used). -/
structure ModuleCollection where
  modules : List Module
  numberOfModules : Nat
  sources : List (String × List (String × String))
  dependencies : List (String × String)
  numberOfDependencies : Nat
deriving DecidableEq, Repr

/-- The `ModuleCollection` constructor: everything empty. -/
def emptyCollection : ModuleCollection :=
  { modules := [], numberOfModules := 0, sources := [], dependencies := [],
    numberOfDependencies := 0 }

/-- Looking a module up by name in the `modules` dictionary. -/
def findModule (ms : List Module) (n : String) : Option Module :=
  ms.find? (fun m => m.name == n)

/-- In-place mutation of the module object stored under a name. -/
def updateModule (ms : List Module) (n : String) (f : Module → Module) : List Module :=
  ms.map (fun m => if m.name == n then f m else m)

/-- The outcome of an operation on a collection: a JS return value or a JS
throw.  Both carry the heap state of the collection afterwards, because a JS
exception does not undo mutations that happened before the throw. -/
inductive JsResult (α : Type) where
  | ok : α → ModuleCollection → JsResult α
  | err : String → ModuleCollection → JsResult α
deriving DecidableEq, Repr

/-- `ModuleCollection.prototype.get` (src/collection.js:113-116).  Note the
order of effects on the create path: `numberOfModules` is incremented
*before* the `Module` constructor runs, so a constructor throw leaves the
counter incremented with no module stored. -/
def ModuleCollection.get (c : ModuleCollection) (name : String) (anyway : Bool) :
    JsResult (Option String) :=
  match stringLike name with
  | Except.error e => JsResult.err e c
  | Except.ok n =>
    match findModule c.modules n with
    | some m => JsResult.ok (some m.name) c
    | none =>
      if anyway then
        let c1 := { c with numberOfModules := c.numberOfModules + 1 }
        match mkModule n none with
        | Except.error e => JsResult.err e c1
        | Except.ok m => JsResult.ok (some m.name) { c1 with modules := c1.modules ++ [m] }
      else JsResult.ok none c

/-- `ModuleCollection.prototype.getBySource` (src/collection.js:124-126):
plain lookup of `this.sources[source]`. -/
def ModuleCollection.getBySource (c : ModuleCollection) (source : String) :
    Option (List (String × String)) :=
  (c.sources.find? (fun p => p.1 == source)).map (fun p => p.2)

/-- Setting a key of an inner sources object (`obj[key] = value`). -/
def assocSet (l : List (String × String)) (k v : String) : List (String × String) :=
  if l.any (fun p => p.1 == k) then l.map (fun p => if p.1 == k then (k, v) else p)
  else l ++ [(k, v)]

/-- `ModuleCollection.prototype.add` (src/collection.js:135-138).  The lookup
guard reads `this.sources[module.source]`, but on a miss the fresh inner
object is stored under `this.sources[module]` — the *module coerced to a
string*, i.e. its name — and the inner object is then keyed by the source
path.  This asymmetry is modelled exactly. -/
def ModuleCollection.add (c : ModuleCollection) (name : String) (source : Option String) :
    JsResult String :=
  match c.get name true with
  | JsResult.err e c1 => JsResult.err e c1
  | JsResult.ok none c1 => JsResult.err "jslink model: get with anyway returned undefined" c1
  | JsResult.ok (some n) c1 =>
    match findModule c1.modules n with
    | none => JsResult.err "jslink model: missing module after get" c1
    | some m =>
      match m.define source with
      | Except.error e => JsResult.err e c1
      | Except.ok m2 =>
        let c2 := { c1 with modules := updateModule c1.modules n (fun _ => m2) }
        let skey := optToStr m2.source
        if c2.sources.any (fun p => p.1 == skey) then
          let srcs2 := c2.sources.map (fun p => if p.1 == skey then (p.1, assocSet p.2 skey n) else p)
          JsResult.ok n { c2 with sources := srcs2 }
        else
          JsResult.ok n { c2 with sources := c2.sources ++ [(m2.name, [(skey, n)])] }

/-- `Module.prototype.require` (src/collection.js:419-436), acting on the two
modules stored in the collection: self-dependency and duplicate edges (in
either adjacency set) throw before any mutation; otherwise the edge is stored
redundantly in both endpoints. -/
def ModuleCollection.requireOp (c : ModuleCollection) (mName rName : String) :
    Except String ModuleCollection :=
  match findModule c.modules mName, findModule c.modules rName with
  | some m, some r =>
    if m.name = r.name then
      Except.error ("Module " ++ m.name ++ " cannot depend on itself!")
    else if m.requiresKeys.contains r.name || r.dependants.contains m.name then
      Except.error (r.name ++ " already marked as requirement of " ++ m.name)
    else
      let step1 := updateModule c.modules m.name (fun x =>
        { x with requiresKeys := x.requiresKeys ++ [r.name],
                 numberOfRequirements := x.numberOfRequirements + 1 })
      let step2 := updateModule step1 r.name (fun x =>
        { x with dependants := x.dependants ++ [m.name],
                 numberOfDependants := x.numberOfDependants + 1 })
      Except.ok { c with modules := step2 }
  | _, _ => Except.error "jslink model: missing module in require"

/-- `ModuleCollection.prototype.connect` (src/collection.js:147-150) together
with the `Dependency` constructor (src/collection.js:272-290): both endpoints
are get-or-created (in argument order), `module.require(requirement)`
validates and stores the edge, and only then is the dependency pushed and the
counter incremented — so a throw from `require` leaves `dependencies` and
`numberOfDependencies` untouched while the get-or-created endpoints persist. -/
def ModuleCollection.connect (c : ModuleCollection) (a b : String) :
    JsResult (String × String) :=
  match c.get a true with
  | JsResult.err e c1 => JsResult.err e c1
  | JsResult.ok oa c1 =>
    match c1.get b true with
    | JsResult.err e c2 => JsResult.err e c2
    | JsResult.ok ob c2 =>
      match oa, ob with
      | some na, some nb =>
        match c2.requireOp na nb with
        | Except.error e => JsResult.err e c2
        | Except.ok c3 =>
          JsResult.ok (na, nb)
            { c3 with dependencies := c3.dependencies ++ [(na, nb)],
                      numberOfDependencies := c3.numberOfDependencies + 1 }
      | _, _ => JsResult.err "jslink model: get with anyway returned undefined" c2

/-- The statistics record produced by `analyse`. -/
structure Stat where
  orphanModules : List String
  definedModules : List String
  numberOfExports : Nat
deriving DecidableEq, Repr

/-- One step of the built-in analyser's `for prop in this.modules` loop
(src/collection.js:463-467): push the module's name into `definedModules` or
`orphanModules` according to `defined()`, and add its export count. -/
def analyseStep (st : Stat) (m : Module) : Stat :=
  if m.defined then
    { st with definedModules := st.definedModules ++ [m.name],
              numberOfExports := st.numberOfExports + m.exports.length }
  else
    { st with orphanModules := st.orphanModules ++ [m.name],
              numberOfExports := st.numberOfExports + m.exports.length }

/-- `ModuleCollection.prototype.analyse` (src/collection.js:157-166) running
the single built-in analyser (src/collection.js:455-468): partition the
modules by `defined()` and sum the export counts. -/
def ModuleCollection.analyse (c : ModuleCollection) : Stat :=
  c.modules.foldl analyseStep
    { orphanModules := [], definedModules := [], numberOfExports := 0 }

/-- One iteration of clone's module loop (src/collection.js:179-181):
`clone.add(this.modules[item].clone(), this.modules[item].source)` — the
`Module` constructor runs first (its throw propagates), the resulting object
is passed to `add` where string coercion reduces it to the module's name. -/
def cloneAddStep (acc : ModuleCollection) (m : Module) : Except String ModuleCollection := do
  let _ ← mkModule m.name m.source
  match acc.add m.name m.source with
  | JsResult.err e _ => Except.error e
  | JsResult.ok _ acc2 => Except.ok acc2

/-- One iteration of clone's dependency loop (src/collection.js:184-187):
`clone.connect(item.module, item.require)`, the endpoints again reduced to
their names by string coercion. -/
def cloneConnectStep (acc : ModuleCollection) (d : String × String) :
    Except String ModuleCollection :=
  match acc.connect d.1 d.2 with
  | JsResult.err e _ => Except.error e
  | JsResult.ok _ acc2 => Except.ok acc2

/-- `ModuleCollection.prototype.clone` (src/collection.js:172-190).  For each
module, `module.clone()` runs the `Module` constructor on (name, source) and
the resulting object is passed to `clone.add` as the *name* argument, where
string coercion turns it back into the module's name; then every stored
dependency is replayed through `connect`.  A throw anywhere (in particular
`define(undefined)` for a module that has no source) aborts the whole clone;
the original collection is never mutated. -/
def ModuleCollection.clone (c : ModuleCollection) : Except String ModuleCollection := do
  let afterAdds ← c.modules.foldlM cloneAddStep emptyCollection
  c.dependencies.foldlM cloneConnectStep afterAdds

/-- The outcome of a (possibly nested) `collectionTopoSort` traversal: a
normal return carrying the mutated modules and the sort stack, or a JS throw
carrying the message and the mutated modules at the moment of the throw. -/
inductive TravResult where
  | ok : List Module → List (List String) → TravResult
  | thrown : String → List Module → TravResult
deriving DecidableEq, Repr

/-- `(sortStack[i] || (sortStack[i] = [])).push(module)` on the sort stack
(src/collection.js:37).  In `serialize` the written index is always at most
the stack length (each component's bucket is created by the iteration that
assigns the component index), so the padding branch is unreachable there. -/
def pushAt (st : List (List String)) (i : Nat) (x : String) : List (List String) :=
  if h : i < st.length then st.set i (st.get ⟨i, h⟩ ++ [x])
  else st ++ List.replicate (i - st.length) [] ++ [[x]]

/-- The `for item in module.requires` / `for item in module.dependants` loops
of `collectionAdjacencyIndex`, over the concatenated key lists, parameterised
by the recursive call (instantiated with one less fuel). -/
def adjacencyIndexChildren
    (recur : List Module → String → Nat → Option (List Module)) :
    List String → List Module → Nat → Option (List Module)
  | [], ms, _ => some ms
  | k :: ks, ms, idx =>
    match recur ms k idx with
    | none => none
    | some ms1 => adjacencyIndexChildren recur ks ms1 idx

/-- `collectionAdjacencyIndex` (src/collection.js:49-63): an undirected DFS
that stamps every reachable not-yet-indexed module with the component index,
recursing through `requires` and then `dependants`.  `fuel` bounds the
recursion depth; `none` means the fuel ran out (proved impossible below for
the fuel `serialize` supplies). -/
def adjacencyIndexFuel : Nat → List Module → String → Nat → Option (List Module)
  | 0, _, _, _ => none
  | fuel + 1, ms, n, idx =>
    match findModule ms n with
    | none => some ms
    | some m =>
      if m.indexing then some ms
      else
        let ms1 := updateModule ms n (fun x => { x with index := idx, indexing := true })
        adjacencyIndexChildren (adjacencyIndexFuel fuel) (m.requiresKeys ++ m.dependants) ms1 idx

/-- The `for item in module.requires` loop of `collectionTopoSort`: recurse
into each requirement in insertion order, aborting on a throw; parameterised
by the recursive call (instantiated with one less fuel). -/
def topoSortChildren
    (recur : List Module → String → List (List String) → Option TravResult) :
    List String → List Module → List (List String) → Option TravResult
  | [], ms, st => some (TravResult.ok ms st)
  | k :: ks, ms, st =>
    match recur ms k st with
    | none => none
    | some (TravResult.thrown e ms1) => some (TravResult.thrown e ms1)
    | some (TravResult.ok ms1 st1) => topoSortChildren recur ks ms1 st1

/-- `collectionTopoSort` (src/collection.js:21-39): DFS postorder along
`requires`.  Re-entering a module whose `topologicalMarker` is set deletes
that marker and throws the cyclic-dependency error (the markers of the other
modules on the traversal stack survive, because the exception propagates past
their cleanup).  A sorted module is a no-op; otherwise the module is marked,
its requirements are recursed into, the marker is dropped, `sorting` is set
and the module is pushed onto the bucket selected by its component index. -/
def topoSortFuel : Nat → List Module → String → List (List String) → Option TravResult
  | 0, _, _, _ => none
  | fuel + 1, ms, n, st =>
    match findModule ms n with
    | none => some (TravResult.ok ms st)
    | some m =>
      if m.topologicalMarker then
        let ms1 := updateModule ms n (fun x => { x with topologicalMarker := false })
        some (TravResult.thrown ("Cyclic dependency error discovered while parsing: " ++ n) ms1)
      else if m.sorting then some (TravResult.ok ms st)
      else
        let ms1 := updateModule ms n (fun x => { x with topologicalMarker := true })
        match topoSortChildren (topoSortFuel fuel) m.requiresKeys ms1 st with
        | none => none
        | some (TravResult.thrown e ms2) => some (TravResult.thrown e ms2)
        | some (TravResult.ok ms2 st2) =>
          let ms3 := updateModule ms2 n (fun x =>
            { x with topologicalMarker := false, sorting := true })
          match findModule ms3 n with
          | none => some (TravResult.ok ms3 st2)
          | some m3 => some (TravResult.ok ms3 (pushAt st2 m3.index n))

/-- The outcome of the main `serialize` loop. -/
inductive SerResult where
  | ok : List Module → List (List String) → Nat → SerResult
  | thrown : String → List Module → SerResult
deriving DecidableEq, Repr

/-- The `for (module in modules)` loop of `serialize`
(src/collection.js:205-213): for each module in registry order, index its
component (post-incrementing `adjacencyPoint`) if it is not yet indexed, then
topologically sort from it if it is not yet sorted.  A throw from the sort
aborts the loop, keeping the mutated modules. -/
def serializeGo (fuel : Nat) :
    List String → List Module → Nat → List (List String) → Option SerResult
  | [], ms, ap, st => some (SerResult.ok ms st ap)
  | n :: rest, ms, ap, st =>
    match findModule ms n with
    | none => serializeGo fuel rest ms ap st
    | some m =>
      let idxStep := if m.indexing then some (ms, ap)
        else (adjacencyIndexFuel fuel ms n ap).map (fun ms1 => (ms1, ap + 1))
      match idxStep with
      | none => none
      | some (ms1, ap1) =>
        match findModule ms1 n with
        | none => serializeGo fuel rest ms1 ap1 st
        | some m1 =>
          if m1.sorting then serializeGo fuel rest ms1 ap1 st
          else
            match topoSortFuel fuel ms1 n st with
            | none => none
            | some (TravResult.thrown e ms2) => some (SerResult.thrown e ms2)
            | some (TravResult.ok ms2 st2) => serializeGo fuel rest ms2 ap1 st2

/-- `ModuleCollection.prototype.serialize` (src/collection.js:197-223) with
an explicit fuel: run the indexing/sorting loop; on normal completion run the
cleanup loop that deletes every module's `sorting` and `indexing` flags (but
not `topologicalMarker` or `index`) and return the sort stack; a throw
propagates with the partially-mutated modules and *skips the cleanup loop*. -/
def serializeFuel (c : ModuleCollection) (fuel : Nat) :
    Option (JsResult (List (List String))) :=
  match serializeGo fuel (c.modules.map (fun m => m.name)) c.modules 0 [] with
  | none => none
  | some (SerResult.thrown e ms) => some (JsResult.err e { c with modules := ms })
  | some (SerResult.ok ms st _) =>
    let cleaned := ms.map (fun m => { m with sorting := false, indexing := false })
    some (JsResult.ok st { c with modules := cleaned })

/-- `serialize` with the sufficient fuel `numberOfStoredModules + 1` (the
fallback branch is proved unreachable below). -/
def ModuleCollection.serialize (c : ModuleCollection) : JsResult (List (List String)) :=
  match serializeFuel c (c.modules.length + 1) with
  | some r => r
  | none => JsResult.err "jslink model: fuel exhausted" c

/-! ## State views and graph relations -/

/-- The `requires` key list of the module stored under a name (empty when no
such module exists). -/
def reqsOf (ms : List Module) (n : String) : List String :=
  match findModule ms n with
  | some m => m.requiresKeys
  | none => []

/-- The `dependants` key list of the module stored under a name. -/
def depsOf (ms : List Module) (n : String) : List String :=
  match findModule ms n with
  | some m => m.dependants
  | none => []

/-- Whether the module stored under a name carries the DFS gray marker. -/
def markedB (ms : List Module) (n : String) : Bool :=
  match findModule ms n with
  | some m => m.topologicalMarker
  | none => false

/-- Whether the module stored under a name is marked `sorting` (DFS black). -/
def sortedB (ms : List Module) (n : String) : Bool :=
  match findModule ms n with
  | some m => m.sorting
  | none => false

/-- Whether the module stored under a name has been component-indexed. -/
def indexedB (ms : List Module) (n : String) : Bool :=
  match findModule ms n with
  | some m => m.indexing
  | none => false

/-- The component index of the module stored under a name. -/
def idxOf (ms : List Module) (n : String) : Nat :=
  match findModule ms n with
  | some m => m.index
  | none => 0

/-- The directed requires-edge relation of a module list: `a` requires `b`. -/
def EdgeL (ms : List Module) (a b : String) : Prop :=
  b ∈ reqsOf ms a

instance (ms : List Module) (a b : String) : Decidable (EdgeL ms a b) := by
  unfold EdgeL; infer_instance

/-- Weak (undirected) adjacency, exactly the edges the component indexer
walks: `b` is a key of `a`'s `requires` or `dependants`. -/
def WAdjL (ms : List Module) (a b : String) : Prop :=
  b ∈ reqsOf ms a ∨ b ∈ depsOf ms a

instance (ms : List Module) (a b : String) : Decidable (WAdjL ms a b) := by
  unfold WAdjL; infer_instance

/-- Weak connectivity: the reflexive-transitive closure of weak adjacency. -/
def WConnL (ms : List Module) : String → String → Prop :=
  Relation.ReflTransGen (WAdjL ms)

/-- A requires-cycle through some module. -/
def HasCycle (ms : List Module) : Prop :=
  ∃ a, Relation.TransGen (EdgeL ms) a a

/-- The number of modules that are neither gray-marked nor sorted: the
measure that bounds the depth of `collectionTopoSort`. -/
def countActive (ms : List Module) : Nat :=
  (ms.filter (fun m => !(m.topologicalMarker || m.sorting))).length

/-- The number of modules not yet component-indexed: the measure that bounds
the depth of `collectionAdjacencyIndex`. -/
def countUnindexed (ms : List Module) : Nat :=
  (ms.filter (fun m => !m.indexing)).length

/-! ## Well-formedness

`WF c` collects the structural invariants that hold for every collection
built through the public mutation API (§3 of the specification): unique,
non-blank, trimmed module names; trimmed sources; `dependencies` is a
duplicate-free list of distinct existing endpoints; and each module's
adjacency lists are exactly the projections of `dependencies`, which makes
the two adjacency sets symmetric and loop-free.  `Clean c` says no module
carries transient traversal state, the case for every collection that has
not been (or has just successfully been) serialized. -/

def WF (c : ModuleCollection) : Prop :=
  (c.modules.map (fun m => m.name)).Nodup ∧
  (∀ m ∈ c.modules, m.name ≠ "" ∧ jsTrim m.name = m.name) ∧
  (∀ m ∈ c.modules, ∀ s, m.source = some s → jsTrim s = s) ∧
  (∀ d ∈ c.dependencies, (∃ m ∈ c.modules, m.name = d.1) ∧
    (∃ m ∈ c.modules, m.name = d.2) ∧ d.1 ≠ d.2) ∧
  c.dependencies.Nodup ∧
  (∀ m ∈ c.modules,
    m.requiresKeys = (c.dependencies.filter (fun d => d.1 == m.name)).map (fun d => d.2)) ∧
  (∀ m ∈ c.modules,
    m.dependants = (c.dependencies.filter (fun d => d.2 == m.name)).map (fun d => d.1)) ∧
  c.numberOfModules = c.modules.length ∧
  c.numberOfDependencies = c.dependencies.length

instance (c : ModuleCollection) : Decidable (WF c) := by
  unfold WF; infer_instance

/-- No transient traversal state on any module. -/
def Clean (c : ModuleCollection) : Prop :=
  ∀ m ∈ c.modules, m.topologicalMarker = false ∧ m.sorting = false ∧ m.indexing = false

instance (c : ModuleCollection) : Decidable (Clean c) := by
  unfold Clean; infer_instance

/-! ### Observation helpers

Projections used to state concrete test scenarios in a decidable form; they
are not part of the embedded code. -/

/-- The collection state carried by either outcome. -/
def JsResult.state {α : Type} : JsResult α → ModuleCollection
  | JsResult.ok _ c => c
  | JsResult.err _ c => c

/-- Whether the call returned normally. -/
def JsResult.isOk {α : Type} : JsResult α → Bool
  | JsResult.ok _ _ => true
  | JsResult.err _ _ => false

/-- The thrown message, when the call threw. -/
def JsResult.errMsg {α : Type} : JsResult α → Option String
  | JsResult.ok _ _ => none
  | JsResult.err e _ => some e

/-- The returned value, when the call returned normally. -/
def JsResult.value {α : Type} : JsResult α → Option α
  | JsResult.ok v _ => some v
  | JsResult.err _ _ => none

/-- The two-module cycle `A requires B`, `B requires A`, built through the
public API from an empty collection. -/
def twoCycleCollection : ModuleCollection :=
  (((emptyCollection.connect "A" "B").state).connect "B" "A").state

/-- The chain built by `connect("A","B"); connect("B","C")`: `A` requires
`B`, which requires `C`. -/
def chainCollection : ModuleCollection :=
  (((emptyCollection.connect "A" "B").state).connect "B" "C").state

/-- The three-cycle built by `connect("A","B"); connect("B","C");
connect("C","A")`. -/
def threeCycleCollection : ModuleCollection :=
  (chainCollection.connect "C" "A").state

/-- Two disjoint chains: `A` requires `B`, and `X` requires `Y`. -/
def twoChainsCollection : ModuleCollection :=
  (((emptyCollection.connect "A" "B").state).connect "X" "Y").state

/-! ### Proof gadgets for the clone replay

`cloneInit m` is the fresh module `clone()` makes for an original module `m`
(same name and source, everything else initial); `applyDeps D m` is that
fresh module after replaying the edge list `D` through `connect`. -/

def cloneInit (m : Module) : Module :=
  { initModule m.name with source := m.source }

def applyDeps (D : List (String × String)) (m : Module) : Module :=
  { name := m.name,
    requiresKeys := (D.filter (fun d => d.1 == m.name)).map (fun d => d.2),
    numberOfRequirements := ((D.filter (fun d => d.1 == m.name)).map (fun d => d.2)).length,
    dependants := (D.filter (fun d => d.2 == m.name)).map (fun d => d.1),
    numberOfDependants := ((D.filter (fun d => d.2 == m.name)).map (fun d => d.1)).length,
    exports := [], source := m.source, topologicalMarker := false, sorting := false,
    indexing := false, index := 0 }

/-! ### Proof gadgets for the serialization traversals -/

/-- The traversal-independent fields of a module: everything except the four
transient fields (`topologicalMarker`, `sorting`, `indexing`, `index`). -/
def Module.statics (m : Module) :
    String × List String × List String × Option String × List String ×
      Nat × Nat :=
  (m.name, m.requiresKeys, m.dependants, m.source, m.exports,
    m.numberOfRequirements, m.numberOfDependants)

/-- Two module lists agree on every traversal-independent field, positionally. -/
def sameStatics (ms ms' : List Module) : Prop :=
  ms'.map Module.statics = ms.map Module.statics

/-- A module the sorter may still enter: neither gray-marked nor sorted. -/
def Module.active (m : Module) : Bool :=
  !(m.topologicalMarker || m.sorting)

/-- Bucketwise extension of a sort stack: buckets only gain elements at their
ends, and buckets are only appended. -/
def stackLE (st st' : List (List String)) : Prop :=
  st.length ≤ st'.length ∧
  ∀ i (h : i < st.length) (h' : i < st'.length), st.get ⟨i, h⟩ <+: st'.get ⟨i, h'⟩

/-- The state facts carried across a normally-returning `collectionTopoSort`
call: statics, markers, indexing data are controlled, sorted flags only grow,
modules whose marker was set keep their sorted flag, the active count does
not grow, the unindexed count is untouched, and the stack only extends. -/
def TopoOk (ms : List Module) (st : List (List String))
    (ms' : List Module) (st' : List (List String)) : Prop :=
  sameStatics ms ms' ∧
  (∀ k, markedB ms' k = markedB ms k) ∧
  (∀ k, sortedB ms k = true → sortedB ms' k = true) ∧
  (∀ k, markedB ms k = true → sortedB ms' k = sortedB ms k) ∧
  (∀ k, indexedB ms' k = indexedB ms k) ∧
  (∀ k, idxOf ms' k = idxOf ms k) ∧
  countActive ms' ≤ countActive ms ∧
  countUnindexed ms' = countUnindexed ms ∧
  stackLE st st'

/-- The state facts carried across a `collectionAdjacencyIndex` call with
component index `i`: statics and sorter state are untouched, indexed modules
stay indexed with the same index, newly indexed modules received index `i`
and had all their neighbours indexed by the end of the call. -/
def AdjOk (i : Nat) (ms ms' : List Module) : Prop :=
  sameStatics ms ms' ∧
  (∀ k, markedB ms' k = markedB ms k) ∧
  (∀ k, sortedB ms' k = sortedB ms k) ∧
  (∀ k, indexedB ms k = true → indexedB ms' k = true ∧ idxOf ms' k = idxOf ms k) ∧
  (∀ k, indexedB ms' k = true → indexedB ms k = true ∨ idxOf ms' k = i) ∧
  (∀ k, indexedB ms' k = true → indexedB ms k = false →
    ∀ y ∈ reqsOf ms k ++ depsOf ms k, findModule ms y ≠ none → indexedB ms' y = true) ∧
  countUnindexed ms' ≤ countUnindexed ms ∧
  countActive ms' = countActive ms

/-- The sort-stack invariant of the `serialize` loop, relative to the static
module data `cms`: every sorted module sits in the bucket of its component
index; every stack entry is a sorted module of its bucket's index whose
requirements all appear earlier in the same bucket; and no name is stacked
twice. -/
def InvPush (cms ms : List Module) (st : List (List String)) : Prop :=
  (∀ k, sortedB ms k = true →
    idxOf ms k < st.length ∧ k ∈ st.getD (idxOf ms k) []) ∧
  (∀ b, b < st.length → ∀ i, i < (st.getD b []).length →
    sortedB ms ((st.getD b []).getD i "") = true ∧
    idxOf ms ((st.getD b []).getD i "") = b ∧
    ∀ r ∈ reqsOf cms ((st.getD b []).getD i ""),
      ∃ j, j < i ∧ (st.getD b []).getD j "" = r) ∧
  st.flatten.Nodup

/-- The full `serialize`-loop invariant between iterations, relative to the
static module data `cms`: statics preserved, no gray markers, sorted modules
are indexed, the indexed set is closed under weak adjacency with a uniform
index per component, equal indices mean weak connectivity, all indices are
below the running `adjacencyPoint`, and the stack invariant holds. -/
def LoopInv (cms ms : List Module) (st : List (List String)) (ap : Nat) : Prop :=
  sameStatics cms ms ∧
  (∀ k, markedB ms k = false) ∧
  (∀ k, sortedB ms k = true → indexedB ms k = true) ∧
  (∀ k, indexedB ms k = true →
    ∀ y ∈ reqsOf cms k ++ depsOf cms k, indexedB ms y = true ∧ idxOf ms y = idxOf ms k) ∧
  (∀ k k', indexedB ms k = true → indexedB ms k' = true → idxOf ms k = idxOf ms k' →
    WConnL cms k k') ∧
  (∀ k, indexedB ms k = true → idxOf ms k < ap) ∧
  (∀ j, j < ap → ∃ k, indexedB ms k = true ∧ idxOf ms k = j) ∧
  st.length ≤ ap ∧
  InvPush cms ms st

/-! ## Basic lemmas about trimming and dictionary access -/

theorem dropWhile_idem (p : Char → Bool) (l : List Char) :
    (l.dropWhile p).dropWhile p = l.dropWhile p := by
  induction l with
  | nil => rfl
  | cons a t ih =>
    by_cases h : p a
    · simp [List.dropWhile_cons, h, ih]
    · simp [List.dropWhile_cons, h]

theorem head_dropWhile_false (p : Char → Bool) (l : List Char) (x : Char)
    (hx : (l.dropWhile p).head? = some x) : p x = false := by
  induction l with
  | nil => simp at hx
  | cons a t ih =>
    by_cases h : p a
    · simp only [List.dropWhile_cons, h, if_true] at hx
      exact ih hx
    · simp only [List.dropWhile_cons, h, if_false] at hx
      simp at hx
      rw [← hx]
      exact Bool.of_not_eq_true h

theorem dropWhile_of_head_false (p : Char → Bool) (l : List Char)
    (h : ∀ x, l.head? = some x → p x = false) : l.dropWhile p = l := by
  cases l with
  | nil => rfl
  | cons a t => simp [List.dropWhile_cons, h a rfl]

/-- The double-ended `dropWhile` trim on character lists is idempotent. -/
theorem trimCharList_idem (p : Char → Bool) (l : List Char) :
    ((((((l.dropWhile p).reverse.dropWhile p).reverse).dropWhile p).reverse.dropWhile p).reverse) =
      ((l.dropWhile p).reverse.dropWhile p).reverse := by
  set d := l.dropWhile p with hd
  set u := d.reverse.dropWhile p with hu
  have hfront : u.reverse.dropWhile p = u.reverse := by
    apply dropWhile_of_head_false
    intro x hx
    rw [List.head?_reverse] at hx
    have hsuff : u <:+ d.reverse := by
      rw [hu]; exact List.dropWhile_suffix p
    obtain ⟨w, hw⟩ := hsuff
    have hune : u ≠ [] := by
      intro hnil; rw [hnil] at hx; simp at hx
    have hlast : d.reverse.getLast? = some x := by
      rw [← hw, List.getLast?_append_of_ne_nil _ hune]; exact hx
    rw [List.getLast?_reverse] at hlast
    exact head_dropWhile_false p l x (by rw [hd] at hlast; exact hlast)
  rw [hfront, List.reverse_reverse, dropWhile_idem]

/-- `jsTrim` is idempotent. -/
theorem jsTrim_idem (s : String) : jsTrim (jsTrim s) = jsTrim s := by
  unfold jsTrim
  exact congrArg String.mk (trimCharList_idem isJsWhitespace s.data)

theorem findModule_eq_name {ms : List Module} {n : String} {m : Module}
    (h : findModule ms n = some m) : m.name = n := by
  unfold findModule at h
  have := List.find?_some h
  simpa using this

theorem findModule_map_namePreserving (ms : List Module) (g : Module → Module)
    (hg : ∀ m, (g m).name = m.name) (k : String) :
    findModule (ms.map g) k = (findModule ms k).map g := by
  unfold findModule
  rw [List.find?_map]
  have hp : ((fun m => m.name == k) ∘ g) = (fun (m : Module) => m.name == k) := by
    funext m
    simp [Function.comp, hg]
  rw [hp]

theorem findModule_updateModule (ms : List Module) (n k : String) (f : Module → Module)
    (hf : ∀ m, (f m).name = m.name) :
    findModule (updateModule ms n f) k =
      (findModule ms k).map (fun m => if m.name == n then f m else m) := by
  apply findModule_map_namePreserving
  intro m
  by_cases h : m.name == n <;> simp [h, hf]

theorem findModule_append (ms₁ ms₂ : List Module) (k : String) :
    findModule (ms₁ ++ ms₂) k =
      (findModule ms₁ k).or (findModule ms₂ k) := by
  unfold findModule
  rw [List.find?_append]

theorem length_updateModule (ms : List Module) (n : String) (f : Module → Module) :
    (updateModule ms n f).length = ms.length := by
  unfold updateModule
  exact List.length_map ms _

/-! ## Shape lemmas for the mutation API -/

theorem mkModule_none_trimmed (k : String) (h1 : k ≠ "") (h2 : jsTrim k = k) :
    mkModule k none = Except.ok (initModule k) := by
  simp [mkModule, stringLike, h1, h2]

/-- Exact description of a successful `get(name, true)`: the result names the
trimmed string, and the collection is unchanged if the module existed, or has
exactly one fresh module appended (and the module counter bumped) if not. -/
theorem get_true_ok {c : ModuleCollection} {n : String} {r : Option String}
    {c' : ModuleCollection} (h : c.get n true = JsResult.ok r c') :
    n ≠ "" ∧ r = some (jsTrim n) ∧ c'.dependencies = c.dependencies ∧
      c'.numberOfDependencies = c.numberOfDependencies ∧ c'.sources = c.sources ∧
      ((∃ m, findModule c.modules (jsTrim n) = some m ∧ c' = c) ∨
       (findModule c.modules (jsTrim n) = none ∧ jsTrim n ≠ "" ∧
        c' = { c with numberOfModules := c.numberOfModules + 1,
                      modules := c.modules ++ [initModule (jsTrim n)] })) := by
  by_cases hn : n = ""
  · subst hn
    simp [ModuleCollection.get, stringLike] at h
  · unfold ModuleCollection.get at h
    simp only [stringLike, hn, if_false] at h
    cases hf : findModule c.modules (jsTrim n) with
    | some m =>
      rw [hf] at h
      cases h
      refine ⟨hn, ?_, rfl, rfl, rfl, Or.inl ⟨m, rfl, rfl⟩⟩
      rw [findModule_eq_name hf]
    | none =>
      rw [hf] at h
      by_cases hk : jsTrim n = ""
      · simp [mkModule, stringLike, hk] at h
      · rw [mkModule_none_trimmed _ hk (jsTrim_idem n)] at h
        simp only at h
        cases h
        exact ⟨hn, rfl, rfl, rfl, rfl, Or.inr ⟨rfl, hk, rfl⟩⟩

/-- The module-record update applied to the requiring endpoint by `require`. -/
def reqUpdate (nb : String) (x : Module) : Module :=
  { x with requiresKeys := x.requiresKeys ++ [nb],
           numberOfRequirements := x.numberOfRequirements + 1 }

/-- The module-record update applied to the required endpoint by `require`. -/
def depUpdate (na : String) (x : Module) : Module :=
  { x with dependants := x.dependants ++ [na],
           numberOfDependants := x.numberOfDependants + 1 }

/-- Exact description of a successful `require`: both endpoints exist, are
distinct, the edge was absent from both adjacency sets, and the new state
differs only by the two endpoint updates. -/
theorem requireOp_ok_shape {c : ModuleCollection} {na nb : String} {c3 : ModuleCollection}
    (h : c.requireOp na nb = Except.ok c3) :
    ∃ ma mb, findModule c.modules na = some ma ∧ findModule c.modules nb = some mb ∧
      na ≠ nb ∧
      (ma.requiresKeys.contains nb || mb.dependants.contains na) = false ∧
      c3 = { c with modules :=
        updateModule (updateModule c.modules na (reqUpdate nb)) nb (depUpdate na) } := by
  unfold ModuleCollection.requireOp at h
  cases hfa : findModule c.modules na with
  | none =>
    simp only [hfa] at h
    exact absurd h (by simp)
  | some ma =>
    cases hfb : findModule c.modules nb with
    | none =>
      simp only [hfa, hfb] at h
      exact absurd h (by simp)
    | some mb =>
      simp only [hfa, hfb] at h
      have hna := findModule_eq_name hfa
      have hnb := findModule_eq_name hfb
      by_cases hself : ma.name = mb.name
      · rw [if_pos hself] at h; exact absurd h (by simp)
      · rw [if_neg hself] at h
        by_cases hdup : (ma.requiresKeys.contains mb.name || mb.dependants.contains ma.name) = true
        · rw [if_pos hdup] at h
          exact absurd h (by simp)
        · rw [if_neg hdup] at h
          cases h
          refine ⟨ma, mb, rfl, rfl, ?_, ?_, ?_⟩
          · rw [← hna, ← hnb]; exact hself
          · rw [← hna, ← hnb]
            exact Bool.of_not_eq_true hdup
          · rw [hna, hnb]
            rfl

/-- After the two `require`-side updates, the requiring endpoint's module has
the requirement's name appended to its `requires` keys. -/
theorem find_after_requireUpdates {ms : List Module} {na nb : String} {ma : Module}
    (hfa : findModule ms na = some ma) (hne : na ≠ nb) :
    findModule (updateModule (updateModule ms na (reqUpdate nb)) nb (depUpdate na)) na =
      some (reqUpdate nb ma) := by
  have hna := findModule_eq_name hfa
  rw [findModule_updateModule (updateModule ms na (reqUpdate nb)) nb na (depUpdate na)
        (fun m => rfl),
      findModule_updateModule ms na na (reqUpdate nb) (fun m => rfl), hfa]
  simp only [Option.map_some']
  have h1 : (ma.name == na) = true := by simp [hna]
  simp only [h1, if_true]
  have h2 : ((reqUpdate nb ma).name == nb) = false := by
    have : (reqUpdate nb ma).name = ma.name := rfl
    simp [this, hna, hne]
  simp [h2]

/-- After the two `require`-side updates, the required endpoint still exists. -/
theorem find_after_requireUpdates_dep {ms : List Module} {na nb : String} {mb : Module}
    (hfb : findModule ms nb = some mb) :
    ∃ mb2, findModule (updateModule (updateModule ms na (reqUpdate nb)) nb (depUpdate na)) nb =
      some mb2 := by
  rw [findModule_updateModule (updateModule ms na (reqUpdate nb)) nb nb (depUpdate na)
        (fun m => rfl),
      findModule_updateModule ms na nb (reqUpdate nb) (fun m => rfl), hfb]
  exact ⟨_, rfl⟩

/-- Exact description of a successful `connect(a, b)`: the returned edge is
the trimmed name pair, the names differ, the stored modules now witness the
edge, and the dependency list/counter grew by exactly this one edge. -/
theorem connect_ok_info {c : ModuleCollection} {a b : String} {x : String × String}
    {c1 : ModuleCollection} (h : c.connect a b = JsResult.ok x c1) :
    a ≠ "" ∧ b ≠ "" ∧ x = (jsTrim a, jsTrim b) ∧ jsTrim a ≠ jsTrim b ∧
    (∃ ma, findModule c1.modules (jsTrim a) = some ma ∧
      ma.requiresKeys.contains (jsTrim b) = true) ∧
    (∃ mb, findModule c1.modules (jsTrim b) = some mb) ∧
    c1.dependencies = c.dependencies ++ [(jsTrim a, jsTrim b)] ∧
    c1.numberOfDependencies = c.numberOfDependencies + 1 := by
  unfold ModuleCollection.connect at h
  cases hga : c.get a true with
  | err e cA => rw [hga] at h; exact absurd h (by simp)
  | ok oa cA =>
    simp only [hga] at h
    cases hgb : cA.get b true with
    | err e cB => rw [hgb] at h; exact absurd h (by simp)
    | ok ob cB =>
      simp only [hgb] at h
      obtain ⟨ha, hoa, _, _, _, _⟩ := get_true_ok hga
      obtain ⟨hb, hob, hdepsB, hcntB, _, _⟩ := get_true_ok hgb
      have hdepsA : cB.dependencies = c.dependencies := by
        rw [hdepsB, (get_true_ok hga).2.2.1]
      have hcntA : cB.numberOfDependencies = c.numberOfDependencies := by
        rw [hcntB, (get_true_ok hga).2.2.2.1]
      subst hoa
      subst hob
      simp only at h
      cases hro : cB.requireOp (jsTrim a) (jsTrim b) with
      | error e =>
        rw [hro] at h
        exact absurd h (by simp)
      | ok c3 =>
        simp only [hro] at h
        cases h
        obtain ⟨ma, mb, hfa, hfb, hne, hdup, hc3⟩ := requireOp_ok_shape hro
        refine ⟨ha, hb, rfl, hne, ?_, ?_, ?_, ?_⟩
        · refine ⟨reqUpdate (jsTrim b) ma, ?_, by simp [reqUpdate]⟩
          show findModule c3.modules (jsTrim a) = _
          rw [hc3]
          exact find_after_requireUpdates hfa hne
        · show ∃ mb2, findModule c3.modules (jsTrim b) = some mb2
          rw [hc3]
          exact find_after_requireUpdates_dep hfb
        · show c3.dependencies ++ [(jsTrim a, jsTrim b)] = c.dependencies ++ [(jsTrim a, jsTrim b)]
          rw [hc3]
          simp [hdepsA]
        · show c3.numberOfDependencies + 1 = c.numberOfDependencies + 1
          rw [hc3]
          simp [hcntA]

/-! ## Claim theorems: declaration-phase behaviour -/

/-- C6.  Calling `connect("A","B")` twice fails the second time with the
`DuplicateEdge` error (the edge is already present in the requiring module's
adjacency set), the failed call leaves the collection exactly as it was, and
after both calls the dependency list and counter have grown by exactly one
edge, not two. -/
theorem c6_connect_twice_duplicate_edge (c : ModuleCollection) (a b : String)
    (x : String × String) (c1 : ModuleCollection)
    (h : c.connect a b = JsResult.ok x c1) :
    c1.connect a b =
      JsResult.err (x.2 ++ " already marked as requirement of " ++ x.1) c1 ∧
    c1.numberOfDependencies = c.numberOfDependencies + 1 ∧
    c1.dependencies = c.dependencies ++ [x] := by
  obtain ⟨ha, hb, hx, hne, ⟨ma, hfa, hcont⟩, ⟨mb, hfb⟩, hdeps, hcnt⟩ := connect_ok_info h
  subst hx
  refine ⟨?_, hcnt, hdeps⟩
  have hna := findModule_eq_name hfa
  have hnb := findModule_eq_name hfb
  have hga : c1.get a true = JsResult.ok (some (jsTrim a)) c1 := by
    unfold ModuleCollection.get
    simp only [stringLike, ha, if_false, hfa, hna]
  have hgb : c1.get b true = JsResult.ok (some (jsTrim b)) c1 := by
    unfold ModuleCollection.get
    simp only [stringLike, hb, if_false, hfb, hnb]
  have hro : c1.requireOp (jsTrim a) (jsTrim b) =
      Except.error (jsTrim b ++ " already marked as requirement of " ++ jsTrim a) := by
    unfold ModuleCollection.requireOp
    rw [hfa, hfb]
    simp only
    have hself : ¬(ma.name = mb.name) := by rw [hna, hnb]; exact hne
    rw [if_neg hself]
    have hdup : (ma.requiresKeys.contains mb.name || mb.dependants.contains ma.name) = true := by
      rw [hnb, hcont, Bool.true_or]
    rw [if_pos hdup, hnb, hna]
  unfold ModuleCollection.connect
  rw [hga]
  simp only
  rw [hgb]
  simp only
  rw [hro]

/-- C6 witness: the concrete duplicated edge `connect("A","B")` twice from an
empty collection. -/
theorem c6_connect_twice_duplicate_edge_witness :
    ∃ x c1, emptyCollection.connect "A" "B" = JsResult.ok x c1 ∧
      (c1.connect "A" "B" =
        JsResult.err (x.2 ++ " already marked as requirement of " ++ x.1) c1 ∧
       c1.numberOfDependencies = emptyCollection.numberOfDependencies + 1 ∧
       c1.dependencies = emptyCollection.dependencies ++ [x]) :=
  ⟨("A", "B"), _, rfl, c6_connect_twice_duplicate_edge emptyCollection "A" "B" _ _ rfl⟩

/-- C7.  `connect(a, a)` with both endpoint names equal (and a usable name)
fails with the `SelfDependency` error, and the failed call leaves the
dependency list and the dependency counter unchanged. -/
theorem c7_connect_self_dependency (c : ModuleCollection) (a : String)
    (ha : a ≠ "") (hka : jsTrim a ≠ "") :
    ∃ c', c.connect a a =
      JsResult.err ("Module " ++ jsTrim a ++ " cannot depend on itself!") c' ∧
      c'.dependencies = c.dependencies ∧
      c'.numberOfDependencies = c.numberOfDependencies := by
  unfold ModuleCollection.connect
  cases hf : findModule c.modules (jsTrim a) with
  | some m =>
    have hna := findModule_eq_name hf
    have hga : c.get a true = JsResult.ok (some (jsTrim a)) c := by
      unfold ModuleCollection.get
      simp only [stringLike, ha, if_false, hf, hna]
    have hro : c.requireOp (jsTrim a) (jsTrim a) =
        Except.error ("Module " ++ jsTrim a ++ " cannot depend on itself!") := by
      unfold ModuleCollection.requireOp
      rw [hf]
      simp only
      rw [if_true, hna]
    refine ⟨c, ?_, rfl, rfl⟩
    rw [hga]
    simp only
    rw [hga]
    simp only
    rw [hro]
  | none =>
    have hga : c.get a true = JsResult.ok (some (jsTrim a))
        { c with numberOfModules := c.numberOfModules + 1,
                 modules := c.modules ++ [initModule (jsTrim a)] } := by
      unfold ModuleCollection.get
      simp only [stringLike, ha, if_false, hf]
      rw [mkModule_none_trimmed _ hka (jsTrim_idem a)]
      rfl
    have hf1 : findModule (c.modules ++ [initModule (jsTrim a)]) (jsTrim a) =
        some (initModule (jsTrim a)) := by
      rw [findModule_append, hf]
      simp [findModule, initModule]
    have hga2 : ModuleCollection.get
        { c with numberOfModules := c.numberOfModules + 1,
                 modules := c.modules ++ [initModule (jsTrim a)] } a true =
        JsResult.ok (some (jsTrim a))
          { c with numberOfModules := c.numberOfModules + 1,
                   modules := c.modules ++ [initModule (jsTrim a)] } := by
      unfold ModuleCollection.get
      simp only [stringLike, ha, if_false]
      rw [hf1]
      rfl
    have hro : ModuleCollection.requireOp
        { c with numberOfModules := c.numberOfModules + 1,
                 modules := c.modules ++ [initModule (jsTrim a)] } (jsTrim a) (jsTrim a) =
        Except.error ("Module " ++ jsTrim a ++ " cannot depend on itself!") := by
      unfold ModuleCollection.requireOp
      rw [hf1]
      simp only
      rw [if_true]
      rfl
    refine ⟨{ c with numberOfModules := c.numberOfModules + 1, modules := c.modules ++ [initModule (jsTrim a)] }, ?_, ?_, ?_⟩
    · rw [hga]
      simp only
      rw [hga2]
      simp only
      rw [hro]
    · rfl
    · rfl

/-- C7 witness: `connect("A","A")` on the empty collection. -/
theorem c7_connect_self_dependency_witness :
    ("A" : String) ≠ "" ∧ jsTrim "A" ≠ "" ∧
    (∃ c', emptyCollection.connect "A" "A" =
      JsResult.err ("Module " ++ jsTrim "A" ++ " cannot depend on itself!") c' ∧
      c'.dependencies = emptyCollection.dependencies ∧
      c'.numberOfDependencies = emptyCollection.numberOfDependencies) :=
  ⟨by decide, by decide,
    c7_connect_self_dependency emptyCollection "A" (by decide) (by decide)⟩

/-- C10.  `get(name, true)` on a name that is non-empty but trims to the
empty string throws the `stringLike` TypeError out of the `Module`
constructor, *after* `numberOfModules` was already incremented and *before*
any module is stored: the state carried by the throw has the old module list
and a counter exceeding the number of stored modules. -/
theorem c10_get_whitespace_name_inflates_counter (c : ModuleCollection)
    (hwf : WF c) (n : String) (hn : n ≠ "") (ht : jsTrim n = "") :
    c.get n true = JsResult.err "Not a valid string: "
      { c with numberOfModules := c.numberOfModules + 1 } ∧
    c.numberOfModules + 1 > c.modules.length := by
  obtain ⟨-, hvalid, -, -, -, -, -, hcountM, -⟩ := hwf
  have hfn : findModule c.modules (jsTrim n) = none := by
    rw [ht]
    unfold findModule
    rw [List.find?_eq_none]
    intro m hm
    simp only [beq_iff_eq]
    exact (hvalid m hm).1
  constructor
  · unfold ModuleCollection.get
    simp only [stringLike, hn, if_false, hfn]
    rw [ht]
    simp [mkModule, stringLike]
  · omega

/-- C4.  Counter-evidence by evaluation: `add("A", "s.js")` looks the guard
up at `sources["s.js"]` but stores the fresh inner object under
`sources["A"]` — the module coerced to a string, i.e. its *name* — so
`getBySource("s.js")` returns nothing while `getBySource("A")` returns the
inner object keyed by the source path.  This contradicts the claim (and the
code's own JSDoc) that the registry maps each source path to the set of
modules that path defines. -/
theorem c4_add_indexes_sources_under_module_name :
    ∃ c', emptyCollection.add "A" (some "s.js") = JsResult.ok "A" c' ∧
      c'.getBySource "s.js" = none ∧
      c'.getBySource "A" = some [("s.js", "A")] ∧
      (∃ m ∈ c'.modules, m.name = "A" ∧ m.source = some "s.js") :=
  ⟨_, rfl, by decide, by decide, by decide⟩

/-- C5 counterexample: on a collection whose modules were created only as
edge endpoints (no source), `clone()` throws — it calls `define(undefined)`
on each fresh module, and `stringLike(undefined)` raises the TypeError — so
`clone()` does *not* succeed for every collection. -/
theorem c5_clone_throws_on_orphan_modules :
    ∃ x c1, emptyCollection.connect "A" "B" = JsResult.ok x c1 ∧
      c1.clone = Except.error "Not a valid string: undefined" :=
  ⟨("A", "B"), _, rfl, rfl⟩

/-- C8.  Evaluation at the failing input: on the two-cycle `A ↔ B` built from
a clean collection, `serialize()` throws the cyclic-dependency error and the
exception bypasses the cleanup loop, so the returned state still carries
`B.topologicalMarker` (the visiting marker of the module the traversal was
inside) and the `indexing` flags of both modules — contradicting the claim
that every `serialize()` call leaves all transient markers cleared. -/
theorem c8_failed_serialize_keeps_transient_markers :
    (emptyCollection.connect "A" "B").isOk = true ∧
    ((emptyCollection.connect "A" "B").state.connect "B" "A").isOk = true ∧
    Clean twoCycleCollection ∧
    twoCycleCollection.serialize.isOk = false ∧
    twoCycleCollection.serialize.errMsg =
      some "Cyclic dependency error discovered while parsing: A" ∧
    (∃ m ∈ twoCycleCollection.serialize.state.modules,
      m.name = "B" ∧ m.topologicalMarker = true) ∧
    (∀ m ∈ twoCycleCollection.serialize.state.modules, m.indexing = true) := by
  decide

/-! ## The analyser -/

theorem findModule_eq_none_iff {ms : List Module} {n : String} :
    findModule ms n = none ↔ ∀ m ∈ ms, m.name ≠ n := by
  unfold findModule
  rw [List.find?_eq_none]
  simp

theorem mem_of_findModule {ms : List Module} {n : String} {m : Module}
    (h : findModule ms n = some m) : m ∈ ms :=
  List.mem_of_find?_eq_some h

/-- The analyser fold, characterised over an arbitrary starting accumulator. -/
theorem analyse_foldl (ms : List Module) (st : Stat) :
    ms.foldl analyseStep st =
      { orphanModules :=
          st.orphanModules ++ (ms.filter (fun m => !m.defined)).map (fun m => m.name),
        definedModules :=
          st.definedModules ++ (ms.filter (fun m => m.defined)).map (fun m => m.name),
        numberOfExports :=
          st.numberOfExports + (ms.map (fun m => m.exports.length)).sum } := by
  induction ms generalizing st with
  | nil => simp
  | cons m ms ih =>
    by_cases hd : m.defined
    · rw [List.foldl_cons, ih]
      simp [analyseStep, hd, Nat.add_assoc]
    · rw [List.foldl_cons, ih]
      simp only [analyseStep, hd, if_false]
      simp [hd, Nat.add_assoc]

/-- `analyse` partitions the module names by `defined()` and sums exports. -/
theorem analyse_spec (c : ModuleCollection) :
    (c.analyse).definedModules = (c.modules.filter (fun m => m.defined)).map (fun m => m.name) ∧
    (c.analyse).orphanModules = (c.modules.filter (fun m => !m.defined)).map (fun m => m.name) ∧
    (c.analyse).numberOfExports = (c.modules.map (fun m => m.exports.length)).sum := by
  unfold ModuleCollection.analyse
  rw [analyse_foldl]
  simp

theorem mem_analyse_defined {c : ModuleCollection} {x : String} :
    x ∈ (c.analyse).definedModules ↔ ∃ m ∈ c.modules, m.name = x ∧ m.source ≠ none := by
  rw [(analyse_spec c).1]
  simp only [List.mem_map, List.mem_filter]
  constructor
  · rintro ⟨m, ⟨hm, hd⟩, hn⟩
    refine ⟨m, hm, hn, ?_⟩
    simpa [Module.defined] using hd
  · rintro ⟨m, hm, hn, hs⟩
    exact ⟨m, ⟨hm, by simpa [Module.defined] using hs⟩, hn⟩

theorem mem_analyse_orphan {c : ModuleCollection} {x : String} :
    x ∈ (c.analyse).orphanModules ↔ ∃ m ∈ c.modules, m.name = x ∧ m.source = none := by
  rw [(analyse_spec c).2.1]
  simp only [List.mem_map, List.mem_filter]
  constructor
  · rintro ⟨m, ⟨hm, hd⟩, hn⟩
    refine ⟨m, hm, hn, ?_⟩
    simpa [Module.defined] using hd
  · rintro ⟨m, hm, hn, hs⟩
    exact ⟨m, ⟨hm, by simpa [Module.defined] using hs⟩, hn⟩

theorem mem_updateModule {ms : List Module} {n : String} {f : Module → Module} {m1 : Module} :
    m1 ∈ updateModule ms n f ↔ ∃ m0 ∈ ms, (if m0.name == n then f m0 else m0) = m1 := by
  unfold updateModule
  rw [List.mem_map]

theorem mem_updateModule_of_mem {ms : List Module} {n : String} {f : Module → Module}
    {m0 : Module} (h : m0 ∈ ms) :
    (if m0.name == n then f m0 else m0) ∈ updateModule ms n f :=
  List.mem_map_of_mem _ h

/-- A successful `connect(a, b)` changes the module list only by appending
fresh sourceless endpoint modules (those that did not exist yet) and applying
the two `require`-side adjacency updates. -/
theorem connect_modules_shape {c : ModuleCollection} {a b : String} {x : String × String}
    {c1 : ModuleCollection} (h : c.connect a b = JsResult.ok x c1) :
    ∃ extra : List Module, (∀ m ∈ extra, m.source = none) ∧
      c1.modules =
        updateModule (updateModule (c.modules ++ extra) (jsTrim a) (reqUpdate (jsTrim b)))
          (jsTrim b) (depUpdate (jsTrim a)) := by
  unfold ModuleCollection.connect at h
  cases hga : c.get a true with
  | err e cA => rw [hga] at h; exact absurd h (by simp)
  | ok oa cA =>
    simp only [hga] at h
    cases hgb : cA.get b true with
    | err e cB => rw [hgb] at h; exact absurd h (by simp)
    | ok ob cB =>
      simp only [hgb] at h
      obtain ⟨ha, hoa, _, _, _, hcaseA⟩ := get_true_ok hga
      obtain ⟨hb, hob, _, _, _, hcaseB⟩ := get_true_ok hgb
      subst hoa
      subst hob
      simp only at h
      cases hro : cB.requireOp (jsTrim a) (jsTrim b) with
      | error e =>
        rw [hro] at h
        exact absurd h (by simp)
      | ok c3 =>
        simp only [hro] at h
        cases h
        obtain ⟨ma, mb, hfa, hfb, hne, hdup, hc3⟩ := requireOp_ok_shape hro
        rcases hcaseA with ⟨m0, hm0, rfl⟩ | ⟨hnoneA, hkA, rfl⟩
        · rcases hcaseB with ⟨m1, hm1, rfl⟩ | ⟨hnoneB, hkB, rfl⟩
          · exact ⟨[], by simp, by rw [hc3]; simp⟩
          · exact ⟨[initModule (jsTrim b)], by simp [initModule], by rw [hc3]⟩
        · rcases hcaseB with ⟨m1, hm1, rfl⟩ | ⟨hnoneB, hkB, rfl⟩
          · exact ⟨[initModule (jsTrim a)], by simp [initModule], by rw [hc3]⟩
          · refine ⟨[initModule (jsTrim a), initModule (jsTrim b)], by simp [initModule], ?_⟩
            rw [hc3]
            simp [List.append_assoc]

theorem define_ok_shape {m : Module} {src : Option String} {m2 : Module}
    (h : m.define src = Except.ok m2) :
    m.source = none ∧ ∃ s, src = some s ∧ s ≠ "" ∧ m2 = { m with source := some (jsTrim s) } := by
  unfold Module.define at h
  by_cases hs : m.source ≠ none
  · rw [if_pos hs] at h
    exact absurd h (by simp)
  · rw [if_neg hs] at h
    push_neg at hs
    cases src with
    | none => simp [stringLikeOpt] at h
    | some s =>
      by_cases hse : s = ""
      · simp [stringLikeOpt, stringLike, hse] at h
      · simp only [stringLikeOpt, stringLike, hse, if_false] at h
        cases h
        exact ⟨hs, s, rfl, hse, rfl⟩

/-- Exact description of a successful `add(name, source)`: get-or-create the
module, define it, and write it back; the sources registry changes do not
touch the module list beyond that single update. -/
theorem add_ok_shape {c : ModuleCollection} {name : String} {src : Option String}
    {y : String} {c2 : ModuleCollection} (h : c.add name src = JsResult.ok y c2) :
    y = jsTrim name ∧
    ∃ cmid m m2, c.get name true = JsResult.ok (some (jsTrim name)) cmid ∧
      findModule cmid.modules (jsTrim name) = some m ∧
      m.define src = Except.ok m2 ∧
      c2.modules = updateModule cmid.modules (jsTrim name) (fun _ => m2) := by
  unfold ModuleCollection.add at h
  cases hg : c.get name true with
  | err e cm => rw [hg] at h; exact absurd h (by simp)
  | ok o cm =>
    simp only [hg] at h
    obtain ⟨hn, ho, _, _, _, _⟩ := get_true_ok hg
    subst ho
    simp only at h
    cases hf : findModule cm.modules (jsTrim name) with
    | none => rw [hf] at h; exact absurd h (by simp)
    | some m =>
      simp only [hf] at h
      cases hd : m.define src with
      | error e => rw [hd] at h; exact absurd h (by simp)
      | ok m2 =>
        simp only [hd] at h
        split at h <;> cases h <;> exact ⟨rfl, cm, m, m2, rfl, hf, hd, rfl⟩

/-- C9.  `analyse()` partitions the modules exactly by whether they carry a
source: a module that exists only as a dependency target of `connect` (never
`add`-ed) is reported in `orphanModules` and not in `definedModules`; after a
successful `add` of that module with a source, a subsequent `analyse()`
reports it in `definedModules` and no longer in `orphanModules`; and on every
collection `definedModules`/`orphanModules` are exactly the names of the
modules with/without a source while `numberOfExports` is the sum of the
modules' export-tag counts. -/
theorem c9_analyse_partitions_by_source (c : ModuleCollection) (a b : String)
    (x : String × String) (c1 : ModuleCollection)
    (hfb : findModule c.modules (jsTrim b) = none)
    (h : c.connect a b = JsResult.ok x c1) :
    jsTrim b ∈ (c1.analyse).orphanModules ∧
    jsTrim b ∉ (c1.analyse).definedModules ∧
    (∀ src y c2, c1.add b src = JsResult.ok y c2 →
      jsTrim b ∈ (c2.analyse).definedModules ∧
      jsTrim b ∉ (c2.analyse).orphanModules) ∧
    (∀ d : ModuleCollection,
      (∀ z, z ∈ (d.analyse).definedModules ↔ ∃ m ∈ d.modules, m.name = z ∧ m.source ≠ none) ∧
      (∀ z, z ∈ (d.analyse).orphanModules ↔ ∃ m ∈ d.modules, m.name = z ∧ m.source = none) ∧
      (d.analyse).numberOfExports = (d.modules.map (fun m => m.exports.length)).sum) := by
  obtain ⟨extra, hextra, hmods⟩ := connect_modules_shape h
  have hnoB : ∀ m ∈ c.modules, m.name ≠ jsTrim b := findModule_eq_none_iff.mp hfb
  -- every module of c1 named `jsTrim b` has no source
  have key : ∀ m1 ∈ c1.modules, m1.name = jsTrim b → m1.source = none := by
    intro m1 hm1 hname
    rw [hmods] at hm1
    obtain ⟨mm, hmm, hq2⟩ := mem_updateModule.mp hm1
    obtain ⟨m0, hm0, hq1⟩ := mem_updateModule.mp hmm
    have hsrc2 : m1.source = mm.source := by
      rw [← hq2]; split <;> rfl
    have hnm2 : m1.name = mm.name := by
      rw [← hq2]; split <;> rfl
    have hsrc1a : mm.source = m0.source := by
      rw [← hq1]; split <;> rfl
    have hnm1 : mm.name = m0.name := by
      rw [← hq1]; split <;> rfl
    have hsrc1 : m1.source = m0.source := by rw [hsrc2, hsrc1a]
    have hname0 : m1.name = m0.name := by rw [hnm2, hnm1]
    rcases List.mem_append.mp hm0 with hin | hin
    · exact absurd (hname0 ▸ hname) (hnoB m0 hin)
    · rw [hsrc1]
      exact hextra m0 hin
  obtain ⟨-, -, -, -, -, ⟨mb, hfb1⟩, -, -⟩ := connect_ok_info h
  have hmbmem := mem_of_findModule hfb1
  have hmbname := findModule_eq_name hfb1
  refine ⟨?_, ?_, ?_, ?_⟩
  · exact mem_analyse_orphan.mpr ⟨mb, hmbmem, hmbname, key mb hmbmem hmbname⟩
  · intro hmem
    obtain ⟨m, hm, hname, hsome⟩ := mem_analyse_defined.mp hmem
    exact hsome (key m hm hname)
  · intro src y c2 hadd
    obtain ⟨hy, cmid, m, m2, hget, hfmid, hdef, hc2mods⟩ := add_ok_shape hadd
    have hcmid : cmid = c1 := by
      obtain ⟨-, -, -, -, -, hcase⟩ := get_true_ok hget
      rcases hcase with ⟨m', hm', rfl⟩ | ⟨hnone, -, -⟩
      · rfl
      · rw [hfb1] at hnone
        exact absurd hnone (by simp)
    subst hcmid
    obtain ⟨hmsrc, s, hsrc, hse, hm2⟩ := define_ok_shape hdef
    have hm2name : m2.name = jsTrim b := by
      rw [hm2]
      show m.name = jsTrim b
      exact findModule_eq_name hfmid
    have hm2src : m2.source = some (jsTrim s) := by rw [hm2]
    constructor
    · refine mem_analyse_defined.mpr ⟨m2, ?_, hm2name, by rw [hm2src]; simp⟩
      rw [hc2mods]
      have := @mem_updateModule_of_mem _ (jsTrim b) (fun _ => m2) _ hmbmem
      rw [if_pos (by simp [hmbname])] at this
      exact this
    · intro hmem
      obtain ⟨m1, hm1, hname1, hsrc1⟩ := mem_analyse_orphan.mp hmem
      rw [hc2mods] at hm1
      obtain ⟨m0, hm0, hq⟩ := mem_updateModule.mp hm1
      by_cases h0 : (m0.name == jsTrim b)
      · rw [if_pos h0] at hq
        rw [← hq] at hsrc1
        rw [hm2src] at hsrc1
        exact absurd hsrc1 (by simp)
      · rw [if_neg h0] at hq
        rw [← hq] at hname1
        simp [hname1] at h0
  · intro d
    exact ⟨fun z => mem_analyse_defined, fun z => mem_analyse_orphan, (analyse_spec d).2.2⟩

/-- C9 witness: `connect("A","B")` creates the orphan `B`; `add("B","b.js")`
then defines it. -/
theorem c9_analyse_partitions_by_source_witness :
    ∃ x c1, findModule emptyCollection.modules (jsTrim "B") = none ∧
      emptyCollection.connect "A" "B" = JsResult.ok x c1 ∧
      (jsTrim "B" ∈ (c1.analyse).orphanModules ∧
       jsTrim "B" ∉ (c1.analyse).definedModules ∧
       (∀ src y c2, c1.add "B" src = JsResult.ok y c2 →
         jsTrim "B" ∈ (c2.analyse).definedModules ∧
         jsTrim "B" ∉ (c2.analyse).orphanModules) ∧
       (∀ d : ModuleCollection,
         (∀ z, z ∈ (d.analyse).definedModules ↔ ∃ m ∈ d.modules, m.name = z ∧ m.source ≠ none) ∧
         (∀ z, z ∈ (d.analyse).orphanModules ↔ ∃ m ∈ d.modules, m.name = z ∧ m.source = none) ∧
         (d.analyse).numberOfExports = (d.modules.map (fun m => m.exports.length)).sum)) :=
  ⟨("A", "B"), _, by decide,  rfl,
    c9_analyse_partitions_by_source emptyCollection "A" "B" ("A", "B") _ (by decide) rfl⟩

/-! ## The clone replay -/

theorem updateModule_id_of_absent {ms : List Module} {n : String} {f : Module → Module}
    (h : ∀ m ∈ ms, m.name ≠ n) : updateModule ms n f = ms := by
  induction ms with
  | nil => rfl
  | cons m rest ih =>
    unfold updateModule at ih ⊢
    simp only [List.map_cons]
    rw [if_neg (by simp [h m (by simp)]), ih (fun m' hm' => h m' (by simp [hm']))]

theorem updateModule_append (l1 l2 : List Module) (n : String) (f : Module → Module) :
    updateModule (l1 ++ l2) n f = updateModule l1 n f ++ updateModule l2 n f := by
  unfold updateModule
  exact List.map_append _ l1 l2

/-- One successful clone-side `add`: the fresh module (same name and source)
is appended, and nothing else about modules/dependencies changes. -/
theorem cloneAddStep_ok {acc : ModuleCollection} {m : Module}
    (hname : m.name ≠ "") (htrim : jsTrim m.name = m.name)
    {s : String} (hsome : m.source = some s) (hs : s ≠ "") (hst : jsTrim s = s)
    (hfresh : findModule acc.modules m.name = none) :
    ∃ acc2, cloneAddStep acc m = Except.ok acc2 ∧
      acc2.modules = acc.modules ++ [cloneInit m] ∧
      acc2.dependencies = acc.dependencies ∧
      acc2.numberOfDependencies = acc.numberOfDependencies := by
  have habsent : ∀ m' ∈ acc.modules, m'.name ≠ m.name := findModule_eq_none_iff.mp hfresh
  have hsl : stringLike m.name = Except.ok m.name := by
    simp [stringLike, hname, htrim]
  have hdef : (initModule m.name).define m.source =
      Except.ok { initModule m.name with source := some s } := by
    rw [hsome]
    unfold Module.define
    rw [if_neg (show ¬(initModule m.name).source ≠ none from by simp [initModule])]
    simp [stringLikeOpt, stringLike, hs, hst]
  have hmk : ∃ mm, mkModule m.name m.source = Except.ok mm := by
    unfold mkModule
    rw [hsl]
    simp only [hname, if_false]
    rw [hsome]
    simp only [hs, if_false]
    rw [← hsome, hdef]
    exact ⟨_, rfl⟩
  have hget : acc.get m.name true = JsResult.ok (some m.name)
      { acc with numberOfModules := acc.numberOfModules + 1,
                 modules := acc.modules ++ [initModule m.name] } := by
    unfold ModuleCollection.get
    rw [hsl]
    simp only [hfresh]
    rw [mkModule_none_trimmed _ hname htrim]
    rfl
  have hfindMid : findModule (acc.modules ++ [initModule m.name]) m.name =
      some (initModule m.name) := by
    rw [findModule_append, hfresh]
    simp [findModule, initModule]
  have hupd : updateModule (acc.modules ++ [initModule m.name]) m.name
      (fun _ => { initModule m.name with source := some s }) =
      acc.modules ++ [cloneInit m] := by
    rw [updateModule_append, updateModule_id_of_absent habsent]
    unfold updateModule
    simp [initModule, cloneInit, hsome]
  have hadd : ∃ y acc2, acc.add m.name m.source = JsResult.ok y acc2 ∧
      acc2.modules = acc.modules ++ [cloneInit m] ∧
      acc2.dependencies = acc.dependencies ∧
      acc2.numberOfDependencies = acc.numberOfDependencies := by
    unfold ModuleCollection.add
    rw [hget]
    simp only
    rw [hfindMid]
    simp only
    rw [hdef]
    simp only
    split
    · exact ⟨m.name, _, rfl, hupd, rfl, rfl⟩
    · exact ⟨m.name, _, rfl, hupd, rfl, rfl⟩
  obtain ⟨y, acc2, haddeq, h1, h2, h3⟩ := hadd
  obtain ⟨mm, hmkeq⟩ := hmk
  refine ⟨acc2, ?_, h1, h2, h3⟩
  unfold cloneAddStep
  rw [hmkeq, haddeq]
  rfl

/-- Clone's module loop: starting from any prefix state whose module names
are disjoint from the originals, every add succeeds and appends exactly the
fresh per-name clones, in order. -/
theorem clone_adds (ms : List Module) (acc : ModuleCollection)
    (hvalid : ∀ m ∈ ms, m.name ≠ "" ∧ jsTrim m.name = m.name)
    (hsrc : ∀ m ∈ ms, ∃ s, m.source = some s ∧ s ≠ "" ∧ jsTrim s = s)
    (hnodup : (ms.map (fun m => m.name)).Nodup)
    (hfresh : ∀ m ∈ ms, findModule acc.modules m.name = none) :
    ∃ acc2, ms.foldlM cloneAddStep acc = Except.ok acc2 ∧
      acc2.modules = acc.modules ++ ms.map cloneInit ∧
      acc2.dependencies = acc.dependencies ∧
      acc2.numberOfDependencies = acc.numberOfDependencies := by
  induction ms generalizing acc with
  | nil => exact ⟨acc, rfl, by simp, rfl, rfl⟩
  | cons m rest ih =>
    obtain ⟨s, hsome, hs, hst⟩ := hsrc m (by simp)
    obtain ⟨hname, htrim⟩ := hvalid m (by simp)
    obtain ⟨acc1, hstep, hm1, hd1, hn1⟩ :=
      cloneAddStep_ok hname htrim hsome hs hst (hfresh m (by simp))
    have hfresh1 : ∀ m' ∈ rest, findModule acc1.modules m'.name = none := by
      intro m' hm'
      have hne : m.name ≠ m'.name := by
        intro he
        have hmem : m'.name ∈ rest.map (fun x => x.name) := List.mem_map_of_mem _ hm'
        rw [← he] at hmem
        exact (List.nodup_cons.mp hnodup).1 hmem
      rw [hm1, findModule_append, hfresh m' (by simp [hm'])]
      show findModule [cloneInit m] m'.name = none
      rw [findModule_eq_none_iff]
      intro q hq
      rw [List.mem_singleton] at hq
      subst hq
      show (cloneInit m).name ≠ m'.name
      simpa [cloneInit, initModule] using hne
    obtain ⟨acc2, hfold, hm2, hd2, hn2⟩ := ih acc1
      (fun m' hm' => hvalid m' (by simp [hm']))
      (fun m' hm' => hsrc m' (by simp [hm']))
      ((List.nodup_cons.mp hnodup).2) hfresh1
    refine ⟨acc2, ?_, ?_, by rw [hd2, hd1], by rw [hn2, hn1]⟩
    · rw [show (m :: rest).foldlM cloneAddStep acc =
        (cloneAddStep acc m) >>= (fun a => rest.foldlM cloneAddStep a) from rfl]
      rw [hstep]
      simpa using hfold
    · rw [hm2, hm1]
      simp

/-- Exact outcome of `connect` when both endpoints already exist and the edge
is new: no modules are created, the two adjacency updates are applied, the
edge is appended and counted, and nothing else changes. -/
theorem connect_found_ok {c : ModuleCollection} {n1 n2 : String} {m1 m2 : Module}
    (hn1 : n1 ≠ "") (ht1 : jsTrim n1 = n1) (hn2 : n2 ≠ "") (ht2 : jsTrim n2 = n2)
    (hf1 : findModule c.modules n1 = some m1) (hf2 : findModule c.modules n2 = some m2)
    (hne : n1 ≠ n2)
    (hdup : (m1.requiresKeys.contains n2 || m2.dependants.contains n1) = false) :
    c.connect n1 n2 = JsResult.ok (n1, n2)
      { c with modules := updateModule (updateModule c.modules n1 (reqUpdate n2)) n2 (depUpdate n1),
               dependencies := c.dependencies ++ [(n1, n2)],
               numberOfDependencies := c.numberOfDependencies + 1 } := by
  have hna := findModule_eq_name hf1
  have hnb := findModule_eq_name hf2
  have hg1 : c.get n1 true = JsResult.ok (some n1) c := by
    unfold ModuleCollection.get
    simp only [stringLike, hn1, if_false, ht1, hf1, hna]
  have hg2 : c.get n2 true = JsResult.ok (some n2) c := by
    unfold ModuleCollection.get
    simp only [stringLike, hn2, if_false, ht2, hf2, hnb]
  obtain ⟨hdupa, hdupb⟩ := Bool.or_eq_false_iff.mp hdup
  have hro : c.requireOp n1 n2 = Except.ok
      { c with modules :=
          updateModule (updateModule c.modules n1 (reqUpdate n2)) n2 (depUpdate n1) } := by
    unfold ModuleCollection.requireOp
    rw [hf1, hf2]
    simp only
    rw [if_neg (show ¬m1.name = m2.name from by rw [hna, hnb]; exact hne)]
    rw [if_neg (show ¬(m1.requiresKeys.contains m2.name || m2.dependants.contains m1.name)
      = true from by rw [hna, hnb, hdup]; simp)]
    rw [hna, hnb]
    rfl
  unfold ModuleCollection.connect
  rw [hg1]
  simp only
  rw [hg2]
  simp only
  rw [hro]

theorem applyDeps_name (D : List (String × String)) (m : Module) :
    (applyDeps D m).name = m.name := rfl

theorem mem_applyDeps_requires {D : List (String × String)} {m : Module} {b : String} :
    b ∈ (applyDeps D m).requiresKeys ↔ (m.name, b) ∈ D := by
  unfold applyDeps
  simp only [List.mem_map, List.mem_filter]
  constructor
  · rintro ⟨d, ⟨hd, hd1⟩, hd2⟩
    have h1 : d.1 = m.name := by simpa using hd1
    have : d = (m.name, b) := by
      cases d
      simp only at h1 hd2
      rw [h1, hd2]
    exact this ▸ hd
  · intro hd
    exact ⟨(m.name, b), ⟨hd, by simp⟩, rfl⟩

theorem mem_applyDeps_dependants {D : List (String × String)} {m : Module} {a : String} :
    a ∈ (applyDeps D m).dependants ↔ (a, m.name) ∈ D := by
  unfold applyDeps
  simp only [List.mem_map, List.mem_filter]
  constructor
  · rintro ⟨d, ⟨hd, hd2⟩, hd1⟩
    have h2 : d.2 = m.name := by simpa using hd2
    have : d = (a, m.name) := by
      cases d
      simp only at h2 hd1
      rw [h2, hd1]
    exact this ▸ hd
  · intro hd
    exact ⟨(a, m.name), ⟨hd, by simp⟩, rfl⟩

theorem updateModule_map (ms : List Module) (g : Module → Module) (n : String)
    (f : Module → Module) (hg : ∀ m, (g m).name = m.name) :
    updateModule (ms.map g) n f =
      ms.map (fun m => if m.name == n then f (g m) else g m) := by
  unfold updateModule
  rw [List.map_map]
  congr 1
  funext m
  simp [Function.comp, hg]

/-- Replaying one more edge on the cloned modules is pointwise `applyDeps` of
the extended edge list. -/
theorem applyDeps_snoc (D : List (String × String)) (d : String × String) (m : Module)
    (hne : d.1 ≠ d.2) :
    (if m.name == d.2 then
        depUpdate d.1 (if m.name == d.1 then reqUpdate d.2 (applyDeps D m) else applyDeps D m)
      else if m.name == d.1 then reqUpdate d.2 (applyDeps D m) else applyDeps D m) =
      applyDeps (D ++ [d]) m := by
  by_cases h1 : m.name = d.1
  · have h2 : ¬(m.name = d.2) := by rw [h1]; exact hne
    have hc1 : (m.name == d.1) = true := by simp [h1]
    have hc2 : (m.name == d.2) = false := by simp [h2]
    have hb1 : (d.1 == m.name) = true := by simp [h1]
    have hb2 : (d.2 == m.name) = false := by
      simp only [beq_eq_false_iff_ne, ne_eq]
      intro hq
      exact h2 hq.symm
    rw [if_neg (by simp [h2]), if_pos (by simp [h1])]
    simp [applyDeps, reqUpdate, List.filter_append, List.filter_cons, hb1, hb2]
  · by_cases h2 : m.name = d.2
    · have hb1 : (d.1 == m.name) = false := by
        simp only [beq_eq_false_iff_ne, ne_eq]
        intro hq
        exact h1 hq.symm
      have hb2 : (d.2 == m.name) = true := by simp [h2]
      rw [if_pos (by simp [h2]), if_neg (by simp [h1])]
      simp [applyDeps, depUpdate, List.filter_append, List.filter_cons, hb1, hb2]
    · have hb1 : (d.1 == m.name) = false := by
        simp only [beq_eq_false_iff_ne, ne_eq]
        intro hq
        exact h1 hq.symm
      have hb2 : (d.2 == m.name) = false := by
        simp only [beq_eq_false_iff_ne, ne_eq]
        intro hq
        exact h2 hq.symm
      rw [if_neg (by simp [h2]), if_neg (by simp [h1])]
      simp [applyDeps, List.filter_append, List.filter_cons, hb1, hb2]

/-- One successful clone-side `connect`: both (already cloned) endpoints are
found, the edge is fresh, and replaying it extends the pointwise `applyDeps`
picture by that edge. -/
theorem cloneConnectStep_ok {cms : List Module} {acc : ModuleCollection}
    {D : List (String × String)} {d : String × String}
    (hmods : acc.modules = cms.map (applyDeps D))
    (hvalid : ∀ m ∈ cms, m.name ≠ "" ∧ jsTrim m.name = m.name)
    (hk1 : ∃ m ∈ cms, m.name = d.1) (hk2 : ∃ m ∈ cms, m.name = d.2)
    (hne : d.1 ≠ d.2) (hnotin : d ∉ D) :
    ∃ acc2, cloneConnectStep acc d = Except.ok acc2 ∧
      acc2.modules = cms.map (applyDeps (D ++ [d])) ∧
      acc2.dependencies = acc.dependencies ++ [d] ∧
      acc2.numberOfDependencies = acc.numberOfDependencies + 1 := by
  have h1 : ∃ m0, findModule cms d.1 = some m0 := by
    obtain ⟨ma, hma, hna⟩ := hk1
    have : (findModule cms d.1).isSome := by
      unfold findModule
      rw [List.find?_isSome]
      exact ⟨ma, hma, by simp [hna]⟩
    exact Option.isSome_iff_exists.mp this
  have h2 : ∃ m0, findModule cms d.2 = some m0 := by
    obtain ⟨mb, hmb, hnb⟩ := hk2
    have : (findModule cms d.2).isSome := by
      unfold findModule
      rw [List.find?_isSome]
      exact ⟨mb, hmb, by simp [hnb]⟩
    exact Option.isSome_iff_exists.mp this
  obtain ⟨m0, hm0⟩ := h1
  obtain ⟨m0b, hm0b⟩ := h2
  have hq1 : findModule acc.modules d.1 = some (applyDeps D m0) := by
    rw [hmods, findModule_map_namePreserving cms (applyDeps D) (fun m => rfl) d.1, hm0]
    rfl
  have hq2 : findModule acc.modules d.2 = some (applyDeps D m0b) := by
    rw [hmods, findModule_map_namePreserving cms (applyDeps D) (fun m => rfl) d.2, hm0b]
    rfl
  have hval1 : d.1 ≠ "" ∧ jsTrim d.1 = d.1 := by
    have hv := hvalid m0 (mem_of_findModule hm0)
    rw [findModule_eq_name hm0] at hv
    exact hv
  have hval2 : d.2 ≠ "" ∧ jsTrim d.2 = d.2 := by
    have hv := hvalid m0b (mem_of_findModule hm0b)
    rw [findModule_eq_name hm0b] at hv
    exact hv
  have hdup : ((applyDeps D m0).requiresKeys.contains d.2 ||
      (applyDeps D m0b).dependants.contains d.1) = false := by
    rw [Bool.or_eq_false_iff]
    constructor
    · have hmemf : d.2 ∉ (applyDeps D m0).requiresKeys := by
        intro hmem
        have hmm := mem_applyDeps_requires.mp hmem
        rw [findModule_eq_name hm0] at hmm
        exact hnotin (by simpa using hmm)
      simpa using hmemf
    · have hmemf : d.1 ∉ (applyDeps D m0b).dependants := by
        intro hmem
        have hmm := mem_applyDeps_dependants.mp hmem
        rw [findModule_eq_name hm0b] at hmm
        exact hnotin (by simpa using hmm)
      simpa using hmemf
  have hcon := connect_found_ok hval1.1 hval1.2 hval2.1 hval2.2 hq1 hq2 hne hdup
  have hg1name : ∀ m : Module,
      ((fun m => if m.name == d.1 then reqUpdate d.2 (applyDeps D m) else applyDeps D m) m).name
        = m.name := by
    intro m
    simp only
    split <;> rfl
  have hstep : cloneConnectStep acc d = Except.ok
      { acc with
        modules := updateModule (updateModule acc.modules d.1 (reqUpdate d.2)) d.2 (depUpdate d.1),
        dependencies := acc.dependencies ++ [(d.1, d.2)],
        numberOfDependencies := acc.numberOfDependencies + 1 } := by
    unfold cloneConnectStep
    rw [hcon]
  refine ⟨_, hstep, ?_, ?_, ?_⟩
  · show updateModule (updateModule acc.modules d.1 (reqUpdate d.2)) d.2 (depUpdate d.1) =
      cms.map (applyDeps (D ++ [d]))
    rw [hmods]
    rw [updateModule_map cms (applyDeps D) d.1 (reqUpdate d.2) (fun m => rfl)]
    rw [updateModule_map cms _ d.2 (depUpdate d.1) hg1name]
    refine List.map_congr_left (fun m hm => ?_)
    exact applyDeps_snoc D d m hne
  · show acc.dependencies ++ [(d.1, d.2)] = acc.dependencies ++ [d]
    rw [Prod.mk.eta]
  · rfl

/-- Clone's dependency loop: replaying a duplicate-free suffix of edges over
already-cloned modules succeeds and accumulates exactly those edges. -/
theorem clone_connects (ds : List (String × String)) (D : List (String × String))
    (cms : List Module) (acc : ModuleCollection)
    (hmods : acc.modules = cms.map (applyDeps D))
    (hvalid : ∀ m ∈ cms, m.name ≠ "" ∧ jsTrim m.name = m.name)
    (hends : ∀ e ∈ ds, (∃ m ∈ cms, m.name = e.1) ∧ (∃ m ∈ cms, m.name = e.2) ∧ e.1 ≠ e.2)
    (hnodup : (D ++ ds).Nodup) :
    ∃ acc2, ds.foldlM cloneConnectStep acc = Except.ok acc2 ∧
      acc2.modules = cms.map (applyDeps (D ++ ds)) ∧
      acc2.dependencies = acc.dependencies ++ ds ∧
      acc2.numberOfDependencies = acc.numberOfDependencies + ds.length := by
  induction ds generalizing D acc with
  | nil => exact ⟨acc, rfl, by simpa using hmods, by simp, by simp⟩
  | cons d rest ih =>
    obtain ⟨hk1, hk2, hne⟩ := hends d (by simp)
    have hdnot : d ∉ D := by
      intro hd
      obtain ⟨-, -, hdisj⟩ := List.nodup_append.mp hnodup
      exact hdisj hd (by simp)
    obtain ⟨acc1, hstep, hm1, hd1, hn1⟩ := cloneConnectStep_ok hmods hvalid hk1 hk2 hne hdnot
    have hassoc : D ++ [d] ++ rest = D ++ d :: rest := by
      rw [List.append_assoc]
      rfl
    obtain ⟨acc2, hfold, hm2, hd2, hn2⟩ := ih (D ++ [d]) acc1 hm1
      (fun e he => hends e (by simp [he])) (by rw [hassoc]; exact hnodup)
    refine ⟨acc2, ?_, ?_, ?_, ?_⟩
    · rw [show (d :: rest).foldlM cloneConnectStep acc =
        (cloneConnectStep acc d) >>= (fun a => rest.foldlM cloneConnectStep a) from rfl]
      rw [hstep]
      simpa using hfold
    · rw [hm2, hassoc]
    · rw [hd2, hd1, List.append_assoc]
      rfl
    · rw [hn2, hn1]
      simp only [List.length_cons]
      omega

/-- C5 (amended).  On a well-formed collection in which every module is
defined with a non-empty source, `clone()` succeeds and yields a collection
with the same module names, the same source per module, the same adjacency
lists and the same edge list, with all transient traversal state clear; a
subsequent successful `connect` on the clone yields a dependency count one
above the original's, which itself is untouched (the clone is built from
fresh records). -/
theorem c5_clone_of_fully_defined (c : ModuleCollection) (hwf : WF c)
    (hdef : ∀ m ∈ c.modules, ∃ s, m.source = some s ∧ s ≠ "") :
    ∃ c2, c.clone = Except.ok c2 ∧
      c2.modules.map (fun m => (m.name, m.source)) =
        c.modules.map (fun m => (m.name, m.source)) ∧
      c2.modules.map (fun m => (m.name, m.requiresKeys, m.dependants)) =
        c.modules.map (fun m => (m.name, m.requiresKeys, m.dependants)) ∧
      c2.dependencies = c.dependencies ∧
      c2.numberOfDependencies = c.numberOfDependencies ∧
      Clean c2 ∧
      (∀ a b r c3, c2.connect a b = JsResult.ok r c3 →
        c3.numberOfDependencies = c.numberOfDependencies + 1) := by
  obtain ⟨h1, h2, h3, h4, h5, h6, h7, h8, h9⟩ := hwf
  obtain ⟨accA, hfoldA, hmA, hdA, hnA⟩ := clone_adds c.modules emptyCollection
    (fun m hm => h2 m hm)
    (fun m hm => by
      obtain ⟨s, hs1, hs2⟩ := hdef m hm
      exact ⟨s, hs1, hs2, h3 m hm s hs1⟩)
    h1 (fun m hm => rfl)
  have happly0 : cloneInit = applyDeps [] := by
    funext m
    rfl
  have hmA' : accA.modules = c.modules.map (applyDeps []) := by
    rw [hmA, happly0]
    rfl
  obtain ⟨accB, hfoldB, hmB, hdB, hnB⟩ := clone_connects c.dependencies [] c.modules accA
    hmA' (fun m hm => h2 m hm)
    (fun e he => ⟨(h4 e he).1, (h4 e he).2.1, (h4 e he).2.2⟩)
    (by simpa using h5)
  have hclone : c.clone = Except.ok accB := by
    unfold ModuleCollection.clone
    rw [hfoldA]
    show c.dependencies.foldlM cloneConnectStep accA = Except.ok accB
    simpa using hfoldB
  have hmodsB : accB.modules = c.modules.map (applyDeps c.dependencies) := by
    rw [hmB]
    rfl
  refine ⟨accB, hclone, ?_, ?_, ?_, ?_, ?_, ?_⟩
  · rw [hmodsB, List.map_map]
    rfl
  · rw [hmodsB, List.map_map]
    refine List.map_congr_left (fun m hm => ?_)
    show (m.name, (applyDeps c.dependencies m).requiresKeys,
      (applyDeps c.dependencies m).dependants) = (m.name, m.requiresKeys, m.dependants)
    rw [show (applyDeps c.dependencies m).requiresKeys =
        (c.dependencies.filter (fun d => d.1 == m.name)).map (fun d => d.2) from rfl,
      show (applyDeps c.dependencies m).dependants =
        (c.dependencies.filter (fun d => d.2 == m.name)).map (fun d => d.1) from rfl]
    rw [← h6 m hm, ← h7 m hm]
  · rw [hdB, hdA]
    rfl
  · rw [hnB, hnA]
    rw [h9]
    simp [emptyCollection]
  · intro m hm
    rw [hmodsB] at hm
    obtain ⟨m0, hm0, hq⟩ := List.mem_map.mp hm
    rw [← hq]
    exact ⟨rfl, rfl, rfl⟩
  · intro a b r c3 hcon
    obtain ⟨-, -, -, -, -, -, -, hcnt⟩ := connect_ok_info hcon
    rw [hcnt, hnB, hnA, h9]
    simp [emptyCollection]

/-- C5 witness: a two-module fully-defined collection with one edge. -/
theorem c5_clone_of_fully_defined_witness :
    ∃ cw : ModuleCollection,
      (∃ y1 c1 y2 c2 r3 c3, emptyCollection.add "A" (some "a.js") = JsResult.ok y1 c1 ∧
        c1.add "B" (some "b.js") = JsResult.ok y2 c2 ∧
        c2.connect "A" "B" = JsResult.ok r3 c3 ∧ c3 = cw) ∧
      WF cw ∧ (∀ m ∈ cw.modules, ∃ s, m.source = some s ∧ s ≠ "") ∧
      (∃ c2, cw.clone = Except.ok c2 ∧
        c2.modules.map (fun m => (m.name, m.source)) =
          cw.modules.map (fun m => (m.name, m.source)) ∧
        c2.modules.map (fun m => (m.name, m.requiresKeys, m.dependants)) =
          cw.modules.map (fun m => (m.name, m.requiresKeys, m.dependants)) ∧
        c2.dependencies = cw.dependencies ∧
        c2.numberOfDependencies = cw.numberOfDependencies ∧
        Clean c2 ∧
        (∀ a b r c3, c2.connect a b = JsResult.ok r c3 →
          c3.numberOfDependencies = cw.numberOfDependencies + 1)) := by
  refine ⟨_, ⟨_, _, _, _, _, _, rfl, rfl, rfl, rfl⟩, ?_, ?_, ?_⟩
  · decide
  · decide
  · exact c5_clone_of_fully_defined _ (by decide) (by decide)

/-! ## Serialization: statics, views and measures -/

theorem sameStatics_self (ms : List Module) : sameStatics ms ms := rfl

theorem sameStatics_trans {a b c : List Module}
    (h1 : sameStatics a b) (h2 : sameStatics b c) : sameStatics a c :=
  h2.trans h1

theorem length_of_sameStatics {ms ms' : List Module} (h : sameStatics ms ms') :
    ms'.length = ms.length := by
  have := congrArg List.length h
  simpa using this

theorem namesOf_sameStatics {ms ms' : List Module} (h : sameStatics ms ms') :
    ms'.map (fun m => m.name) = ms.map (fun m => m.name) := by
  have := congrArg (List.map Prod.fst) h
  simpa [List.map_map, Function.comp, Module.statics] using this

theorem findModule_statics {ms ms' : List Module} (h : sameStatics ms ms') (k : String) :
    (findModule ms' k).map Module.statics = (findModule ms k).map Module.statics := by
  induction ms generalizing ms' with
  | nil =>
    have : ms' = [] := by
      cases ms' with
      | nil => rfl
      | cons x xs => simp [sameStatics] at h
    subst this; rfl
  | cons m t ih =>
    cases ms' with
    | nil => simp [sameStatics] at h
    | cons m' t' =>
      unfold sameStatics at h
      simp only [List.map_cons, List.cons.injEq] at h
      obtain ⟨hst, htl⟩ := h
      have hname : m'.name = m.name := congrArg Prod.fst hst
      unfold findModule
      simp only [List.find?_cons]
      by_cases hk : m.name == k
      · rw [hname]; simp [hk, hst]
      · rw [hname]
        simp only [hk]
        exact ih htl

theorem reqsOf_statics {ms ms' : List Module} (h : sameStatics ms ms') (k : String) :
    reqsOf ms' k = reqsOf ms k := by
  have hm := findModule_statics h k
  unfold reqsOf
  cases h1 : findModule ms k <;> cases h2 : findModule ms' k <;>
    rw [h1, h2] at hm <;> simp at hm ⊢
  have : _ = _ := congrArg (fun p => p.2.1) hm
  simpa [Module.statics] using this

theorem depsOf_statics {ms ms' : List Module} (h : sameStatics ms ms') (k : String) :
    depsOf ms' k = depsOf ms k := by
  have hm := findModule_statics h k
  unfold depsOf
  cases h1 : findModule ms k <;> cases h2 : findModule ms' k <;>
    rw [h1, h2] at hm <;> simp at hm ⊢
  have : _ = _ := congrArg (fun p => p.2.2.1) hm
  simpa [Module.statics] using this

theorem findModule_none_statics {ms ms' : List Module} (h : sameStatics ms ms') (k : String) :
    findModule ms' k = none ↔ findModule ms k = none := by
  have hm := findModule_statics h k
  cases h1 : findModule ms k <;> cases h2 : findModule ms' k <;>
    rw [h1, h2] at hm <;> simp_all

theorem WAdjL_statics {ms ms' : List Module} (h : sameStatics ms ms') (a b : String) :
    WAdjL ms' a b ↔ WAdjL ms a b := by
  unfold WAdjL
  rw [reqsOf_statics h, depsOf_statics h]

theorem EdgeL_statics {ms ms' : List Module} (h : sameStatics ms ms') (a b : String) :
    EdgeL ms' a b ↔ EdgeL ms a b := by
  unfold EdgeL
  rw [reqsOf_statics h]

theorem WConnL_statics {ms ms' : List Module} (h : sameStatics ms ms') (a b : String) :
    WConnL ms' a b ↔ WConnL ms a b := by
  unfold WConnL
  constructor
  · exact fun hc => Relation.ReflTransGen.mono (fun x y hxy => (WAdjL_statics h x y).mp hxy) hc
  · exact fun hc => Relation.ReflTransGen.mono (fun x y hxy => (WAdjL_statics h x y).mpr hxy) hc

theorem sameStatics_updateModule (ms : List Module) (n : String) (f : Module → Module)
    (hf : ∀ m, Module.statics (f m) = Module.statics m) :
    sameStatics ms (updateModule ms n f) := by
  unfold sameStatics updateModule
  rw [List.map_map]
  apply List.map_congr_left
  intro m _
  by_cases h : m.name == n <;> simp [Function.comp, h, hf]

theorem findModule_update_self {ms : List Module} {n : String} {m : Module}
    (f : Module → Module) (hf : ∀ x, (f x).name = x.name)
    (h : findModule ms n = some m) :
    findModule (updateModule ms n f) n = some (f m) := by
  rw [findModule_updateModule ms n n f hf, h]
  have := findModule_eq_name h
  simp [this]

theorem findModule_update_other {ms : List Module} {n k : String}
    (f : Module → Module) (hf : ∀ x, (f x).name = x.name) (hkn : k ≠ n) :
    findModule (updateModule ms n f) k = findModule ms k := by
  rw [findModule_updateModule ms n k f hf]
  cases h : findModule ms k with
  | none => rfl
  | some m =>
    have := findModule_eq_name h
    simp [this, hkn]

theorem markedB_update_pres {ms : List Module} {n : String} (f : Module → Module)
    (hf : ∀ x, (f x).name = x.name) (hp : ∀ x, (f x).topologicalMarker = x.topologicalMarker)
    (k : String) : markedB (updateModule ms n f) k = markedB ms k := by
  unfold markedB
  rw [findModule_updateModule ms n k f hf]
  cases h : findModule ms k with
  | none => rfl
  | some m => by_cases hm : m.name = n <;> simp [hm, hp]

theorem sortedB_update_pres {ms : List Module} {n : String} (f : Module → Module)
    (hf : ∀ x, (f x).name = x.name) (hp : ∀ x, (f x).sorting = x.sorting)
    (k : String) : sortedB (updateModule ms n f) k = sortedB ms k := by
  unfold sortedB
  rw [findModule_updateModule ms n k f hf]
  cases h : findModule ms k with
  | none => rfl
  | some m => by_cases hm : m.name = n <;> simp [hm, hp]

theorem indexedB_update_pres {ms : List Module} {n : String} (f : Module → Module)
    (hf : ∀ x, (f x).name = x.name) (hp : ∀ x, (f x).indexing = x.indexing)
    (k : String) : indexedB (updateModule ms n f) k = indexedB ms k := by
  unfold indexedB
  rw [findModule_updateModule ms n k f hf]
  cases h : findModule ms k with
  | none => rfl
  | some m => by_cases hm : m.name = n <;> simp [hm, hp]

theorem idxOf_update_pres {ms : List Module} {n : String} (f : Module → Module)
    (hf : ∀ x, (f x).name = x.name) (hp : ∀ x, (f x).index = x.index)
    (k : String) : idxOf (updateModule ms n f) k = idxOf ms k := by
  unfold idxOf
  rw [findModule_updateModule ms n k f hf]
  cases h : findModule ms k with
  | none => rfl
  | some m => by_cases hm : m.name = n <;> simp [hm, hp]

theorem countActive_eq_countP (ms : List Module) :
    countActive ms = ms.countP Module.active := by
  unfold countActive Module.active
  rw [List.countP_eq_length_filter]

theorem countUnindexed_eq_countP (ms : List Module) :
    countUnindexed ms = ms.countP (fun m => !m.indexing) := by
  unfold countUnindexed
  rw [List.countP_eq_length_filter]

theorem countActive_update_le {ms : List Module} {n : String} (f : Module → Module)
    (hmono : ∀ x, Module.active (f x) = true → Module.active x = true) :
    countActive (updateModule ms n f) ≤ countActive ms := by
  rw [countActive_eq_countP, countActive_eq_countP]
  unfold updateModule
  rw [List.countP_map]
  apply List.countP_mono_left
  intro m _ h
  by_cases hm : m.name == n
  · simp only [Function.comp, hm, if_pos] at h
    simp at hm
    exact hmono m (by simpa [hm] using h)
  · simpa [Function.comp, hm] using h

theorem countUnindexed_update_le {ms : List Module} {n : String} (f : Module → Module)
    (hmono : ∀ x, (f x).indexing = false → x.indexing = false) :
    countUnindexed (updateModule ms n f) ≤ countUnindexed ms := by
  rw [countUnindexed_eq_countP, countUnindexed_eq_countP]
  unfold updateModule
  rw [List.countP_map]
  apply List.countP_mono_left
  intro m _ h
  by_cases hm : m.name == n
  · simp only [Function.comp, hm, if_pos] at h
    simp at hm h
    simpa using hmono m h
  · simpa [Function.comp, hm] using h

theorem countActive_update_eq {ms : List Module} {n : String} (f : Module → Module)
    (hp : ∀ x, Module.active (f x) = Module.active x) :
    countActive (updateModule ms n f) = countActive ms := by
  rw [countActive_eq_countP, countActive_eq_countP]
  unfold updateModule
  rw [List.countP_map]
  apply List.countP_congr
  intro m _
  by_cases hm : m.name == n <;> simp [Function.comp, hm, hp]

theorem countUnindexed_update_eq {ms : List Module} {n : String} (f : Module → Module)
    (hp : ∀ x, (f x).indexing = x.indexing) :
    countUnindexed (updateModule ms n f) = countUnindexed ms := by
  rw [countUnindexed_eq_countP, countUnindexed_eq_countP]
  unfold updateModule
  rw [List.countP_map]
  apply List.countP_congr
  intro m _
  by_cases hm : m.name == n <;> simp [Function.comp, hm, hp]

theorem countActive_update_lt {ms : List Module} {n : String} {m : Module}
    (f : Module → Module)
    (h : findModule ms n = some m) (hact : Module.active m = true)
    (hfm : Module.active (f m) = false)
    (hmono : ∀ x, Module.active (f x) = true → Module.active x = true) :
    countActive (updateModule ms n f) < countActive ms := by
  induction ms with
  | nil => simp [findModule] at h
  | cons a t ih =>
    have hcons : updateModule (a :: t) n f =
        (if a.name == n then f a else a) :: updateModule t n f := rfl
    rw [hcons, countActive_eq_countP, countActive_eq_countP, List.countP_cons,
      List.countP_cons]
    by_cases ha : a.name == n
    · have hma : m = a := by
        unfold findModule at h
        simp only [List.find?_cons, ha] at h
        exact (Option.some.injEq _ _).mp h.symm
      subst hma
      have hle := @countActive_update_le t n f hmono
      rw [countActive_eq_countP, countActive_eq_countP] at hle
      simp only [ha, if_pos, hfm, hact]
      first
      | omega
      | (simp; omega)
      | simp
    · have hts : findModule t n = some m := by
        unfold findModule at h ⊢
        simpa [List.find?_cons, ha] using h
      have := ih hts
      rw [countActive_eq_countP, countActive_eq_countP] at this
      simp only [ha, if_neg]
      first
      | omega
      | (simp at this ⊢; omega)
      | simp

theorem countUnindexed_update_lt {ms : List Module} {n : String} {m : Module}
    (f : Module → Module)
    (h : findModule ms n = some m) (hact : m.indexing = false)
    (hfm : (f m).indexing = true)
    (hmono : ∀ x, (f x).indexing = false → x.indexing = false) :
    countUnindexed (updateModule ms n f) < countUnindexed ms := by
  induction ms with
  | nil => simp [findModule] at h
  | cons a t ih =>
    have hcons : updateModule (a :: t) n f =
        (if a.name == n then f a else a) :: updateModule t n f := rfl
    rw [hcons, countUnindexed_eq_countP, countUnindexed_eq_countP, List.countP_cons,
      List.countP_cons]
    by_cases ha : a.name == n
    · have hma : m = a := by
        unfold findModule at h
        simp only [List.find?_cons, ha] at h
        exact (Option.some.injEq _ _).mp h.symm
      subst hma
      have hle := @countUnindexed_update_le t n f hmono
      rw [countUnindexed_eq_countP, countUnindexed_eq_countP] at hle
      simp only [ha, if_pos, hfm, hact]
      first
      | omega
      | (simp; omega)
      | simp
    · have hts : findModule t n = some m := by
        unfold findModule at h ⊢
        simpa [List.find?_cons, ha] using h
      have := ih hts
      rw [countUnindexed_eq_countP, countUnindexed_eq_countP] at this
      simp only [ha, if_neg]
      first
      | omega
      | (simp at this ⊢; omega)
      | simp

theorem countActive_le_length (ms : List Module) : countActive ms ≤ ms.length := by
  unfold countActive
  exact List.length_filter_le _ ms

theorem countUnindexed_le_length (ms : List Module) : countUnindexed ms ≤ ms.length := by
  unfold countUnindexed
  exact List.length_filter_le _ ms

/-! ## Serialization: the sort stack -/

theorem stackLE_self (st : List (List String)) : stackLE st st :=
  ⟨le_refl _, fun _ _ _ => List.prefix_refl _⟩

theorem stackLE_trans {a b c : List (List String)}
    (h1 : stackLE a b) (h2 : stackLE b c) : stackLE a c := by
  obtain ⟨hl1, hp1⟩ := h1
  obtain ⟨hl2, hp2⟩ := h2
  refine ⟨le_trans hl1 hl2, fun i h h' => ?_⟩
  exact List.IsPrefix.trans (hp1 i h (lt_of_lt_of_le h hl1))
    (hp2 i (lt_of_lt_of_le h hl1) h')

theorem pushAt_cons_succ (b : List String) (t : List (List String)) (j : Nat) (x : String) :
    pushAt (b :: t) (j + 1) x = b :: pushAt t j x := by
  unfold pushAt
  by_cases h : j < t.length
  · rw [dif_pos (by simpa using Nat.succ_lt_succ h), dif_pos h]
    rfl
  · rw [dif_neg (by simpa using fun hh => h hh), dif_neg h]
    have he : j + 1 - (b :: t).length = j - t.length := by
      simp
    rw [he]
    simp

theorem flatten_replicate_nil : ∀ n : Nat, (List.replicate n ([] : List String)).flatten = []
  | 0 => rfl
  | n + 1 => by
    rw [List.replicate_succ, List.flatten_cons, flatten_replicate_nil n]
    rfl

theorem pushAt_flatten_perm : ∀ (st : List (List String)) (i : Nat) (x : String),
    (pushAt st i x).flatten.Perm (x :: st.flatten)
  | [], i, x => by
    unfold pushAt
    rw [dif_neg (by simp)]
    simp [List.flatten_append, flatten_replicate_nil]
  | b :: t, 0, x => by
    unfold pushAt
    rw [dif_pos (by simp)]
    simp only [List.set_cons_zero, List.flatten_cons, List.get_cons_zero]
    rw [List.append_assoc]
    simp only [List.singleton_append]
    exact List.perm_middle
  | b :: t, j + 1, x => by
    rw [pushAt_cons_succ]
    simp only [List.flatten_cons]
    exact ((pushAt_flatten_perm t j x).append_left b).trans List.perm_middle

theorem pushAt_length_le (st : List (List String)) (i : Nat) (x : String) :
    st.length ≤ (pushAt st i x).length := by
  unfold pushAt
  by_cases h : i < st.length
  · rw [dif_pos h]; simp
  · rw [dif_neg h]; simp

theorem pushAt_length_gt (st : List (List String)) (i : Nat) (x : String) :
    i < (pushAt st i x).length := by
  unfold pushAt
  by_cases h : i < st.length
  · rw [dif_pos h]; simpa using h
  · rw [dif_neg h]
    simp only [List.length_append, List.length_replicate, List.length_cons]
    omega

theorem pushAt_get_other (st : List (List String)) (i : Nat) (x : String)
    (j : Nat) (hj : j < st.length) (hne : j ≠ i)
    (hj' : j < (pushAt st i x).length) :
    (pushAt st i x).get ⟨j, hj'⟩ = st.get ⟨j, hj⟩ := by
  unfold pushAt at hj' ⊢
  by_cases h : i < st.length
  · rw [List.get_eq_getElem, List.get_eq_getElem]
    simp only [dif_pos h]
    rw [List.getElem_set_ne (by omega)]
  · rw [List.get_eq_getElem, List.get_eq_getElem]
    simp only [dif_neg h]
    rw [List.getElem_append_left (by simp; omega), List.getElem_append_left hj]

theorem pushAt_get_self_lt (st : List (List String)) (i : Nat) (x : String)
    (h : i < st.length) (hi : i < (pushAt st i x).length) :
    (pushAt st i x).get ⟨i, hi⟩ = st.get ⟨i, h⟩ ++ [x] := by
  unfold pushAt at hi ⊢
  rw [List.get_eq_getElem]
  simp only [dif_pos h]
  rw [List.getElem_set_self]

theorem pushAt_get_self_ge (st : List (List String)) (i : Nat) (x : String)
    (h : ¬ i < st.length) (hi : i < (pushAt st i x).length) :
    (pushAt st i x).get ⟨i, hi⟩ = [x] := by
  unfold pushAt at hi ⊢
  rw [List.get_eq_getElem]
  simp only [dif_neg h]
  rw [List.getElem_append_right (by simp; omega)]
  have he : i - (st ++ List.replicate (i - st.length) ([] : List String)).length = 0 := by
    simp
    omega
  simp [he]

theorem stackLE_pushAt (st : List (List String)) (i : Nat) (x : String) :
    stackLE st (pushAt st i x) := by
  refine ⟨pushAt_length_le st i x, fun j hj hj' => ?_⟩
  by_cases hji : j = i
  · subst hji
    rw [pushAt_get_self_lt st j x hj hj']
    exact ⟨[x], rfl⟩
  · rw [pushAt_get_other st i x j hj hji hj']

/-! ## Serialization: per-view update lemmas -/

theorem markedB_update_other {ms : List Module} {n k : String}
    (f : Module → Module) (hf : ∀ x, (f x).name = x.name) (hkn : k ≠ n) :
    markedB (updateModule ms n f) k = markedB ms k := by
  unfold markedB
  rw [findModule_update_other f hf hkn]

theorem sortedB_update_other {ms : List Module} {n k : String}
    (f : Module → Module) (hf : ∀ x, (f x).name = x.name) (hkn : k ≠ n) :
    sortedB (updateModule ms n f) k = sortedB ms k := by
  unfold sortedB
  rw [findModule_update_other f hf hkn]

theorem indexedB_update_other {ms : List Module} {n k : String}
    (f : Module → Module) (hf : ∀ x, (f x).name = x.name) (hkn : k ≠ n) :
    indexedB (updateModule ms n f) k = indexedB ms k := by
  unfold indexedB
  rw [findModule_update_other f hf hkn]

theorem idxOf_update_other {ms : List Module} {n k : String}
    (f : Module → Module) (hf : ∀ x, (f x).name = x.name) (hkn : k ≠ n) :
    idxOf (updateModule ms n f) k = idxOf ms k := by
  unfold idxOf
  rw [findModule_update_other f hf hkn]

theorem markedB_update_self {ms : List Module} {n : String} {m : Module}
    (f : Module → Module) (hf : ∀ x, (f x).name = x.name)
    (h : findModule ms n = some m) :
    markedB (updateModule ms n f) n = (f m).topologicalMarker := by
  unfold markedB
  rw [findModule_update_self f hf h]

theorem sortedB_update_self {ms : List Module} {n : String} {m : Module}
    (f : Module → Module) (hf : ∀ x, (f x).name = x.name)
    (h : findModule ms n = some m) :
    sortedB (updateModule ms n f) n = (f m).sorting := by
  unfold sortedB
  rw [findModule_update_self f hf h]

theorem indexedB_update_self {ms : List Module} {n : String} {m : Module}
    (f : Module → Module) (hf : ∀ x, (f x).name = x.name)
    (h : findModule ms n = some m) :
    indexedB (updateModule ms n f) n = (f m).indexing := by
  unfold indexedB
  rw [findModule_update_self f hf h]

theorem idxOf_update_self {ms : List Module} {n : String} {m : Module}
    (f : Module → Module) (hf : ∀ x, (f x).name = x.name)
    (h : findModule ms n = some m) :
    idxOf (updateModule ms n f) n = (f m).index := by
  unfold idxOf
  rw [findModule_update_self f hf h]

/-! ## Serialization: the topological-sort call -/

theorem topoOk_refl (ms : List Module) (st : List (List String)) : TopoOk ms st ms st :=
  ⟨sameStatics_self ms, fun _ => Eq.refl _, fun _ h => h, fun _ _ => Eq.refl _,
    fun _ => Eq.refl _, fun _ => Eq.refl _, le_refl _, Eq.refl _, stackLE_self st⟩

theorem topoOk_trans {a b c : List Module} {s1 s2 s3 : List (List String)}
    (h1 : TopoOk a s1 b s2) (h2 : TopoOk b s2 c s3) : TopoOk a s1 c s3 := by
  obtain ⟨a1, a2, a3, a4, a5, a6, a7, a8, a9⟩ := h1
  obtain ⟨b1, b2, b3, b4, b5, b6, b7, b8, b9⟩ := h2
  refine ⟨sameStatics_trans a1 b1, fun k => (b2 k).trans (a2 k),
    fun k h => b3 k (a3 k h), fun k h => ?_, fun k => (b5 k).trans (a5 k),
    fun k => (b6 k).trans (a6 k), le_trans b7 a7, b8.trans a8,
    stackLE_trans a9 b9⟩
  have hb : markedB b k = true := (a2 k).trans h
  exact (b4 k hb).trans (a4 k h)

/-- Everything a normally-returning `collectionTopoSort` call guarantees:
the `TopoOk` frame conditions, plus that an existing target ends up sorted. -/
theorem topoSortFuel_ok_facts : ∀ (fuel : Nat) {ms : List Module} {n : String}
    {st : List (List String)} {ms' : List Module} {st' : List (List String)},
    topoSortFuel fuel ms n st = some (TravResult.ok ms' st') →
    TopoOk ms st ms' st' ∧ (findModule ms n ≠ none → sortedB ms' n = true) := by
  intro fuel
  induction fuel with
  | zero => intro ms n st ms' st' h; simp [topoSortFuel] at h
  | succ fuel ih =>
    have hlist : ∀ (ks : List String) {ms : List Module} {st : List (List String)}
        {ms' : List Module} {st' : List (List String)},
        topoSortChildren (topoSortFuel fuel) ks ms st = some (TravResult.ok ms' st') →
        TopoOk ms st ms' st' ∧
          (∀ k ∈ ks, findModule ms k ≠ none → sortedB ms' k = true) := by
      intro ks
      induction ks with
      | nil =>
        intro ms st ms' st' h
        unfold topoSortChildren at h
        simp only [Option.some.injEq, TravResult.ok.injEq] at h
        obtain ⟨h1, h2⟩ := h
        subst h1; subst h2
        exact ⟨topoOk_refl ms st, by simp⟩
      | cons k ks ihk =>
        intro ms st ms' st' h
        unfold topoSortChildren at h
        cases hk : topoSortFuel fuel ms k st with
        | none =>
          simp only [hk] at h
          exact absurd h (by simp)
        | some r =>
          cases r with
          | thrown e ms1 =>
            simp only [hk] at h
            exact absurd h (by simp)
          | ok ms1 st1 =>
            simp only [hk] at h
            obtain ⟨hok1, hs1⟩ := ih hk
            obtain ⟨hok2, hs2⟩ := ihk h
            refine ⟨topoOk_trans hok1 hok2, ?_⟩
            intro k' hk' hne
            rcases List.mem_cons.mp hk' with hk' | hk'
            · subst hk'
              exact hok2.2.2.1 k' (hs1 hne)
            · have hne1 : findModule ms1 k' ≠ none := by
                rw [Ne, findModule_none_statics hok1.1 k']
                exact hne
              exact hs2 k' hk' hne1
    intro ms n st ms' st' h
    unfold topoSortFuel at h
    cases hf : findModule ms n with
    | none =>
      simp only [hf, Option.some.injEq, TravResult.ok.injEq] at h
      obtain ⟨h1, h2⟩ := h
      subst h1; subst h2
      exact ⟨topoOk_refl ms st, fun hne => absurd (Eq.refl (none : Option Module)) hne⟩
    | some m =>
      simp only [hf] at h
      by_cases hmk : m.topologicalMarker
      · simp [hmk] at h
      · rw [if_neg (by simp [hmk])] at h
        by_cases hs : m.sorting
        · rw [if_pos hs] at h
          simp only [Option.some.injEq, TravResult.ok.injEq] at h
          obtain ⟨h1, h2⟩ := h
          subst h1; subst h2
          refine ⟨topoOk_refl ms st, fun _ => ?_⟩
          unfold sortedB
          rw [hf]
          exact hs
        · rw [if_neg hs] at h
          cases hc : topoSortChildren (topoSortFuel fuel) m.requiresKeys
              (updateModule ms n (fun x => { x with topologicalMarker := true })) st with
          | none =>
            simp only [hc] at h
            exact absurd h (by simp)
          | some r =>
            cases r with
            | thrown e ms2 =>
              simp only [hc] at h
              exact absurd h (by simp)
            | ok ms2 st2 =>
              simp only [hc] at h
              obtain ⟨hokMid, _⟩ := hlist m.requiresKeys hc
              -- names for the three updates
              have hname1 : ∀ x : Module, ({ x with topologicalMarker := true } : Module).name = x.name :=
                fun x => rfl
              have hname3 : ∀ x : Module,
                  ({ x with topologicalMarker := false, sorting := true } : Module).name = x.name :=
                fun x => rfl
              have hfind1 : findModule
                  (updateModule ms n (fun x => { x with topologicalMarker := true })) n =
                  some { m with topologicalMarker := true } :=
                findModule_update_self (fun x => { x with topologicalMarker := true }) hname1 hf
              have hfind2 : ∃ m2, findModule ms2 n = some m2 := by
                cases h2 : findModule ms2 n with
                | none =>
                  rw [findModule_none_statics hokMid.1 n, hfind1] at h2
                  exact absurd h2 (by simp)
                | some m2 => exact ⟨m2, rfl⟩
              obtain ⟨m2, hm2⟩ := hfind2
              have hfind3 : findModule
                  (updateModule ms2 n (fun x =>
                    { x with topologicalMarker := false, sorting := true })) n =
                  some { m2 with topologicalMarker := false, sorting := true } :=
                findModule_update_self (fun x => { x with topologicalMarker := false, sorting := true }) hname3 hm2
              rw [hfind3] at h
              simp only [Option.some.injEq, TravResult.ok.injEq] at h
              obtain ⟨h1, h2⟩ := h
              subst h1
              subst h2
              constructor
              · -- the TopoOk frame for the whole call
                obtain ⟨g1, g2, g3, g4, g5, g6, g7, g8, g9⟩ := hokMid
                have hstat : sameStatics ms (updateModule ms2 n (fun x =>
                    { x with topologicalMarker := false, sorting := true })) := by
                  exact sameStatics_trans (sameStatics_trans
                    (sameStatics_updateModule ms n (fun x => { x with topologicalMarker := true }) (fun x => rfl)) g1)
                    (sameStatics_updateModule ms2 n (fun x => { x with topologicalMarker := false, sorting := true }) (fun x => rfl))
                refine ⟨hstat, fun k => ?_, fun k hk => ?_, fun k hk => ?_,
                  fun k => ?_, fun k => ?_, ?_, ?_, ?_⟩
                · -- markers restored
                  by_cases hkn : k = n
                  · subst hkn
                    rw [markedB_update_self (fun x => { x with topologicalMarker := false, sorting := true }) hname3 hm2]
                    unfold markedB
                    rw [hf]
                    simpa using (Bool.not_eq_true _).mp (by simpa using hmk)
                  · rw [markedB_update_other (fun x => { x with topologicalMarker := false, sorting := true }) hname3 hkn, g2 k,
                      markedB_update_other (fun x => { x with topologicalMarker := true }) hname1 hkn]
                · -- sorted flags only grow
                  by_cases hkn : k = n
                  · subst hkn
                    rw [sortedB_update_self (fun x => { x with topologicalMarker := false, sorting := true }) hname3 hm2]
                  · rw [sortedB_update_other (fun x => { x with topologicalMarker := false, sorting := true }) hname3 hkn]
                    apply g3
                    rw [sortedB_update_pres (fun x => { x with topologicalMarker := true }) hname1 (fun x => rfl)]
                    exact hk
                · -- marked modules keep their sorted flag
                  have hkn : k ≠ n := by
                    intro he
                    subst he
                    unfold markedB at hk
                    rw [hf] at hk
                    exact hmk hk
                  rw [sortedB_update_other (fun x => { x with topologicalMarker := false, sorting := true }) hname3 hkn]
                  have hmk1 : markedB (updateModule ms n
                      (fun x => { x with topologicalMarker := true })) k = true := by
                    rw [markedB_update_other (fun x => { x with topologicalMarker := true }) hname1 hkn]
                    exact hk
                  rw [g4 k hmk1, sortedB_update_pres (fun x => { x with topologicalMarker := true }) hname1 (fun x => rfl)]
                · rw [indexedB_update_pres (fun x => { x with topologicalMarker := false, sorting := true }) hname3 (fun x => rfl), g5 k,
                    indexedB_update_pres (fun x => { x with topologicalMarker := true }) hname1 (fun x => rfl)]
                · rw [idxOf_update_pres (fun x => { x with topologicalMarker := false, sorting := true }) hname3 (fun x => rfl), g6 k,
                    idxOf_update_pres (fun x => { x with topologicalMarker := true }) hname1 (fun x => rfl)]
                · -- active count does not grow
                  have ha1 : countActive (updateModule ms n
                      (fun x => { x with topologicalMarker := true })) ≤ countActive ms := by
                    apply countActive_update_le
                    intro x hx
                    simp [Module.active] at hx
                  have ha3 : countActive (updateModule ms2 n (fun x =>
                      { x with topologicalMarker := false, sorting := true })) ≤
                      countActive ms2 := by
                    apply countActive_update_le
                    intro x hx
                    simp [Module.active] at hx
                  exact le_trans ha3 (le_trans g7 ha1)
                · rw [countUnindexed_update_eq (fun x => { x with topologicalMarker := false, sorting := true }) (fun x => rfl), g8,
                    countUnindexed_update_eq (fun x => { x with topologicalMarker := true }) (fun x => rfl)]
                · exact stackLE_trans g9 (stackLE_pushAt st2 _ n)
              · -- the target came out sorted
                intro _
                rw [sortedB_update_self (fun x => { x with topologicalMarker := false, sorting := true }) hname3 hm2]

/-- `collectionTopoSort` cannot exhaust its fuel while more fuel remains than
active (unmarked, unsorted) modules: every recursion marks a module first. -/
theorem topoSortFuel_suff : ∀ (fuel : Nat) {ms : List Module} {n : String}
    {st : List (List String)}, countActive ms < fuel →
    topoSortFuel fuel ms n st ≠ none := by
  intro fuel
  induction fuel with
  | zero => intro ms n st h; omega
  | succ fuel ih =>
    have hlist : ∀ (ks : List String) {ms : List Module} {st : List (List String)},
        countActive ms < fuel →
        topoSortChildren (topoSortFuel fuel) ks ms st ≠ none := by
      intro ks
      induction ks with
      | nil => intro ms st _; unfold topoSortChildren; simp
      | cons k ks ihk =>
        intro ms st h
        unfold topoSortChildren
        cases hk : topoSortFuel fuel ms k st with
        | none => exact absurd hk (ih h)
        | some r =>
          cases r with
          | thrown e ms1 => simp
          | ok ms1 st1 =>
            have hle : countActive ms1 ≤ countActive ms :=
              (topoSortFuel_ok_facts fuel hk).1.2.2.2.2.2.2.1
            exact ihk (lt_of_le_of_lt hle h)
    intro ms n st h hcontra
    unfold topoSortFuel at hcontra
    cases hf : findModule ms n with
    | none =>
      simp only [hf] at hcontra
      exact absurd hcontra (by simp)
    | some m =>
      simp only [hf] at hcontra
      by_cases hmk : m.topologicalMarker
      · simp [hmk] at hcontra
      · rw [if_neg (by simp [hmk])] at hcontra
        by_cases hs : m.sorting
        · rw [if_pos hs] at hcontra
          exact absurd hcontra (by simp)
        · rw [if_neg hs] at hcontra
          have hact : Module.active m = true := by
            simp [Module.active, hmk, hs]
          have hlt : countActive (updateModule ms n
              (fun x => { x with topologicalMarker := true })) < countActive ms := by
            apply countActive_update_lt _ hf hact
            · simp [Module.active]
            · intro x hx; simp [Module.active] at hx
          cases hc : topoSortChildren (topoSortFuel fuel) m.requiresKeys
              (updateModule ms n (fun x => { x with topologicalMarker := true })) st with
          | none => exact absurd hc (hlist m.requiresKeys (by omega))
          | some r =>
            cases r with
            | thrown e ms2 =>
              simp only [hc] at hcontra
              exact absurd hcontra (by simp)
            | ok ms2 st2 =>
              simp only [hc] at hcontra
              cases hf3 : findModule (updateModule ms2 n (fun x =>
                  { x with topologicalMarker := false, sorting := true })) n <;>
                simp only [hf3] at hcontra <;> exact absurd hcontra (by simp)

/-- A `collectionTopoSort` call that throws produced the cyclic-dependency
message, and the module it names really lies on a requires-cycle — provided
every marked module reaches the current target through requires-edges and a
marked target closes a cycle (both trivially true at the loop's entry, where
nothing is marked). -/
theorem topoSortFuel_thrown_cycle : ∀ (fuel : Nat) {cms ms : List Module} {n : String}
    {st : List (List String)} {e : String} {ms₂ : List Module},
    topoSortFuel fuel ms n st = some (TravResult.thrown e ms₂) →
    sameStatics cms ms →
    (∀ x, markedB ms x = true → Relation.ReflTransGen (EdgeL cms) x n) →
    (markedB ms n = true → Relation.TransGen (EdgeL cms) n n) →
    ∃ y, e = "Cyclic dependency error discovered while parsing: " ++ y ∧
      Relation.TransGen (EdgeL cms) y y := by
  intro fuel
  induction fuel with
  | zero => intro cms ms n st e ms₂ h; simp [topoSortFuel] at h
  | succ fuel ih =>
    have hlist : ∀ (ks : List String) {cms ms : List Module}
        {st : List (List String)} {e : String} {ms₂ : List Module},
        topoSortChildren (topoSortFuel fuel) ks ms st = some (TravResult.thrown e ms₂) →
        sameStatics cms ms →
        (∀ x, markedB ms x = true → ∀ k ∈ ks, Relation.ReflTransGen (EdgeL cms) x k) →
        (∀ k ∈ ks, markedB ms k = true → Relation.TransGen (EdgeL cms) k k) →
        ∃ y, e = "Cyclic dependency error discovered while parsing: " ++ y ∧
          Relation.TransGen (EdgeL cms) y y := by
      intro ks
      induction ks with
      | nil =>
        intro cms ms st e ms₂ h _ _ _
        unfold topoSortChildren at h
        exact absurd h (by simp)
      | cons k ks ihk =>
        intro cms ms st e ms₂ h hstat hm hself
        unfold topoSortChildren at h
        cases hk : topoSortFuel fuel ms k st with
        | none =>
          simp only [hk] at h
          exact absurd h (by simp)
        | some r =>
          cases r with
          | thrown e1 msx =>
            simp only [hk, Option.some.injEq, TravResult.thrown.injEq] at h
            obtain ⟨h1, h2⟩ := h
            subst h1
            exact ih hk hstat
              (fun x hx => hm x hx k (List.mem_cons_self k ks))
              (hself k (List.mem_cons_self k ks))
          | ok ms1 st1 =>
            simp only [hk] at h
            obtain ⟨hok, _⟩ := topoSortFuel_ok_facts fuel hk
            refine ihk h (sameStatics_trans hstat hok.1) ?_ ?_
            · intro x hx k' hk'
              have hx1 : markedB ms x = true := by
                rw [← hok.2.1 x]; exact hx
              exact hm x hx1 k' (List.mem_cons_of_mem k hk')
            · intro k' hk' hmk
              have hmk1 : markedB ms k' = true := by
                rw [← hok.2.1 k']; exact hmk
              exact hself k' (List.mem_cons_of_mem k hk') hmk1
    intro cms ms n st e ms₂ h hstat hm hself
    unfold topoSortFuel at h
    cases hf : findModule ms n with
    | none =>
      simp only [hf] at h
      exact absurd h (by simp)
    | some m =>
      simp only [hf] at h
      by_cases hmk : m.topologicalMarker
      · rw [if_pos hmk] at h
        simp only [Option.some.injEq, TravResult.thrown.injEq] at h
        obtain ⟨h1, _⟩ := h
        refine ⟨n, h1.symm, hself ?_⟩
        unfold markedB
        rw [hf]
        exact hmk
      · rw [if_neg (by simp [hmk])] at h
        by_cases hs : m.sorting
        · rw [if_pos hs] at h
          exact absurd h (by simp)
        · rw [if_neg hs] at h
          have hedge : ∀ k ∈ m.requiresKeys, EdgeL cms n k := by
            intro k hk
            unfold EdgeL
            rw [← reqsOf_statics hstat n]
            unfold reqsOf
            rw [hf]
            exact hk
          cases hc : topoSortChildren (topoSortFuel fuel) m.requiresKeys
              (updateModule ms n (fun x => { x with topologicalMarker := true })) st with
          | none =>
            simp only [hc] at h
            exact absurd h (by simp)
          | some r =>
            cases r with
            | ok ms2 st2 =>
              simp only [hc] at h
              cases hf3 : findModule (updateModule ms2 n (fun x =>
                  { x with topologicalMarker := false, sorting := true })) n <;>
                rw [hf3] at h <;> exact absurd h (by simp)
            | thrown e2 msx =>
              simp only [hc, Option.some.injEq, TravResult.thrown.injEq] at h
              obtain ⟨h1, _⟩ := h
              subst h1
              have hstat1 : sameStatics cms (updateModule ms n
                  (fun x => { x with topologicalMarker := true })) :=
                sameStatics_trans hstat (sameStatics_updateModule ms n
                  (fun x => { x with topologicalMarker := true }) (fun x => rfl))
              refine hlist m.requiresKeys hc hstat1 ?_ ?_
              · intro x hx k hk
                by_cases hxn : x = n
                · subst hxn
                  exact Relation.ReflTransGen.single (hedge k hk)
                · rw [markedB_update_other
                    (fun x => { x with topologicalMarker := true }) (fun x => rfl) hxn] at hx
                  exact (hm x hx).tail (hedge k hk)
              · intro k hk hmk1
                by_cases hkn : k = n
                · subst hkn
                  exact Relation.TransGen.single (hedge k hk)
                · rw [markedB_update_other
                    (fun x => { x with topologicalMarker := true }) (fun x => rfl) hkn] at hmk1
                  exact Relation.TransGen.trans_right (hm k hmk1) (Relation.TransGen.single (hedge k hk))

/-! ## Serialization: the component-index call -/

theorem adjOk_refl (i : Nat) (ms : List Module) : AdjOk i ms ms :=
  ⟨sameStatics_self ms, fun _ => Eq.refl _, fun _ => Eq.refl _,
    fun _ h => ⟨h, Eq.refl _⟩, fun _ h => Or.inl h,
    fun k hc hn => absurd hc (by simp [hn]), le_refl _, Eq.refl _⟩

theorem adjOk_trans {i : Nat} {a b c : List Module}
    (h1 : AdjOk i a b) (h2 : AdjOk i b c) : AdjOk i a c := by
  obtain ⟨a1, a2, a3, a4, a5, a6, a7, a8⟩ := h1
  obtain ⟨b1, b2, b3, b4, b5, b6, b7, b8⟩ := h2
  refine ⟨sameStatics_trans a1 b1, fun k => (b2 k).trans (a2 k),
    fun k => (b3 k).trans (a3 k), fun k hk => ?_, fun k hk => ?_,
    fun k hc hna y hy hyex => ?_, le_trans b7 a7, b8.trans a8⟩
  · obtain ⟨hb, hidx⟩ := a4 k hk
    obtain ⟨hc, hidx2⟩ := b4 k hb
    exact ⟨hc, hidx2.trans hidx⟩
  · rcases b5 k hk with hb | hidx
    · rcases a5 k hb with ha | hidx1
      · exact Or.inl ha
      · exact Or.inr (((b4 k hb).2.trans hidx1))
    · exact Or.inr hidx
  · by_cases hb : indexedB b k = true
    · exact (b4 y (a6 k hb hna y hy hyex)).1
    · have hy' : y ∈ reqsOf b k ++ depsOf b k := by
        rw [reqsOf_statics a1, depsOf_statics a1]
        exact hy
      have hyex' : findModule b y ≠ none := by
        rw [Ne, findModule_none_statics a1 y]
        exact hyex
      exact b6 k hc (by simpa using hb) y hy' hyex'

/-- Everything a returning `collectionAdjacencyIndex` call guarantees: the
`AdjOk` frame for index `i`, that every newly indexed module is weakly
connected to the target, and that an existing target ends up indexed. -/
theorem adjacencyIndexFuel_facts : ∀ (fuel : Nat) {ms : List Module} {n : String}
    {i : Nat} {ms' : List Module},
    adjacencyIndexFuel fuel ms n i = some ms' →
    AdjOk i ms ms' ∧
    (∀ x, indexedB ms' x = true → indexedB ms x = false → WConnL ms n x) ∧
    (findModule ms n ≠ none → indexedB ms' n = true) := by
  intro fuel
  induction fuel with
  | zero => intro ms n i ms' h; simp [adjacencyIndexFuel] at h
  | succ fuel ih =>
    have hlist : ∀ (ks : List String) {ms : List Module} {i : Nat} {ms' : List Module},
        adjacencyIndexChildren (adjacencyIndexFuel fuel) ks ms i = some ms' →
        AdjOk i ms ms' ∧
        (∀ x, indexedB ms' x = true → indexedB ms x = false →
          ∃ k ∈ ks, WConnL ms k x) ∧
        (∀ k ∈ ks, findModule ms k ≠ none → indexedB ms' k = true) := by
      intro ks
      induction ks with
      | nil =>
        intro ms i ms' h
        unfold adjacencyIndexChildren at h
        simp only [Option.some.injEq] at h
        subst h
        exact ⟨adjOk_refl i ms, fun x hx hnx => absurd hx (by simp [hnx]), by simp⟩
      | cons k ks ihk =>
        intro ms i ms' h
        unfold adjacencyIndexChildren at h
        cases hk : adjacencyIndexFuel fuel ms k i with
        | none =>
          simp only [hk] at h
          exact absurd h (by simp)
        | some msx =>
          simp only [hk] at h
          obtain ⟨hok1, hnew1, htgt1⟩ := ih hk
          obtain ⟨hok2, hnew2, htgt2⟩ := ihk h
          refine ⟨adjOk_trans hok1 hok2, ?_, ?_⟩
          · intro x hx hnx
            by_cases hmid : indexedB msx x = true
            · exact ⟨k, List.mem_cons_self k ks, hnew1 x hmid hnx⟩
            · obtain ⟨k', hk', hconn⟩ := hnew2 x hx (by simpa using hmid)
              refine ⟨k', List.mem_cons_of_mem k hk', ?_⟩
              exact (WConnL_statics hok1.1 k' x).mp hconn
          · intro k' hk' hne
            rcases List.mem_cons.mp hk' with he | he
            · subst he
              exact (hok2.2.2.2.1 k' (htgt1 hne)).1
            · have hne1 : findModule msx k' ≠ none := by
                rw [Ne, findModule_none_statics hok1.1 k']
                exact hne
              exact htgt2 k' he hne1
    intro ms n i ms' h
    unfold adjacencyIndexFuel at h
    cases hf : findModule ms n with
    | none =>
      simp only [hf, Option.some.injEq] at h
      subst h
      exact ⟨adjOk_refl i ms, fun x hx hnx => absurd hx (by simp [hnx]),
        fun hne => absurd (Eq.refl (none : Option Module)) hne⟩
    | some m =>
      simp only [hf] at h
      by_cases hidx : m.indexing
      · rw [if_pos hidx] at h
        simp only [Option.some.injEq] at h
        subst h
        refine ⟨adjOk_refl i ms, fun x hx hnx => absurd hx (by simp [hnx]), fun _ => ?_⟩
        unfold indexedB
        rw [hf]
        exact hidx
      · rw [if_neg hidx] at h
        -- the stamping update
        have hname : ∀ x : Module,
            ({ x with index := i, indexing := true } : Module).name = x.name :=
          fun x => rfl
        have hfind1 : findModule (updateModule ms n
            (fun x => { x with index := i, indexing := true })) n =
            some { m with index := i, indexing := true } :=
          findModule_update_self (fun x => { x with index := i, indexing := true }) hname hf
        obtain ⟨hokL, hnewL, htgtL⟩ := hlist (m.requiresKeys ++ m.dependants) h
        have hadj : ∀ y, y ∈ m.requiresKeys ++ m.dependants ↔
            y ∈ reqsOf ms n ++ depsOf ms n := by
          intro y
          unfold reqsOf depsOf
          rw [hf]
        have hstep4 : ∀ k, indexedB ms k = true →
            indexedB (updateModule ms n
              (fun x => { x with index := i, indexing := true })) k = true ∧
            idxOf (updateModule ms n
              (fun x => { x with index := i, indexing := true })) k = idxOf ms k := by
          intro k hk
          have hkn : k ≠ n := by
            intro he
            subst he
            unfold indexedB at hk
            rw [hf] at hk
            exact hidx hk
          rw [indexedB_update_other (fun x => { x with index := i, indexing := true })
            hname hkn, idxOf_update_other (fun x => { x with index := i, indexing := true })
            hname hkn]
          exact ⟨hk, Eq.refl _⟩
        constructor
        · -- the AdjOk frame for the whole call
          obtain ⟨g1, g2, g3, g4, g5, g6, g7, g8⟩ := hokL
          have hstat : sameStatics ms (updateModule ms n
              (fun x => { x with index := i, indexing := true })) :=
            sameStatics_updateModule ms n _ (fun x => rfl)
          refine ⟨sameStatics_trans hstat g1, fun k => ?_, fun k => ?_,
            fun k hk => ?_, fun k hk => ?_, ?_, ?_, ?_⟩
          · rw [g2 k, markedB_update_pres (fun x => { x with index := i, indexing := true })
              hname (fun x => rfl)]
          · rw [g3 k, sortedB_update_pres (fun x => { x with index := i, indexing := true })
              hname (fun x => rfl)]
          · obtain ⟨h1, h2⟩ := hstep4 k hk
            obtain ⟨h3, h4⟩ := g4 k h1
            exact ⟨h3, h4.trans h2⟩
          · -- indexed afterwards: already indexed or stamped with i
            by_cases hkn : k = n
            · subst hkn
              right
              have : indexedB (updateModule ms k
                  (fun x => { x with index := i, indexing := true })) k = true := by
                unfold indexedB
                rw [hfind1]
              obtain ⟨_, h4⟩ := g4 k this
              rw [h4]
              unfold idxOf
              rw [hfind1]
            · rcases g5 k hk with hmid | hi
              · rw [indexedB_update_other (fun x => { x with index := i, indexing := true })
                  hname hkn] at hmid
                exact Or.inl hmid
              · exact Or.inr hi
          · -- neighbours of newly indexed modules are indexed
            intro k hk hnk y hy hyex
            by_cases hkn : k = n
            · subst hkn
              have hy' : y ∈ m.requiresKeys ++ m.dependants := (hadj y).mpr hy
              have hyex1 : findModule (updateModule ms k
                  (fun x => { x with index := i, indexing := true })) y ≠ none := by
                rw [Ne, findModule_none_statics hstat y]
                exact hyex
              exact htgtL y hy' hyex1
            · have hnk1 : indexedB (updateModule ms n
                  (fun x => { x with index := i, indexing := true })) k = false := by
                rw [indexedB_update_other (fun x => { x with index := i, indexing := true })
                  hname hkn]
                exact hnk
              have hy1 : y ∈ reqsOf (updateModule ms n
                  (fun x => { x with index := i, indexing := true })) k ++
                  depsOf (updateModule ms n
                  (fun x => { x with index := i, indexing := true })) k := by
                rw [reqsOf_statics hstat, depsOf_statics hstat]
                exact hy
              have hyex1 : findModule (updateModule ms n
                  (fun x => { x with index := i, indexing := true })) y ≠ none := by
                rw [Ne, findModule_none_statics hstat y]
                exact hyex
              exact g6 k hk hnk1 y hy1 hyex1
          · -- the unindexed count does not grow
            have h1 : countUnindexed (updateModule ms n
                (fun x => { x with index := i, indexing := true })) ≤ countUnindexed ms :=
              countUnindexed_update_le _ (fun x hx => by simp at hx)
            exact le_trans g7 h1
          · -- the active count is untouched
            rw [g8, countActive_update_eq (fun x => { x with index := i, indexing := true })
              (fun x => by simp [Module.active])]
        constructor
        · -- newly indexed modules are weakly connected to the target
          intro x hx hnx
          by_cases hxn : x = n
          · subst hxn
            exact Relation.ReflTransGen.refl
          · have hx1 : indexedB (updateModule ms n
                (fun x => { x with index := i, indexing := true })) x = false := by
              rw [indexedB_update_other (fun x => { x with index := i, indexing := true })
                hname hxn]
              exact hnx
            obtain ⟨k, hk, hconn⟩ := hnewL x hx (by simpa using hx1)
            have hconn0 : WConnL ms k x :=
              (WConnL_statics (sameStatics_updateModule ms n
                (fun x => { x with index := i, indexing := true }) (fun x => rfl)) k x).mp hconn
            have hwadj : WAdjL ms n k := by
              unfold WAdjL
              have := (hadj k).mp hk
              simpa using this
            exact Relation.ReflTransGen.head hwadj hconn0
        · -- the target is indexed afterwards
          intro _
          have hidx1 : indexedB (updateModule ms n
              (fun x => { x with index := i, indexing := true })) n = true := by
            unfold indexedB
            rw [hfind1]
          exact (hokL.2.2.2.1 n hidx1).1

/-- `collectionAdjacencyIndex` cannot exhaust its fuel while more fuel remains
than unindexed modules: every recursion stamps a module first. -/
theorem adjacencyIndexFuel_suff : ∀ (fuel : Nat) {ms : List Module} {n : String}
    {i : Nat}, countUnindexed ms < fuel →
    adjacencyIndexFuel fuel ms n i ≠ none := by
  intro fuel
  induction fuel with
  | zero => intro ms n i h; omega
  | succ fuel ih =>
    have hlist : ∀ (ks : List String) {ms : List Module} {i : Nat},
        countUnindexed ms < fuel →
        adjacencyIndexChildren (adjacencyIndexFuel fuel) ks ms i ≠ none := by
      intro ks
      induction ks with
      | nil => intro ms i _; unfold adjacencyIndexChildren; simp
      | cons k ks ihk =>
        intro ms i h hcontra
        unfold adjacencyIndexChildren at hcontra
        cases hk : adjacencyIndexFuel fuel ms k i with
        | none => exact absurd hk (ih h)
        | some msx =>
          simp only [hk] at hcontra
          have hle : countUnindexed msx ≤ countUnindexed ms :=
            (adjacencyIndexFuel_facts fuel hk).1.2.2.2.2.2.2.1
          exact absurd hcontra (ihk (lt_of_le_of_lt hle h))
    intro ms n i h hcontra
    unfold adjacencyIndexFuel at hcontra
    cases hf : findModule ms n with
    | none =>
      simp only [hf] at hcontra
      exact absurd hcontra (by simp)
    | some m =>
      simp only [hf] at hcontra
      by_cases hidx : m.indexing
      · rw [if_pos hidx] at hcontra
        exact absurd hcontra (by simp)
      · rw [if_neg hidx] at hcontra
        have hlt : countUnindexed (updateModule ms n
            (fun x => { x with index := i, indexing := true })) < countUnindexed ms := by
          apply countUnindexed_update_lt _ hf (by simpa using hidx) (by simp)
          intro x hx
          simp at hx
        exact absurd hcontra (hlist (m.requiresKeys ++ m.dependants) (by omega))

/-! ## Serialization: the sort-stack invariant -/

theorem pushAt_get_pad (st : List (List String)) (i : Nat) (x : String) (j : Nat)
    (h : ¬ i < st.length) (h2 : st.length ≤ j) (h3 : j ≠ i)
    (hj : j < (pushAt st i x).length) :
    (pushAt st i x).get ⟨j, hj⟩ = [] := by
  have hlen : (pushAt st i x).length = i + 1 := by
    unfold pushAt
    rw [dif_neg h]
    simp only [List.length_append, List.length_replicate, List.length_cons, List.length_nil]
    omega
  have hji : j < i := by omega
  unfold pushAt at hj ⊢
  rw [List.get_eq_getElem]
  simp only [dif_neg h]
  rw [List.getElem_append_left (by simp; omega)]
  rw [List.getElem_append_right (by simpa using h2)]
  simp

theorem pushAt_bucket_self (st : List (List String)) (i : Nat) (x : String) :
    (pushAt st i x).getD i [] = st.getD i [] ++ [x] := by
  have hi : i < (pushAt st i x).length := pushAt_length_gt st i x
  have hgetD : (pushAt st i x).getD i [] = (pushAt st i x).get ⟨i, hi⟩ := by
    rw [List.getD_eq_getElem _ _ hi, List.get_eq_getElem]
  by_cases h : i < st.length
  · rw [hgetD, pushAt_get_self_lt st i x h hi, List.getD_eq_getElem _ _ h,
      List.get_eq_getElem]
  · rw [hgetD, pushAt_get_self_ge st i x h hi, List.getD_eq_default _ _ (by omega)]
    rfl

theorem pushAt_bucket_other (st : List (List String)) (i : Nat) (x : String)
    (j : Nat) (hj : j ≠ i) : (pushAt st i x).getD j [] = st.getD j [] := by
  by_cases hjl : j < st.length
  · have hj' : j < (pushAt st i x).length :=
      lt_of_lt_of_le hjl (pushAt_length_le st i x)
    rw [List.getD_eq_getElem _ _ hj', List.getD_eq_getElem _ _ hjl]
    have hthis := pushAt_get_other st i x j hjl hj hj'
    rw [List.get_eq_getElem, List.get_eq_getElem] at hthis
    exact hthis
  · by_cases hj2 : j < (pushAt st i x).length
    · rw [List.getD_eq_getElem _ _ hj2]
      rw [List.getD_eq_default _ _ (by omega)]
      have hnl : ¬ i < st.length := by
        intro hi
        have hlen : (pushAt st i x).length = st.length := by
          unfold pushAt
          rw [dif_pos hi]
          simp
        omega
      have hthis := pushAt_get_pad st i x j hnl (by omega) hj hj2
      rw [List.get_eq_getElem] at hthis
      exact hthis
    · rw [List.getD_eq_default _ _ (by omega), List.getD_eq_default _ _ (by omega)]

/-- The stack invariant only looks at the `sorting` flags and at the indices
of sorted modules, so it transports along any state change preserving those. -/
theorem InvPush_congr {cms ms ms' : List Module} {st : List (List String)}
    (hsv : ∀ k, sortedB ms' k = sortedB ms k)
    (hiv : ∀ k, sortedB ms k = true → idxOf ms' k = idxOf ms k)
    (h : InvPush cms ms st) : InvPush cms ms' st := by
  obtain ⟨p1, p2, p3⟩ := h
  refine ⟨fun k hk => ?_, fun b hb i hi => ?_, p3⟩
  · have hk0 : sortedB ms k = true := by
      rw [← hsv k]
      exact hk
    rw [hiv k hk0]
    exact p1 k hk0
  · obtain ⟨q1, q2, q3⟩ := p2 b hb i hi
    exact ⟨by rw [hsv]; exact q1, by rw [hiv _ q1]; exact q2, q3⟩

/-- The requirements loop of `collectionTopoSort`, characterised on normal
return: the `TopoOk` frame plus every existing listed module comes out
sorted. -/
theorem topoSortChildren_ok_facts (fuel : Nat) : ∀ (ks : List String)
    {ms : List Module} {st : List (List String)} {ms' : List Module}
    {st' : List (List String)},
    topoSortChildren (topoSortFuel fuel) ks ms st = some (TravResult.ok ms' st') →
    TopoOk ms st ms' st' ∧
      (∀ k ∈ ks, findModule ms k ≠ none → sortedB ms' k = true) := by
  intro ks
  induction ks with
  | nil =>
    intro ms st ms' st' h
    unfold topoSortChildren at h
    simp only [Option.some.injEq, TravResult.ok.injEq] at h
    obtain ⟨h1, h2⟩ := h
    subst h1; subst h2
    exact ⟨topoOk_refl ms st, by simp⟩
  | cons k ks ihk =>
    intro ms st ms' st' h
    unfold topoSortChildren at h
    cases hk : topoSortFuel fuel ms k st with
    | none =>
      simp only [hk] at h
      exact absurd h (by simp)
    | some r =>
      cases r with
      | thrown e ms1 =>
        simp only [hk] at h
        exact absurd h (by simp)
      | ok ms1 st1 =>
        simp only [hk] at h
        obtain ⟨hok1, hs1⟩ := topoSortFuel_ok_facts fuel hk
        obtain ⟨hok2, hs2⟩ := ihk h
        refine ⟨topoOk_trans hok1 hok2, ?_⟩
        intro k' hk' hne
        rcases List.mem_cons.mp hk' with he | he
        · subst he
          exact hok2.2.2.1 k' (hs1 hne)
        · have hne1 : findModule ms1 k' ≠ none := by
            rw [Ne, findModule_none_statics hok1.1 k']
            exact hne
          exact hs2 k' he hne1

theorem getD_append_left (l l2 : List String) (i : Nat) (h : i < l.length) :
    (l ++ l2).getD i "" = l.getD i "" := by
  rw [List.getD_eq_getElem _ _ (by simp; omega), List.getD_eq_getElem _ _ h]
  rw [List.getElem_append_left h]

theorem getD_append_last (l : List String) (x : String) :
    (l ++ [x]).getD l.length "" = x := by
  rw [List.getD_eq_getElem _ _ (by simp)]
  rw [List.getElem_append_right (le_refl _)]
  simp

theorem mem_getD_str {l : List String} {x : String} (h : x ∈ l) :
    ∃ i, i < l.length ∧ l.getD i "" = x := by
  obtain ⟨i, hi, he⟩ := List.mem_iff_getElem.mp h
  exact ⟨i, hi, by rw [List.getD_eq_getElem _ _ hi]; exact he⟩

theorem pushAt_length_le_of (st : List (List String)) (i : Nat) (x : String)
    (A : Nat) (h1 : st.length ≤ A) (h2 : i < A) : (pushAt st i x).length ≤ A := by
  unfold pushAt
  by_cases h : i < st.length
  · rw [dif_pos h]
    simpa using h1
  · rw [dif_neg h]
    simp only [List.length_append, List.length_replicate, List.length_cons, List.length_nil]
    omega

/-- The sort-stack invariant is preserved by every normally-returning
`collectionTopoSort` call whose target is component-indexed (or absent),
under the index-coherence `serialize` maintains: requirements of indexed
modules are indexed with the same component index, and requirement targets
always exist (the well-formedness of the dependency registry). -/
theorem topoSortFuel_push : ∀ (fuel : Nat) {cms ms : List Module} {n : String}
    {st : List (List String)} {ms' : List Module} {st' : List (List String)} {A : Nat},
    topoSortFuel fuel ms n st = some (TravResult.ok ms' st') →
    sameStatics cms ms →
    (∀ k r, r ∈ reqsOf cms k → findModule cms r ≠ none) →
    (∀ k, indexedB ms k = true → ∀ r ∈ reqsOf cms k,
      indexedB ms r = true ∧ idxOf ms r = idxOf ms k) →
    (findModule ms n = none ∨ indexedB ms n = true) →
    (∀ k, indexedB ms k = true → idxOf ms k < A) →
    st.length ≤ A →
    InvPush cms ms st →
    InvPush cms ms' st' ∧ st'.length ≤ A ∧
      (∀ k, sortedB ms' k = true → sortedB ms k = true ∨ indexedB ms k = true) := by
  intro fuel
  induction fuel with
  | zero =>
    intro cms ms n st ms' st' A h _ _ _ _ _ _ _
    simp [topoSortFuel] at h
  | succ fuel ih =>
    have hlist : ∀ (ks : List String) {cms ms : List Module}
        {st : List (List String)} {ms' : List Module} {st' : List (List String)} {A : Nat},
        topoSortChildren (topoSortFuel fuel) ks ms st = some (TravResult.ok ms' st') →
        sameStatics cms ms →
        (∀ k r, r ∈ reqsOf cms k → findModule cms r ≠ none) →
        (∀ k, indexedB ms k = true → ∀ r ∈ reqsOf cms k,
          indexedB ms r = true ∧ idxOf ms r = idxOf ms k) →
        (∀ k ∈ ks, findModule ms k = none ∨ indexedB ms k = true) →
        (∀ k, indexedB ms k = true → idxOf ms k < A) →
        st.length ≤ A →
        InvPush cms ms st →
        InvPush cms ms' st' ∧ st'.length ≤ A ∧
          (∀ k, sortedB ms' k = true → sortedB ms k = true ∨ indexedB ms k = true) := by
      intro ks
      induction ks with
      | nil =>
        intro cms ms st ms' st' A h _ _ _ _ _ hlen hpush
        unfold topoSortChildren at h
        simp only [Option.some.injEq, TravResult.ok.injEq] at h
        obtain ⟨h1, h2⟩ := h
        subst h1; subst h2
        exact ⟨hpush, hlen, fun k hk => Or.inl hk⟩
      | cons k ks ihk =>
        intro cms ms st ms' st' A h hstat hclosed hreq htgts hbound hlen hpush
        unfold topoSortChildren at h
        cases hk : topoSortFuel fuel ms k st with
        | none =>
          simp only [hk] at h
          exact absurd h (by simp)
        | some r =>
          cases r with
          | thrown e ms1 =>
            simp only [hk] at h
            exact absurd h (by simp)
          | ok ms1 st1 =>
            simp only [hk] at h
            obtain ⟨hok, _⟩ := topoSortFuel_ok_facts fuel hk
            obtain ⟨hpush1, hlen1, hnew1⟩ :=
              ih hk hstat hclosed hreq (htgts k (List.mem_cons_self k ks)) hbound hlen hpush
            have hstat1 : sameStatics cms ms1 := sameStatics_trans hstat hok.1
            have hbound1 : ∀ k0, indexedB ms1 k0 = true → idxOf ms1 k0 < A := by
              intro k0 hk0
              rw [hok.2.2.2.2.1 k0] at hk0
              rw [hok.2.2.2.2.2.1 k0]
              exact hbound k0 hk0
            have hreq1 : ∀ k0, indexedB ms1 k0 = true → ∀ r ∈ reqsOf cms k0,
                indexedB ms1 r = true ∧ idxOf ms1 r = idxOf ms1 k0 := by
              intro k0 hk0 r hr
              rw [hok.2.2.2.2.1 k0] at hk0
              rw [hok.2.2.2.2.1 r, hok.2.2.2.2.2.1 r, hok.2.2.2.2.2.1 k0]
              exact hreq k0 hk0 r hr
            have htgts1 : ∀ k' ∈ ks, findModule ms1 k' = none ∨ indexedB ms1 k' = true := by
              intro k' hk'
              rcases htgts k' (List.mem_cons_of_mem k hk') with hn | hi
              · left
                rw [findModule_none_statics hok.1]
                exact hn
              · right
                rw [hok.2.2.2.2.1 k']
                exact hi
            obtain ⟨hpush2, hlen2, hnew2⟩ := ihk h hstat1 hclosed hreq1 htgts1 hbound1 hlen1 hpush1
            refine ⟨hpush2, hlen2, fun k0 hk0 => ?_⟩
            rcases hnew2 k0 hk0 with hs1 | hi1
            · exact hnew1 k0 hs1
            · rw [hok.2.2.2.2.1 k0] at hi1
              exact Or.inr hi1
    intro cms ms n st ms' st' A h hstat hclosed hreq htgt hbound hlen hpush
    unfold topoSortFuel at h
    cases hf : findModule ms n with
    | none =>
      simp only [hf, Option.some.injEq, TravResult.ok.injEq] at h
      obtain ⟨h1, h2⟩ := h
      subst h1; subst h2
      exact ⟨hpush, hlen, fun k hk => Or.inl hk⟩
    | some m =>
      simp only [hf] at h
      by_cases hmk : m.topologicalMarker
      · simp [hmk] at h
      · rw [if_neg (by simp [hmk])] at h
        by_cases hs : m.sorting
        · rw [if_pos hs] at h
          simp only [Option.some.injEq, TravResult.ok.injEq] at h
          obtain ⟨h1, h2⟩ := h
          subst h1; subst h2
          exact ⟨hpush, hlen, fun k hk => Or.inl hk⟩
        · rw [if_neg hs] at h
          cases hc : topoSortChildren (topoSortFuel fuel) m.requiresKeys
              (updateModule ms n (fun x => { x with topologicalMarker := true })) st with
          | none =>
            simp only [hc] at h
            exact absurd h (by simp)
          | some r =>
            cases r with
            | thrown e ms2 =>
              simp only [hc] at h
              exact absurd h (by simp)
            | ok ms2 st2 =>
              simp only [hc] at h
              have hidxn : indexedB ms n = true := htgt.resolve_left (by simp [hf])
              have hname1 : ∀ x : Module,
                  ({ x with topologicalMarker := true } : Module).name = x.name :=
                fun x => rfl
              have hname3 : ∀ x : Module,
                  ({ x with topologicalMarker := false, sorting := true } : Module).name = x.name :=
                fun x => rfl
              have hstatM1 : sameStatics ms (updateModule ms n
                  (fun x => { x with topologicalMarker := true })) :=
                sameStatics_updateModule ms n _ (fun x => rfl)
              have hstat1 : sameStatics cms (updateModule ms n
                  (fun x => { x with topologicalMarker := true })) :=
                sameStatics_trans hstat hstatM1
              obtain ⟨hokC, hkids⟩ := topoSortChildren_ok_facts fuel m.requiresKeys hc
              have e1i : ∀ k, indexedB (updateModule ms n
                  (fun x => { x with topologicalMarker := true })) k = indexedB ms k :=
                indexedB_update_pres (fun x => { x with topologicalMarker := true })
                  hname1 (fun x => rfl)
              have e1x : ∀ k, idxOf (updateModule ms n
                  (fun x => { x with topologicalMarker := true })) k = idxOf ms k :=
                idxOf_update_pres (fun x => { x with topologicalMarker := true })
                  hname1 (fun x => rfl)
              have e1s : ∀ k, sortedB (updateModule ms n
                  (fun x => { x with topologicalMarker := true })) k = sortedB ms k :=
                sortedB_update_pres (fun x => { x with topologicalMarker := true })
                  hname1 (fun x => rfl)
              obtain ⟨g1, g2, g3, g4, g5, g6, g7, g8, g9⟩ := hokC
              have e2i : ∀ k, indexedB ms2 k = indexedB ms k := fun k => (g5 k).trans (e1i k)
              have e2x : ∀ k, idxOf ms2 k = idxOf ms k := fun k => (g6 k).trans (e1x k)
              have hreqn : reqsOf cms n = m.requiresKeys := by
                rw [← reqsOf_statics hstat n]
                unfold reqsOf
                rw [hf]
              have hm1marked : markedB (updateModule ms n
                  (fun x => { x with topologicalMarker := true })) n = true := by
                rw [markedB_update_self (fun x => { x with topologicalMarker := true })
                  hname1 hf]
              have hnots2 : sortedB ms2 n = false := by
                rw [g4 n hm1marked, e1s n]
                unfold sortedB
                rw [hf]
                simpa using hs
              have hfind1 : findModule (updateModule ms n
                  (fun x => { x with topologicalMarker := true })) n =
                  some { m with topologicalMarker := true } :=
                findModule_update_self (fun x => { x with topologicalMarker := true })
                  hname1 hf
              have hm2ex : ∃ m2, findModule ms2 n = some m2 := by
                cases hx : findModule ms2 n with
                | none =>
                  rw [findModule_none_statics g1 n, hfind1] at hx
                  exact absurd hx (by simp)
                | some m2 => exact ⟨m2, rfl⟩
              obtain ⟨m2, hm2⟩ := hm2ex
              have hfind3 : findModule (updateModule ms2 n (fun x =>
                  { x with topologicalMarker := false, sorting := true })) n =
                  some { m2 with topologicalMarker := false, sorting := true } :=
                findModule_update_self (fun x =>
                  { x with topologicalMarker := false, sorting := true }) hname3 hm2
              rw [hfind3] at h
              simp only [Option.some.injEq, TravResult.ok.injEq] at h
              obtain ⟨h1, h2⟩ := h
              subst h1
              subst h2
              have hm2idx : ({ m2 with topologicalMarker := false, sorting := true } : Module).index = idxOf ms n := by
                have hx : idxOf ms2 n = m2.index := by
                  unfold idxOf
                  rw [hm2]
                rw [← e2x n, hx]
              rw [hm2idx]
              have hpush1 : InvPush cms (updateModule ms n
                  (fun x => { x with topologicalMarker := true })) st :=
                InvPush_congr (fun k => e1s k) (fun k _ => e1x k) hpush
              have hreq1 : ∀ k0, indexedB (updateModule ms n
                  (fun x => { x with topologicalMarker := true })) k0 = true →
                  ∀ r ∈ reqsOf cms k0,
                  indexedB (updateModule ms n
                    (fun x => { x with topologicalMarker := true })) r = true ∧
                  idxOf (updateModule ms n
                    (fun x => { x with topologicalMarker := true })) r =
                  idxOf (updateModule ms n
                    (fun x => { x with topologicalMarker := true })) k0 := by
                intro k0 hk0 r hr
                rw [e1i k0] at hk0
                rw [e1i r, e1x r, e1x k0]
                exact hreq k0 hk0 r hr
              have htgts1 : ∀ r ∈ m.requiresKeys, findModule (updateModule ms n
                  (fun x => { x with topologicalMarker := true })) r = none ∨
                  indexedB (updateModule ms n
                    (fun x => { x with topologicalMarker := true })) r = true := by
                intro r hr
                right
                have hrcms : r ∈ reqsOf cms n := by
                  rw [hreqn]
                  exact hr
                rw [e1i r]
                exact (hreq n hidxn r hrcms).1
              have hbound1 : ∀ k0, indexedB (updateModule ms n
                  (fun x => { x with topologicalMarker := true })) k0 = true →
                  idxOf (updateModule ms n
                    (fun x => { x with topologicalMarker := true })) k0 < A := by
                intro k0 hk0
                rw [e1i k0] at hk0
                rw [e1x k0]
                exact hbound k0 hk0
              obtain ⟨hpush2, hlen2, hnew2⟩ :=
                hlist m.requiresKeys hc hstat1 hclosed hreq1 htgts1 hbound1 hlen hpush1
              obtain ⟨p1, p2, p3⟩ := hpush2
              have hreqfacts : ∀ r ∈ reqsOf cms n,
                  sortedB ms2 r = true ∧ idxOf ms2 r = idxOf ms n := by
                intro r hr
                constructor
                · apply hkids r (by rw [← hreqn]; exact hr)
                  rw [Ne, findModule_none_statics hstatM1 r,
                    findModule_none_statics hstat r]
                  exact hclosed n r hr
                · rw [e2x r]
                  exact (hreq n hidxn r hr).2
              have e3so : ∀ k, k ≠ n → sortedB (updateModule ms2 n (fun x =>
                  { x with topologicalMarker := false, sorting := true })) k =
                  sortedB ms2 k :=
                fun k hk => sortedB_update_other (fun x =>
                  { x with topologicalMarker := false, sorting := true }) hname3 hk
              have e3ss : sortedB (updateModule ms2 n (fun x =>
                  { x with topologicalMarker := false, sorting := true })) n = true := by
                rw [sortedB_update_self (fun x =>
                  { x with topologicalMarker := false, sorting := true }) hname3 hm2]
              have e3x : ∀ k, idxOf (updateModule ms2 n (fun x =>
                  { x with topologicalMarker := false, sorting := true })) k =
                  idxOf ms2 k :=
                idxOf_update_pres (fun x =>
                  { x with topologicalMarker := false, sorting := true }) hname3
                  (fun x => rfl)
              -- the three invariant components for the pushed stack,
              -- the height bound and the provenance of sorted flags
              refine ⟨⟨?_, ?_, ?_⟩, ?_, ?_⟩
              · -- P1
                intro k hk
                by_cases hkn : k = n
                · subst hkn
                  rw [e3x k, e2x k]
                  refine ⟨pushAt_length_gt st2 (idxOf ms k) k, ?_⟩
                  rw [pushAt_bucket_self]
                  exact List.mem_append_right _ (List.mem_singleton_self k)
                · rw [e3so k hkn] at hk
                  obtain ⟨hlt, hmem⟩ := p1 k hk
                  rw [e3x k]
                  refine ⟨lt_of_lt_of_le hlt (pushAt_length_le st2 (idxOf ms n) n), ?_⟩
                  by_cases hkb : idxOf ms2 k = idxOf ms n
                  · rw [hkb, pushAt_bucket_self]
                    exact List.mem_append_left _ (by rw [← hkb]; exact hmem)
                  · rw [pushAt_bucket_other st2 (idxOf ms n) n _ hkb]
                    exact hmem
              · -- P2
                intro b hb i hi
                by_cases hbB : b = idxOf ms n
                · subst hbB
                  rw [pushAt_bucket_self] at hi ⊢
                  by_cases hiold : i < (st2.getD (idxOf ms n) []).length
                  · have hbst : idxOf ms n < st2.length := by
                      by_contra hcon
                      rw [List.getD_eq_default _ _ (by omega)] at hiold
                      simp at hiold
                    obtain ⟨q1, q2, q3⟩ := p2 (idxOf ms n) hbst i hiold
                    rw [getD_append_left _ _ _ hiold]
                    have hxn : (st2.getD (idxOf ms n) []).getD i "" ≠ n := by
                      intro he
                      rw [he, hnots2] at q1
                      exact absurd q1 (by simp)
                    refine ⟨by rw [e3so _ hxn]; exact q1, by rw [e3x]; exact q2, ?_⟩
                    intro r hr
                    obtain ⟨j, hj, hje⟩ := q3 r hr
                    exact ⟨j, hj, by rw [getD_append_left _ _ _ (lt_trans hj hiold)]; exact hje⟩
                  · have hieq : i = (st2.getD (idxOf ms n) []).length := by
                      simp only [List.length_append, List.length_cons, List.length_nil] at hi
                      omega
                    subst hieq
                    rw [getD_append_last]
                    refine ⟨e3ss, by rw [e3x, e2x], ?_⟩
                    intro r hr
                    obtain ⟨hrs, hrx⟩ := hreqfacts r hr
                    obtain ⟨hrlt, hrmem⟩ := p1 r hrs
                    rw [hrx] at hrmem
                    obtain ⟨j, hj, hje⟩ := mem_getD_str hrmem
                    exact ⟨j, hj, by rw [getD_append_left _ _ _ hj]; exact hje⟩
                · rw [pushAt_bucket_other st2 (idxOf ms n) n b hbB] at hi ⊢
                  by_cases hbst : b < st2.length
                  · obtain ⟨q1, q2, q3⟩ := p2 b hbst i hi
                    have hxn : (st2.getD b []).getD i "" ≠ n := by
                      intro he
                      rw [he, hnots2] at q1
                      exact absurd q1 (by simp)
                    exact ⟨by rw [e3so _ hxn]; exact q1, by rw [e3x]; exact q2, q3⟩
                  · rw [List.getD_eq_default _ _ (by omega)] at hi
                    simp at hi
              · -- P3
                rw [(pushAt_flatten_perm st2 (idxOf ms n) n).nodup_iff, List.nodup_cons]
                refine ⟨?_, p3⟩
                intro hmem
                rw [List.mem_flatten] at hmem
                obtain ⟨l, hl, hnl⟩ := hmem
                obtain ⟨b0, hb0, hgetl⟩ := List.mem_iff_getElem.mp hl
                have hbl : st2.getD b0 [] = l := by
                  rw [List.getD_eq_getElem _ _ hb0]
                  exact hgetl
                obtain ⟨i0, hi0, hgei⟩ := mem_getD_str hnl
                have hq := (p2 b0 hb0 i0 (by rw [hbl]; exact hi0)).1
                rw [hbl, hgei, hnots2] at hq
                exact absurd hq (by simp)
              · -- the stack height stays below the adjacency point
                exact pushAt_length_le_of st2 (idxOf ms n) n A hlen2 (hbound n hidxn)
              · -- newly sorted modules were already indexed at entry
                intro k0 hk0
                by_cases hkn : k0 = n
                · subst hkn
                  exact Or.inr hidxn
                · rw [e3so k0 hkn] at hk0
                  rcases hnew2 k0 hk0 with hs1 | hi1
                  · rw [e1s k0] at hs1
                    exact Or.inl hs1
                  · rw [e1i k0] at hi1
                    exact Or.inr hi1

/-! ## Serialization: the main loop -/

theorem WConnL_symm {cms : List Module}
    (hsym : ∀ a b, WAdjL cms a b → WAdjL cms b a) {a b : String}
    (h : WConnL cms a b) : WConnL cms b a := by
  induction h with
  | refl => exact Relation.ReflTransGen.refl
  | tail _ hadj ih => exact Relation.ReflTransGen.head (hsym _ _ hadj) ih

/-- Everything a normally-completing `serialize` loop guarantees: the loop
invariant at the final state, monotonicity of the `sorting` and `indexing`
flags, and that every existing listed module ends up sorted. -/
theorem serializeGo_ok : ∀ (names : List String) {fuel : Nat} {cms ms : List Module}
    {ap : Nat} {st : List (List String)} {ms' : List Module}
    {st' : List (List String)} {ap' : Nat},
    serializeGo fuel names ms ap st = some (SerResult.ok ms' st' ap') →
    (∀ k r, r ∈ reqsOf cms k → findModule cms r ≠ none) →
    (∀ k r, r ∈ depsOf cms k → findModule cms r ≠ none) →
    (∀ a b, WAdjL cms a b → WAdjL cms b a) →
    LoopInv cms ms st ap →
    LoopInv cms ms' st' ap' ∧
      (∀ k, sortedB ms k = true → sortedB ms' k = true) ∧
      (∀ k, indexedB ms k = true → indexedB ms' k = true) ∧
      (∀ n ∈ names, findModule cms n ≠ none → sortedB ms' n = true) := by
  intro names
  induction names with
  | nil =>
    intro fuel cms ms ap st ms' st' ap' h _ _ _ hinv
    unfold serializeGo at h
    simp only [Option.some.injEq, SerResult.ok.injEq] at h
    obtain ⟨h1, h2, h3⟩ := h
    subst h1; subst h2; subst h3
    exact ⟨hinv, fun _ hk => hk, fun _ hk => hk, by simp⟩
  | cons n rest ih =>
    intro fuel cms ms ap st ms' st' ap' h hclosedR hclosedD hsym hinv
    unfold serializeGo at h
    cases hf : findModule ms n with
    | none =>
      simp only [hf] at h
      obtain ⟨hinv', hms', hmi', hnames'⟩ := ih h hclosedR hclosedD hsym hinv
      refine ⟨hinv', hms', hmi', ?_⟩
      intro k hk hkc
      rcases List.mem_cons.mp hk with he | he
      · subst he
        rw [Ne, ← findModule_none_statics hinv.1 k] at hkc
        exact absurd hf hkc
      · exact hnames' k he hkc
    | some m =>
      simp only [hf] at h
      cases hidxStep : (if m.indexing then some (ms, ap)
          else (adjacencyIndexFuel fuel ms n ap).map (fun ms1 => (ms1, ap + 1))) with
      | none =>
        simp only [hidxStep] at h
        exact absurd h (by simp)
      | some p =>
        obtain ⟨ms1, ap1⟩ := p
        simp only [hidxStep] at h
        -- the state after the (possible) component-indexing step satisfies
        -- the loop invariant at the new adjacency point, the flag views only
        -- grow, and the target is indexed
        have hstep : LoopInv cms ms1 st ap1 ∧
            (∀ k, sortedB ms1 k = sortedB ms k) ∧
            (∀ k, indexedB ms k = true → indexedB ms1 k = true) ∧
            indexedB ms1 n = true := by
          by_cases hmi0 : m.indexing
          · rw [if_pos hmi0] at hidxStep
            simp only [Option.some.injEq, Prod.mk.injEq] at hidxStep
            obtain ⟨h1, h2⟩ := hidxStep
            subst h1; subst h2
            refine ⟨hinv, fun _ => rfl, fun _ hk => hk, ?_⟩
            unfold indexedB
            rw [hf]
            exact hmi0
          · rw [if_neg hmi0] at hidxStep
            rw [Option.map_eq_some'] at hidxStep
            obtain ⟨msA, hadj, hpa⟩ := hidxStep
            simp only [Prod.mk.injEq] at hpa
            obtain ⟨h1, h2⟩ := hpa
            rw [h1] at hadj
            subst h2
            obtain ⟨hAok, hAnew, hAtgt⟩ := adjacencyIndexFuel_facts fuel hadj
            obtain ⟨f1, f2, f3, f4, f5, f6, f7, f8, f9⟩ := hinv
            obtain ⟨a1, a2, a3, a4, a5, a6, a7, a8⟩ := hAok
            have hmi0n : indexedB ms n = false := by
              unfold indexedB
              rw [hf]
              simpa using hmi0
            have hidx1n : indexedB ms1 n = true := hAtgt (by simp [hf])
            have hnewidx : ∀ k, indexedB ms1 k = true → indexedB ms k = false →
                idxOf ms1 k = ap := by
              intro k hk hnk
              exact (a5 k hk).resolve_left (by simp [hnk])
            have hnotpre : ∀ k, indexedB ms1 k = true → indexedB ms k = false →
                ∀ y, WAdjL cms k y → indexedB ms y = false := by
              intro k _ hnk y hky
              by_contra hcon
              have hyt : indexedB ms y = true := by
                cases hx : indexedB ms y with
                | false => exact absurd hx hcon
                | true => rfl
              have hkadj : k ∈ reqsOf cms y ++ depsOf cms y := by
                rw [List.mem_append]
                exact hsym k y hky
              rw [(f4 y hyt k hkadj).1] at hnk
              exact absurd hnk (by simp)
            refine ⟨⟨sameStatics_trans f1 a1, ?_, ?_, ?_, ?_, ?_, ?_, ?_, ?_⟩,
              fun k => a3 k, fun k hk => (a4 k hk).1, hidx1n⟩
            · intro k
              rw [a2 k]
              exact f2 k
            · intro k hk
              rw [a3 k] at hk
              exact (a4 k (f3 k hk)).1
            · intro k hk y hy
              by_cases hpre : indexedB ms k = true
              · obtain ⟨hyi, hyx⟩ := f4 k hpre y hy
                refine ⟨(a4 y hyi).1, ?_⟩
                rw [(a4 y hyi).2, (a4 k hpre).2, hyx]
              · have hprek : indexedB ms k = false := by
                  cases hx : indexedB ms k with
                  | false => rfl
                  | true => exact absurd hx hpre
                have hyms : y ∈ reqsOf ms k ++ depsOf ms k := by
                  rw [reqsOf_statics f1, depsOf_statics f1]
                  exact hy
                have hyex : findModule ms y ≠ none := by
                  rw [Ne, findModule_none_statics f1 y]
                  rcases List.mem_append.mp hy with hyr | hyd
                  · exact hclosedR k y hyr
                  · exact hclosedD k y hyd
                have hyi1 : indexedB ms1 y = true := a6 k hk hprek y hyms hyex
                have hynew : indexedB ms y = false := by
                  apply hnotpre k hk hprek y
                  unfold WAdjL
                  exact List.mem_append.mp hy
                refine ⟨hyi1, ?_⟩
                rw [hnewidx y hyi1 hynew, hnewidx k hk hprek]
            · intro k k' hk hk' heq
              by_cases hpk : indexedB ms k = true <;> by_cases hpk' : indexedB ms k' = true
              · rw [(a4 k hpk).2, (a4 k' hpk').2] at heq
                exact f5 k k' hpk hpk' heq
              · exfalso
                have hpk'f : indexedB ms k' = false := by
                  cases hx : indexedB ms k' with
                  | false => rfl
                  | true => exact absurd hx hpk'
                rw [(a4 k hpk).2, hnewidx k' hk' hpk'f] at heq
                have := f6 k hpk
                omega
              · exfalso
                have hpkf : indexedB ms k = false := by
                  cases hx : indexedB ms k with
                  | false => rfl
                  | true => exact absurd hx hpk
                rw [hnewidx k hk hpkf, (a4 k' hpk').2] at heq
                have := f6 k' hpk'
                omega
              · have hpkf : indexedB ms k = false := by
                  cases hx : indexedB ms k with
                  | false => rfl
                  | true => exact absurd hx hpk
                have hpk'f : indexedB ms k' = false := by
                  cases hx : indexedB ms k' with
                  | false => rfl
                  | true => exact absurd hx hpk'
                have hconnk : WConnL cms n k := by
                  rw [← WConnL_statics f1 n k]
                  exact hAnew k hk hpkf
                have hconnk' : WConnL cms n k' := by
                  rw [← WConnL_statics f1 n k']
                  exact hAnew k' hk' hpk'f
                exact (WConnL_symm hsym hconnk).trans hconnk'
            · intro k hk
              by_cases hpk : indexedB ms k = true
              · rw [(a4 k hpk).2]
                have := f6 k hpk
                omega
              · have hpkf : indexedB ms k = false := by
                  cases hx : indexedB ms k with
                  | false => rfl
                  | true => exact absurd hx hpk
                rw [hnewidx k hk hpkf]
                omega
            · intro j hj
              by_cases hja : j < ap
              · obtain ⟨k, hki, hkx⟩ := f7 j hja
                exact ⟨k, (a4 k hki).1, by rw [(a4 k hki).2]; exact hkx⟩
              · have hje : j = ap := by omega
                subst hje
                exact ⟨n, hidx1n, hnewidx n hidx1n hmi0n⟩
            · omega
            · refine InvPush_congr (fun k => a3 k) (fun k hsk => ?_) f9
              exact (a4 k (f3 k hsk)).2
        obtain ⟨hinv1, hms1, hmi1, hidx1n⟩ := hstep
        cases hf1 : findModule ms1 n with
        | none =>
          exfalso
          rw [findModule_none_statics hinv1.1 n] at hf1
          rw [← findModule_none_statics hinv.1 n] at hf1
          rw [hf] at hf1
          exact absurd hf1 (by simp)
        | some m1 =>
          simp only [hf1] at h
          by_cases hs1 : m1.sorting
          · rw [if_pos hs1] at h
            obtain ⟨hinv', hms', hmi', hnames'⟩ := ih h hclosedR hclosedD hsym hinv1
            refine ⟨hinv', fun k hk => hms' k (by rw [hms1 k]; exact hk),
              fun k hk => hmi' k (hmi1 k hk), ?_⟩
            intro k hk hkc
            rcases List.mem_cons.mp hk with he | he
            · subst he
              apply hms' k
              unfold sortedB
              rw [hf1]
              exact hs1
            · exact hnames' k he hkc
          · rw [if_neg hs1] at h
            cases htopo : topoSortFuel fuel ms1 n st with
            | none =>
              simp only [htopo] at h
              exact absurd h (by simp)
            | some r =>
              cases r with
              | thrown e ms2 =>
                simp only [htopo] at h
                exact absurd h (by simp)
              | ok ms2 st2 =>
                simp only [htopo] at h
                obtain ⟨hokT, htgtsortedT⟩ := topoSortFuel_ok_facts fuel htopo
                obtain ⟨f1, f2, f3, f4, f5, f6, f7, f8, f9⟩ := hinv1
                obtain ⟨hpushT, hlenT, hnewT⟩ :=
                  topoSortFuel_push fuel htopo f1 hclosedR
                    (fun k hk r hr => f4 k hk r (List.mem_append_left _ hr))
                    (Or.inr hidx1n) f6 f8 f9
                obtain ⟨g1, g2, g3, g4, g5, g6, g7, g8, g9⟩ := hokT
                have hinv2 : LoopInv cms ms2 st2 ap1 := by
                  refine ⟨sameStatics_trans f1 g1, ?_, ?_, ?_, ?_, ?_, ?_, hlenT, hpushT⟩
                  · intro k
                    rw [g2 k]
                    exact f2 k
                  · intro k hk
                    rw [g5 k]
                    rcases hnewT k hk with hsk | hik
                    · exact f3 k hsk
                    · exact hik
                  · intro k hk y hy
                    rw [g5 k] at hk
                    obtain ⟨hyi, hyx⟩ := f4 k hk y hy
                    exact ⟨by rw [g5 y]; exact hyi, by rw [g6 y, g6 k]; exact hyx⟩
                  · intro k k' hk hk' heq
                    rw [g5 k] at hk
                    rw [g5 k'] at hk'
                    rw [g6 k, g6 k'] at heq
                    exact f5 k k' hk hk' heq
                  · intro k hk
                    rw [g5 k] at hk
                    rw [g6 k]
                    exact f6 k hk
                  · intro j hj
                    obtain ⟨k, hki, hkx⟩ := f7 j hj
                    exact ⟨k, by rw [g5 k]; exact hki, by rw [g6 k]; exact hkx⟩
                obtain ⟨hinv', hms', hmi', hnames'⟩ := ih h hclosedR hclosedD hsym hinv2
                refine ⟨hinv', ?_, ?_, ?_⟩
                · intro k hk
                  apply hms' k
                  apply g3 k
                  rw [hms1 k]
                  exact hk
                · intro k hk
                  apply hmi' k
                  rw [g5 k]
                  exact hmi1 k hk
                · intro k hk hkc
                  rcases List.mem_cons.mp hk with he | he
                  · subst he
                    exact hms' k (htgtsortedT (by simp [hf1]))
                  · exact hnames' k he hkc

/-- A throwing `serialize` loop threw the cyclic-dependency error for a
module that really lies on a requires-cycle, provided it started with no
gray markers (true of every entry into `serialize`). -/
theorem serializeGo_thrown : ∀ (names : List String) {fuel : Nat}
    {cms ms : List Module} {ap : Nat} {st : List (List String)} {e : String}
    {ms₂ : List Module},
    serializeGo fuel names ms ap st = some (SerResult.thrown e ms₂) →
    sameStatics cms ms →
    (∀ k, markedB ms k = false) →
    ∃ y, e = "Cyclic dependency error discovered while parsing: " ++ y ∧
      Relation.TransGen (EdgeL cms) y y := by
  intro names
  induction names with
  | nil =>
    intro fuel cms ms ap st e ms₂ h _ _
    unfold serializeGo at h
    exact absurd h (by simp)
  | cons n rest ih =>
    intro fuel cms ms ap st e ms₂ h hstat hmk
    unfold serializeGo at h
    cases hf : findModule ms n with
    | none =>
      simp only [hf] at h
      exact ih h hstat hmk
    | some m =>
      simp only [hf] at h
      cases hidxStep : (if m.indexing then some (ms, ap)
          else (adjacencyIndexFuel fuel ms n ap).map (fun ms1 => (ms1, ap + 1))) with
      | none =>
        simp only [hidxStep] at h
        exact absurd h (by simp)
      | some p =>
        obtain ⟨ms1, ap1⟩ := p
        simp only [hidxStep] at h
        have hstep : sameStatics cms ms1 ∧ (∀ k, markedB ms1 k = false) := by
          by_cases hmi0 : m.indexing
          · rw [if_pos hmi0] at hidxStep
            simp only [Option.some.injEq, Prod.mk.injEq] at hidxStep
            obtain ⟨h1, h2⟩ := hidxStep
            subst h1; subst h2
            exact ⟨hstat, hmk⟩
          · rw [if_neg hmi0] at hidxStep
            rw [Option.map_eq_some'] at hidxStep
            obtain ⟨msA, hadj, hpa⟩ := hidxStep
            simp only [Prod.mk.injEq] at hpa
            obtain ⟨h1, h2⟩ := hpa
            rw [h1] at hadj
            subst h2
            obtain ⟨hAok, _, _⟩ := adjacencyIndexFuel_facts fuel hadj
            exact ⟨sameStatics_trans hstat hAok.1,
              fun k => (hAok.2.1 k).trans (hmk k)⟩
        obtain ⟨hstat1, hmk1⟩ := hstep
        cases hf1 : findModule ms1 n with
        | none =>
          simp only [hf1] at h
          exact ih h hstat1 hmk1
        | some m1 =>
          simp only [hf1] at h
          by_cases hs1 : m1.sorting
          · rw [if_pos hs1] at h
            exact ih h hstat1 hmk1
          · rw [if_neg hs1] at h
            cases htopo : topoSortFuel fuel ms1 n st with
            | none =>
              simp only [htopo] at h
              exact absurd h (by simp)
            | some r =>
              cases r with
              | thrown e2 msx =>
                simp only [htopo, Option.some.injEq, SerResult.thrown.injEq] at h
                obtain ⟨h1, h2⟩ := h
                subst h1
                exact topoSortFuel_thrown_cycle fuel htopo hstat1
                  (fun x hx => absurd hx (by simp [hmk1 x]))
                  (fun hx => absurd hx (by simp [hmk1 n]))
              | ok ms2 st2 =>
                simp only [htopo] at h
                obtain ⟨hokT, _⟩ := topoSortFuel_ok_facts fuel htopo
                exact ih h (sameStatics_trans hstat1 hokT.1)
                  (fun k => (hokT.2.1 k).trans (hmk1 k))

/-- The `serialize` loop cannot exhaust its fuel while more fuel remains
than active modules and than unindexed modules. -/
theorem serializeGo_suff : ∀ (names : List String) {fuel : Nat} {ms : List Module}
    {ap : Nat} {st : List (List String)},
    countActive ms < fuel → countUnindexed ms < fuel →
    serializeGo fuel names ms ap st ≠ none := by
  intro names
  induction names with
  | nil =>
    intro fuel ms ap st _ _ hcontra
    unfold serializeGo at hcontra
    exact absurd hcontra (by simp)
  | cons n rest ih =>
    intro fuel ms ap st hA hU hcontra
    unfold serializeGo at hcontra
    cases hf : findModule ms n with
    | none =>
      simp only [hf] at hcontra
      exact absurd hcontra (ih hA hU)
    | some m =>
      simp only [hf] at hcontra
      cases hidxStep : (if m.indexing then some (ms, ap)
          else (adjacencyIndexFuel fuel ms n ap).map (fun ms1 => (ms1, ap + 1))) with
      | none =>
        by_cases hmi0 : m.indexing
        · rw [if_pos hmi0] at hidxStep
          exact absurd hidxStep (by simp)
        · rw [if_neg hmi0] at hidxStep
          rw [Option.map_eq_none'] at hidxStep
          exact absurd hidxStep (adjacencyIndexFuel_suff fuel hU)
      | some p =>
        obtain ⟨ms1, ap1⟩ := p
        simp only [hidxStep] at hcontra
        have hcounts : countActive ms1 ≤ countActive ms ∧
            countUnindexed ms1 ≤ countUnindexed ms := by
          by_cases hmi0 : m.indexing
          · rw [if_pos hmi0] at hidxStep
            simp only [Option.some.injEq, Prod.mk.injEq] at hidxStep
            obtain ⟨h1, h2⟩ := hidxStep
            subst h1; subst h2
            exact ⟨le_refl _, le_refl _⟩
          · rw [if_neg hmi0] at hidxStep
            rw [Option.map_eq_some'] at hidxStep
            obtain ⟨msA, hadj, hpa⟩ := hidxStep
            simp only [Prod.mk.injEq] at hpa
            obtain ⟨h1, h2⟩ := hpa
            rw [h1] at hadj
            subst h2
            obtain ⟨hAok, _, _⟩ := adjacencyIndexFuel_facts fuel hadj
            exact ⟨le_of_eq hAok.2.2.2.2.2.2.2, hAok.2.2.2.2.2.2.1⟩
        cases hf1 : findModule ms1 n with
        | none =>
          simp only [hf1] at hcontra
          exact absurd hcontra
            (ih (lt_of_le_of_lt hcounts.1 hA) (lt_of_le_of_lt hcounts.2 hU))
        | some m1 =>
          simp only [hf1] at hcontra
          by_cases hs1 : m1.sorting
          · rw [if_pos hs1] at hcontra
            exact absurd hcontra
              (ih (lt_of_le_of_lt hcounts.1 hA) (lt_of_le_of_lt hcounts.2 hU))
          · rw [if_neg hs1] at hcontra
            cases htopo : topoSortFuel fuel ms1 n st with
            | none =>
              exact absurd htopo
                (topoSortFuel_suff fuel (lt_of_le_of_lt hcounts.1 hA))
            | some r =>
              cases r with
              | thrown e2 msx =>
                simp only [htopo] at hcontra
                exact absurd hcontra (by simp)
              | ok ms2 st2 =>
                simp only [htopo] at hcontra
                obtain ⟨hokT, _⟩ := topoSortFuel_ok_facts fuel htopo
                have hA2 : countActive ms2 ≤ countActive ms1 :=
                  hokT.2.2.2.2.2.2.1
                have hU2 : countUnindexed ms2 = countUnindexed ms1 :=
                  hokT.2.2.2.2.2.2.2.1
                refine absurd hcontra (ih ?_ ?_)
                · exact lt_of_le_of_lt (le_trans hA2 hcounts.1) hA
                · rw [hU2]
                  exact lt_of_le_of_lt hcounts.2 hU

/-! ## Serialization: consequences of well-formedness -/

theorem req_mem_deps {c : ModuleCollection} (hwf : WF c) {a b : String}
    (h : b ∈ reqsOf c.modules a) : (a, b) ∈ c.dependencies := by
  unfold reqsOf at h
  cases hfa : findModule c.modules a with
  | none => simp only [hfa] at h; exact absurd h (by simp)
  | some ma =>
    simp only [hfa] at h
    rw [hwf.2.2.2.2.2.1 ma (mem_of_findModule hfa)] at h
    simp only [List.mem_map, List.mem_filter] at h
    obtain ⟨d, ⟨hdmem, hdfst⟩, hdsnd⟩ := h
    have hda : d.1 = a := by
      have := findModule_eq_name hfa
      simp only [beq_iff_eq] at hdfst
      rw [hdfst, this]
    have : d = (a, b) := by
      rw [← hda, ← hdsnd]
    rw [← this]
    exact hdmem

theorem dept_mem_deps {c : ModuleCollection} (hwf : WF c) {a b : String}
    (h : b ∈ depsOf c.modules a) : (b, a) ∈ c.dependencies := by
  unfold depsOf at h
  cases hfa : findModule c.modules a with
  | none => simp only [hfa] at h; exact absurd h (by simp)
  | some ma =>
    simp only [hfa] at h
    rw [hwf.2.2.2.2.2.2.1 ma (mem_of_findModule hfa)] at h
    simp only [List.mem_map, List.mem_filter] at h
    obtain ⟨d, ⟨hdmem, hdsnd⟩, hdfst⟩ := h
    have hda : d.2 = a := by
      have := findModule_eq_name hfa
      simp only [beq_iff_eq] at hdsnd
      rw [hdsnd, this]
    have : d = (b, a) := by
      rw [← hda, ← hdfst]
    rw [← this]
    exact hdmem

theorem deps_mem_req {c : ModuleCollection} (hwf : WF c) {a b : String}
    (h : (a, b) ∈ c.dependencies) : b ∈ reqsOf c.modules a := by
  obtain ⟨⟨m1, hm1, hname1⟩, _, _⟩ := hwf.2.2.2.1 (a, b) h
  have hne : findModule c.modules a ≠ none := by
    rw [Ne, findModule_eq_none_iff]
    push_neg
    exact ⟨m1, hm1, hname1⟩
  cases hfa : findModule c.modules a with
  | none => exact absurd hfa hne
  | some ma =>
    unfold reqsOf
    simp only [hfa]
    rw [hwf.2.2.2.2.2.1 ma (mem_of_findModule hfa)]
    simp only [List.mem_map, List.mem_filter]
    refine ⟨(a, b), ⟨h, ?_⟩, rfl⟩
    rw [findModule_eq_name hfa]
    simp

theorem deps_mem_dept {c : ModuleCollection} (hwf : WF c) {a b : String}
    (h : (a, b) ∈ c.dependencies) : a ∈ depsOf c.modules b := by
  obtain ⟨_, ⟨m2, hm2, hname2⟩, _⟩ := hwf.2.2.2.1 (a, b) h
  have hne : findModule c.modules b ≠ none := by
    rw [Ne, findModule_eq_none_iff]
    push_neg
    exact ⟨m2, hm2, hname2⟩
  cases hfb : findModule c.modules b with
  | none => exact absurd hfb hne
  | some mb =>
    unfold depsOf
    simp only [hfb]
    rw [hwf.2.2.2.2.2.2.1 mb (mem_of_findModule hfb)]
    simp only [List.mem_map, List.mem_filter]
    refine ⟨(a, b), ⟨h, ?_⟩, rfl⟩
    rw [findModule_eq_name hfb]
    simp

theorem WF_closed_reqs {c : ModuleCollection} (hwf : WF c) :
    ∀ k r, r ∈ reqsOf c.modules k → findModule c.modules r ≠ none := by
  intro k r hr
  have hd := req_mem_deps hwf hr
  obtain ⟨_, ⟨m2, hm2, hname2⟩, _⟩ := hwf.2.2.2.1 (k, r) hd
  rw [Ne, findModule_eq_none_iff]
  push_neg
  exact ⟨m2, hm2, hname2⟩

theorem WF_closed_deps {c : ModuleCollection} (hwf : WF c) :
    ∀ k r, r ∈ depsOf c.modules k → findModule c.modules r ≠ none := by
  intro k r hr
  have hd := dept_mem_deps hwf hr
  obtain ⟨⟨m1, hm1, hname1⟩, _, _⟩ := hwf.2.2.2.1 (r, k) hd
  rw [Ne, findModule_eq_none_iff]
  push_neg
  exact ⟨m1, hm1, hname1⟩

theorem WF_wadj_symm {c : ModuleCollection} (hwf : WF c) :
    ∀ a b, WAdjL c.modules a b → WAdjL c.modules b a := by
  intro a b hab
  rcases hab with hr | hd
  · exact Or.inr (deps_mem_dept hwf (req_mem_deps hwf hr))
  · exact Or.inl (deps_mem_req hwf (dept_mem_deps hwf hd))

/-- On a clean collection none of the traversal views is set. -/
theorem clean_views {c : ModuleCollection} (hclean : Clean c) :
    (∀ k, markedB c.modules k = false) ∧ (∀ k, sortedB c.modules k = false) ∧
    (∀ k, indexedB c.modules k = false) := by
  refine ⟨fun k => ?_, fun k => ?_, fun k => ?_⟩
  · unfold markedB
    cases hfk : findModule c.modules k with
    | none => rfl
    | some m => exact (hclean m (mem_of_findModule hfk)).1
  · unfold sortedB
    cases hfk : findModule c.modules k with
    | none => rfl
    | some m => exact (hclean m (mem_of_findModule hfk)).2.1
  · unfold indexedB
    cases hfk : findModule c.modules k with
    | none => rfl
    | some m => exact (hclean m (mem_of_findModule hfk)).2.2

/-- The loop invariant at `serialize`'s entry state. -/
theorem LoopInv_init {c : ModuleCollection} (hclean : Clean c) :
    LoopInv c.modules c.modules [] 0 := by
  obtain ⟨hm, hs, hi⟩ := clean_views hclean
  refine ⟨sameStatics_self _, hm, ?_, ?_, ?_, ?_, ?_, by simp, ?_, ?_, ?_⟩
  · intro k hk
    rw [hs k] at hk
    exact absurd hk (by simp)
  · intro k hk
    rw [hi k] at hk
    exact absurd hk (by simp)
  · intro k k' hk _ _
    rw [hi k] at hk
    exact absurd hk (by simp)
  · intro k hk
    rw [hi k] at hk
    exact absurd hk (by simp)
  · intro j hj
    omega
  · intro k hk
    rw [hs k] at hk
    exact absurd hk (by simp)
  · intro b hb
    simp at hb
  · simp

theorem nodup_bucket : ∀ {st : List (List String)}, st.flatten.Nodup →
    ∀ {l : List String}, l ∈ st → l.Nodup := by
  intro st
  induction st with
  | nil => intro _ l hl; simp at hl
  | cons b t ih =>
    intro h l hl
    rw [List.flatten_cons] at h
    rcases List.mem_cons.mp hl with he | he
    · rw [he]
      exact h.of_append_left
    · exact ih h.of_append_right he

/-- A state whose stack satisfies the invariant and in which every existing
module is sorted describes an acyclic requires-graph: along an edge the
bucket position strictly decreases. -/
theorem no_cycle_of_final {cms ms : List Module} {st : List (List String)}
    (hpush : InvPush cms ms st)
    (hsorted : ∀ k, findModule cms k ≠ none → sortedB ms k = true) :
    ¬ HasCycle cms := by
  rintro ⟨a, htg⟩
  obtain ⟨p1, p2, p3⟩ := hpush
  have key : ∀ x y, Relation.TransGen (EdgeL cms) x y →
      ∀ b i, b < st.length → i < (st.getD b []).length → (st.getD b []).getD i "" = x →
      ∃ j, j < i ∧ (st.getD b []).getD j "" = y := by
    intro x y htg
    induction htg with
    | single h =>
      intro b i hb hi hx
      obtain ⟨q1, q2, q3⟩ := p2 b hb i hi
      rw [hx] at q3
      exact q3 _ h
    | tail htg1 hedge ih =>
      intro b i hb hi hx
      obtain ⟨j, hj, hyj⟩ := ih b i hb hi hx
      obtain ⟨q1, q2, q3⟩ := p2 b hb j (lt_trans hj hi)
      rw [hyj] at q3
      obtain ⟨j2, hj2, hyj2⟩ := q3 _ hedge
      exact ⟨j2, lt_trans hj2 hj, hyj2⟩
  have haedge : ∀ y, Relation.TransGen (EdgeL cms) a y → ∃ b0, EdgeL cms a b0 := by
    intro y hy
    induction hy with
    | single h => exact ⟨_, h⟩
    | tail _ _ ih => exact ih
  obtain ⟨b0, hab0⟩ := haedge a htg
  have hafound : findModule cms a ≠ none := by
    unfold EdgeL reqsOf at hab0
    cases hfa : findModule cms a with
    | none =>
      simp only [hfa] at hab0
      exact absurd hab0 (by simp)
    | some _ => simp [hfa]
  obtain ⟨hlt, hmem⟩ := p1 a (hsorted a hafound)
  obtain ⟨i, hi, hie⟩ := mem_getD_str hmem
  obtain ⟨j, hj, hje⟩ := key a a htg (idxOf ms a) i hlt hi hie
  -- two distinct positions of the same name inside one duplicate-free bucket
  have hbnod : (st.getD (idxOf ms a) []).Nodup := by
    apply nodup_bucket p3
    rw [List.getD_eq_getElem _ _ hlt]
    exact List.getElem_mem hlt
  rw [List.getD_eq_getElem _ _ hi] at hie
  rw [List.getD_eq_getElem _ _ (lt_trans hj hi)] at hje
  have : j = i := by
    have := (List.Nodup.getElem_inj_iff hbnod).mp (hje.trans hie.symm)
    omega
  omega

/-- The two possible outcomes of `serialize` on a well-formed clean
collection: either the loop completes normally, leaving a final state that
satisfies the loop invariant with every module sorted, and `serialize`
returns the sort stack; or `serialize` returns the cyclic-dependency error
naming a module that lies on a requires-cycle. -/
theorem serialize_run (c : ModuleCollection) (hwf : WF c) (hclean : Clean c) :
    (∃ ms' st' ap',
      serializeGo (c.modules.length + 1) (c.modules.map (fun m => m.name))
          c.modules 0 [] = some (SerResult.ok ms' st' ap') ∧
      LoopInv c.modules ms' st' ap' ∧
      (∀ k, findModule c.modules k ≠ none → sortedB ms' k = true) ∧
      c.serialize = JsResult.ok st'
        { c with modules :=
            ms'.map (fun m => { m with sorting := false, indexing := false }) }) ∨
    (∃ y ms₂,
      c.serialize = JsResult.err
        ("Cyclic dependency error discovered while parsing: " ++ y)
        { c with modules := ms₂ } ∧
      Relation.TransGen (EdgeL c.modules) y y) := by
  have hA : countActive c.modules < c.modules.length + 1 :=
    Nat.lt_succ_of_le (countActive_le_length c.modules)
  have hU : countUnindexed c.modules < c.modules.length + 1 :=
    Nat.lt_succ_of_le (countUnindexed_le_length c.modules)
  cases hrun : serializeGo (c.modules.length + 1) (c.modules.map (fun m => m.name))
      c.modules 0 [] with
  | none => exact absurd hrun (serializeGo_suff _ hA hU)
  | some r =>
    cases r with
    | ok ms' st' ap' =>
      left
      obtain ⟨hinv, _, _, hnames⟩ := serializeGo_ok _ hrun (WF_closed_reqs hwf)
        (WF_closed_deps hwf) (WF_wadj_symm hwf) (LoopInv_init hclean)
      refine ⟨ms', st', ap', Eq.refl _, hinv, ?_, ?_⟩
      · intro k hk
        apply hnames k ?_ hk
        cases hfk : findModule c.modules k with
        | none => exact absurd hfk hk
        | some m =>
          exact List.mem_map.mpr ⟨m, mem_of_findModule hfk, findModule_eq_name hfk⟩
      · unfold ModuleCollection.serialize serializeFuel
        simp only [hrun]
    | thrown e ms₂ =>
      right
      obtain ⟨y, hy, hcyc⟩ := serializeGo_thrown _ hrun (sameStatics_self _)
        (clean_views hclean).1
      subst hy
      refine ⟨y, ms₂, ?_, hcyc⟩
      unfold ModuleCollection.serialize serializeFuel
      simp only [hrun]

theorem mem_flatten_of_bucket {st : List (List String)} {b : Nat} {x : String}
    (hb : b < st.length) (hx : x ∈ st.getD b []) : x ∈ st.flatten := by
  rw [List.mem_flatten]
  refine ⟨st.getD b [], ?_, hx⟩
  rw [List.getD_eq_getElem _ _ hb]
  exact List.getElem_mem hb

/-- A module list admitting a rank function that strictly decreases along
`requires` keys has no requires-cycle. -/
theorem acyclic_of_rank (ms : List Module) (rank : String → Nat)
    (h : ∀ m ∈ ms, ∀ r ∈ m.requiresKeys, rank r < rank m.name) :
    ¬ HasCycle ms := by
  rintro ⟨a, htg⟩
  have hstep : ∀ x y, EdgeL ms x y → rank y < rank x := by
    intro x y hxy
    unfold EdgeL reqsOf at hxy
    cases hfx : findModule ms x with
    | none =>
      simp only [hfx] at hxy
      exact absurd hxy (by simp)
    | some mx =>
      simp only [hfx] at hxy
      have := h mx (mem_of_findModule hfx) y hxy
      rw [findModule_eq_name hfx] at this
      exact this
  have hpath : ∀ x y, Relation.TransGen (EdgeL ms) x y → rank y < rank x := by
    intro x y htg2
    induction htg2 with
    | single h1 => exact hstep _ _ h1
    | tail _ h1 ih => exact lt_trans (hstep _ _ h1) ih
  exact lt_irrefl _ (hpath a a htg)

/-- C1: on every well-formed, clean collection whose requires-edges form no
cycle, `serialize()` succeeds, and within each returned bucket every module
sits strictly after every key of its requires set: each requirement of the
entry at position `i` occurs at some position `j < i` of the same bucket. -/
theorem c1_serialize_orders_requirements (c : ModuleCollection) (hwf : WF c)
    (hclean : Clean c) (hacyc : ¬ HasCycle c.modules) :
    ∃ st cf, c.serialize = JsResult.ok st cf ∧
      ∀ b, b < st.length → ∀ i, i < (st.getD b []).length →
        ∀ r ∈ reqsOf c.modules ((st.getD b []).getD i ""),
          ∃ j, j < i ∧ (st.getD b []).getD j "" = r := by
  rcases serialize_run c hwf hclean with
    ⟨ms', st', ap', _, hinv, hsorted, heq⟩ | ⟨y, ms₂, herr, hcyc⟩
  · obtain ⟨f1, f2, f3, f4, f5, f6, f7, f8, p1, p2, p3⟩ := hinv
    refine ⟨st', _, heq, ?_⟩
    intro b hb i hi r hr
    exact (p2 b hb i hi).2.2 r hr
  · exact absurd ⟨y, hcyc⟩ hacyc

/-- C1 witness: the chain built by `connect("A","B"); connect("B","C")` is
well-formed, clean and acyclic, `serialize()` succeeds with the dependency
order inside each bucket, and the returned stack is the single bucket
`["C", "B", "A"]`. -/
theorem c1_serialize_orders_requirements_witness :
    (chainCollection.serialize).value = some [["C", "B", "A"]] ∧
    (∃ st cf, chainCollection.serialize = JsResult.ok st cf ∧
      ∀ b, b < st.length → ∀ i, i < (st.getD b []).length →
        ∀ r ∈ reqsOf chainCollection.modules ((st.getD b []).getD i ""),
          ∃ j, j < i ∧ (st.getD b []).getD j "" = r) :=
  ⟨by decide,
    c1_serialize_orders_requirements chainCollection (by decide) (by decide)
      (acyclic_of_rank chainCollection.modules
        (fun s => if s = "A" then 2 else if s = "B" then 1 else 0) (by decide))⟩

/-- C2: on every well-formed, clean collection containing a directed
requires-cycle, `serialize()` fails with the cyclic-dependency error naming
a module that lies on a requires-cycle, and no bucket sequence is
returned. -/
theorem c2_cycle_detected_and_named (c : ModuleCollection) (hwf : WF c)
    (hclean : Clean c) (hcyc : HasCycle c.modules) :
    ∃ y cf, c.serialize = JsResult.err
        ("Cyclic dependency error discovered while parsing: " ++ y) cf ∧
      Relation.TransGen (EdgeL c.modules) y y ∧
      (c.serialize).value = none := by
  rcases serialize_run c hwf hclean with
    ⟨ms', st', ap', _, hinv, hsorted, heq⟩ | ⟨y, ms₂, herr, hcycy⟩
  · exact absurd hcyc (no_cycle_of_final hinv.2.2.2.2.2.2.2.2 hsorted)
  · exact ⟨y, _, herr, hcycy, by rw [herr]; rfl⟩

/-- C2 witness: the three-cycle built by `connect("A","B"); connect("B","C");
connect("C","A")`. -/
theorem c2_cycle_detected_and_named_witness :
    HasCycle threeCycleCollection.modules ∧
    (∃ y cf, threeCycleCollection.serialize = JsResult.err
        ("Cyclic dependency error discovered while parsing: " ++ y) cf ∧
      Relation.TransGen (EdgeL threeCycleCollection.modules) y y ∧
      (threeCycleCollection.serialize).value = none) := by
  have e1 : EdgeL threeCycleCollection.modules "A" "B" := by decide
  have e2 : EdgeL threeCycleCollection.modules "B" "C" := by decide
  have e3 : EdgeL threeCycleCollection.modules "C" "A" := by decide
  have hcyc : HasCycle threeCycleCollection.modules :=
    ⟨"A", Relation.TransGen.head e1
      (Relation.TransGen.head e2 (Relation.TransGen.single e3))⟩
  exact ⟨hcyc,
    c2_cycle_detected_and_named threeCycleCollection (by decide) (by decide) hcyc⟩

/-- C3: on every well-formed, clean, acyclic collection, `serialize()`
returns exactly one bucket per weakly-connected component: every module name
appears in the stack exactly once, every stack entry names a module, no
bucket is empty, and two entries share a bucket precisely when their modules
are weakly connected. -/
theorem c3_one_bucket_per_component (c : ModuleCollection) (hwf : WF c)
    (hclean : Clean c) (hacyc : ¬ HasCycle c.modules) :
    ∃ st cf, c.serialize = JsResult.ok st cf ∧
      st.flatten.Nodup ∧
      (∀ m ∈ c.modules, m.name ∈ st.flatten) ∧
      (∀ x ∈ st.flatten, findModule c.modules x ≠ none) ∧
      (∀ b, b < st.length → st.getD b [] ≠ []) ∧
      (∀ x y, x ∈ st.flatten → y ∈ st.flatten →
        ((∃ b, b < st.length ∧ x ∈ st.getD b [] ∧ y ∈ st.getD b []) ↔
          WConnL c.modules x y)) := by
  rcases serialize_run c hwf hclean with
    ⟨ms', st', ap', _, hinv, hsorted, heq⟩ | ⟨y, ms₂, herr, hcyc⟩
  · obtain ⟨f1, f2, f3, f4, f5, f6, f7, f8, p1, p2, p3⟩ := hinv
    have hentry : ∀ x ∈ st'.flatten, sortedB ms' x = true ∧
        idxOf ms' x < st'.length ∧ x ∈ st'.getD (idxOf ms' x) [] := by
      intro x hx
      rw [List.mem_flatten] at hx
      obtain ⟨l, hl, hxl⟩ := hx
      obtain ⟨b0, hb0, hgetl⟩ := List.mem_iff_getElem.mp hl
      have hbl : st'.getD b0 [] = l := by
        rw [List.getD_eq_getElem _ _ hb0]
        exact hgetl
      obtain ⟨i0, hi0, hgei⟩ := mem_getD_str hxl
      have hq := p2 b0 hb0 i0 (by rw [hbl]; exact hi0)
      rw [hbl, hgei] at hq
      obtain ⟨hq1, _, _⟩ := hq
      obtain ⟨hlt, hmem⟩ := p1 x hq1
      exact ⟨hq1, hlt, hmem⟩
    have hfound_of_entry : ∀ x, sortedB ms' x = true →
        findModule c.modules x ≠ none := by
      intro x hx hcon
      rw [← findModule_none_statics f1 x] at hcon
      unfold sortedB at hx
      rw [hcon] at hx
      exact absurd hx (by simp)
    have hidx_walk : ∀ u v, WConnL c.modules u v → indexedB ms' u = true →
        indexedB ms' v = true ∧ idxOf ms' v = idxOf ms' u := by
      intro u v hconn hu
      induction hconn with
      | refl => exact ⟨hu, rfl⟩
      | tail hprev hadj ih =>
        obtain ⟨hmid, hmidx⟩ := ih
        have hadj2 : _ ∈ reqsOf c.modules _ ∨ _ ∈ depsOf c.modules _ := hadj
        have hstep := f4 _ hmid _ (List.mem_append.mpr hadj2)
        exact ⟨hstep.1, hstep.2.trans hmidx⟩
    refine ⟨st', _, heq, p3, ?_, ?_, ?_, ?_⟩
    · intro m hm
      have hne : findModule c.modules m.name ≠ none := by
        rw [Ne, findModule_eq_none_iff]
        push_neg
        exact ⟨m, hm, rfl⟩
      obtain ⟨hlt, hmem⟩ := p1 m.name (hsorted m.name hne)
      exact mem_flatten_of_bucket hlt hmem
    · intro x hx
      exact hfound_of_entry x (hentry x hx).1
    · intro b hb
      have hbap : b < ap' := lt_of_lt_of_le hb f8
      obtain ⟨k, hki, hkx⟩ := f7 b hbap
      have hkfound : findModule c.modules k ≠ none := by
        intro hcon
        rw [← findModule_none_statics f1 k] at hcon
        unfold indexedB at hki
        rw [hcon] at hki
        exact absurd hki (by simp)
      obtain ⟨hlt, hmem⟩ := p1 k (hsorted k hkfound)
      rw [hkx] at hmem
      exact List.ne_nil_of_mem hmem
    · intro x y hx hy
      constructor
      · rintro ⟨b, hb, hxb, hyb⟩
        obtain ⟨ix, hix, hxe⟩ := mem_getD_str hxb
        obtain ⟨iy, hiy, hye⟩ := mem_getD_str hyb
        have hqx := p2 b hb ix hix
        have hqy := p2 b hb iy hiy
        rw [hxe] at hqx
        rw [hye] at hqy
        exact f5 x y (f3 x hqx.1) (f3 y hqy.1) (hqx.2.1.trans hqy.2.1.symm)
      · intro hconn
        obtain ⟨hxs, hxlt, hxmem⟩ := hentry x hx
        obtain ⟨hys, hylt, hymem⟩ := hentry y hy
        obtain ⟨hyi, hyx⟩ := hidx_walk x y hconn (f3 x hxs)
        refine ⟨idxOf ms' x, hxlt, hxmem, ?_⟩
        rw [← hyx]
        exact hymem
  · exact absurd ⟨y, hcyc⟩ hacyc

/-- C3 witness: the two disjoint chains `connect("A","B"); connect("X","Y")`
serialize to the two buckets `["B", "A"]` and `["Y", "X"]`, and the general
component characterisation applies to them. -/
theorem c3_one_bucket_per_component_witness :
    (twoChainsCollection.serialize).value = some [["B", "A"], ["Y", "X"]] ∧
    (∃ st cf, twoChainsCollection.serialize = JsResult.ok st cf ∧
      st.flatten.Nodup ∧
      (∀ m ∈ twoChainsCollection.modules, m.name ∈ st.flatten) ∧
      (∀ x ∈ st.flatten, findModule twoChainsCollection.modules x ≠ none) ∧
      (∀ b, b < st.length → st.getD b [] ≠ []) ∧
      (∀ x y, x ∈ st.flatten → y ∈ st.flatten →
        ((∃ b, b < st.length ∧ x ∈ st.getD b [] ∧ y ∈ st.getD b []) ↔
          WConnL twoChainsCollection.modules x y))) :=
  ⟨by decide,
    c3_one_bucket_per_component twoChainsCollection (by decide) (by decide)
      (acyclic_of_rank twoChainsCollection.modules
        (fun s => if s = "A" then 1 else if s = "X" then 1 else 0) (by decide))⟩

/-- C10 witness: the whitespace-only name `" "` on the empty collection. -/
theorem c10_get_whitespace_name_inflates_counter_witness :
    WF emptyCollection ∧ (" " : String) ≠ "" ∧ jsTrim " " = "" ∧
    (emptyCollection.get " " true = JsResult.err "Not a valid string: "
      { emptyCollection with numberOfModules := emptyCollection.numberOfModules + 1 } ∧
     emptyCollection.numberOfModules + 1 > emptyCollection.modules.length) :=
  ⟨by decide, by decide, by decide,
    c10_get_whitespace_name_inflates_counter emptyCollection (by decide) " "
      (by decide) (by decide)⟩

end Jslink
